import Mathlib

/-!
# Benchmark harness of `utils/benchmark.go`

A shallow embedding of `Run` and `PrintResult` and of the parts of the Go runtime
they rely on (binary64 arithmetic, `time.Duration`, `slices.Sort`, `fmt.Printf`),
followed by the properties proved about them.
-/

namespace Bench

/-! ## binary64 arithmetic -/

/-- A Go `float64`: a finite value (held as the exact rational it denotes), an
infinity or a NaN. The sign of a zero is not represented: no expression of
`benchmark.go` produces a negative zero. -/
inductive F64 where
  | fin (q : ℚ)
  | pinf
  | ninf
  | nan
  deriving DecidableEq, Repr

/-- Nearest integer, ties to the even neighbour. -/
def roundHalfEven (x : ℚ) : ℤ :=
  if x - ⌊x⌋ < 1 / 2 then ⌊x⌋
  else if 1 / 2 < x - ⌊x⌋ then ⌊x⌋ + 1
  else if ⌊x⌋ % 2 = 0 then ⌊x⌋ else ⌊x⌋ + 1

namespace F64

/-- Spacing of the binary64 values around `q`: 53 significant bits, and the
fixed spacing `2^-1074` of the subnormal range. -/
def ulp (q : ℚ) : ℚ := (2 : ℚ) ^ (max (Int.log 2 |q|) (-1022) - 52)

/-- Rounding of an exact result to binary64, round-to-nearest-even, with
overflow to an infinity. -/
def round (q : ℚ) : F64 :=
  if q = 0 then fin 0
  else
    let r : ℚ := (roundHalfEven (q / ulp q) : ℚ) * ulp q
    if (2 : ℚ) ^ (1024 : ℕ) ≤ |r| then (if 0 < q then pinf else ninf) else fin r

/-- Conversion `float64(n)` of an integer. -/
def ofInt (n : ℤ) : F64 := round (n : ℚ)

/-- Sum `x + y`. -/
def add : F64 → F64 → F64
  | fin a, fin b => round (a + b)
  | nan, _ => nan
  | _, nan => nan
  | pinf, ninf => nan
  | ninf, pinf => nan
  | pinf, _ => pinf
  | _, pinf => pinf
  | ninf, _ => ninf
  | _, ninf => ninf

/-- Product `x * y`. -/
def mul : F64 → F64 → F64
  | fin a, fin b => round (a * b)
  | nan, _ => nan
  | _, nan => nan
  | fin a, pinf => if a = 0 then nan else if 0 < a then pinf else ninf
  | fin a, ninf => if a = 0 then nan else if 0 < a then ninf else pinf
  | pinf, fin b => if b = 0 then nan else if 0 < b then pinf else ninf
  | ninf, fin b => if b = 0 then nan else if 0 < b then ninf else pinf
  | pinf, pinf => pinf
  | ninf, ninf => pinf
  | pinf, ninf => ninf
  | ninf, pinf => ninf

/-- Quotient `x / y`. A float division by zero does not panic: it gives NaN
for `0 / 0` and an infinity otherwise. -/
def div : F64 → F64 → F64
  | fin a, fin b =>
    if b = 0 then (if a = 0 then nan else if 0 < a then pinf else ninf)
    else round (a / b)
  | nan, _ => nan
  | _, nan => nan
  | fin _, pinf => fin 0
  | fin _, ninf => fin 0
  | pinf, fin b => if 0 ≤ b then pinf else ninf
  | ninf, fin b => if 0 ≤ b then ninf else pinf
  | pinf, pinf => nan
  | pinf, ninf => nan
  | ninf, pinf => nan
  | ninf, ninf => nan

/-- The function `math.Ceil`. -/
def ceil : F64 → F64
  | fin a => fin (⌈a⌉ : ℤ)
  | x => x

/-- Conversion `int(x)` to a 64-bit integer: truncation toward zero; a value
that does not fit (or a NaN) gives the smallest `int64`, as on amd64. -/
def toInt : F64 → ℤ
  | fin a =>
    let t : ℤ := if 0 ≤ a then ⌊a⌋ else ⌈a⌉
    if -(2 : ℤ) ^ 63 ≤ t ∧ t < (2 : ℤ) ^ 63 then t else -(2 : ℤ) ^ 63
  | _ => -(2 : ℤ) ^ 63

/-- Comparison `x < y`; false whenever an operand is NaN. -/
def lt : F64 → F64 → Bool
  | fin a, fin b => decide (a < b)
  | fin _, pinf => true
  | ninf, fin _ => true
  | ninf, pinf => true
  | _, _ => false

end F64

/-! ## Durations, sorting, formatting -/

/-- A `time.Duration`: a count of nanoseconds held in an `int64`. -/
abbrev Duration := ℤ

/-- Two's-complement wrap-around of 64-bit signed arithmetic. -/
def wrap64 (x : ℤ) : ℤ := (x + 2 ^ 63) % 2 ^ 64 - 2 ^ 63

/-- Wrap-around of 64-bit unsigned arithmetic. -/
def wrapU64 (x : ℤ) : ℤ := x % 2 ^ 64

/-- The method `Duration.Seconds`: whole seconds plus the fraction, the
integer division and remainder truncating toward zero. -/
def Duration.Seconds (d : Duration) : F64 :=
  F64.add (F64.ofInt (Int.tdiv d 1000000000))
    (F64.div (F64.ofInt (Int.tmod d 1000000000)) (F64.round 1000000000))

/-- The library call `slices.Sort` on durations: the ascending rearrangement. -/
def sortDurations (times : List Duration) : List Duration :=
  List.insertionSort (fun a b => a ≤ b) times

/-- Left-aligned padding with spaces to a minimum width, counted in
characters (`%-Ns`); a longer text is not cut. -/
def padRight (width : ℕ) (s : String) : String :=
  s ++ String.mk (List.replicate (width - s.length) ' ')

/-- Decimal digits of `n`, zero-padded on the left to `width` digits. -/
def zeroPad (width n : ℕ) : String :=
  String.mk (List.replicate (width - (toString n).length) '0') ++ toString n

/-- The verb `%.4f`: fixed-point notation with 4 digits after the point,
the exact value rounded to nearest, ties to even. -/
def fmt4 : F64 → String
  | .fin q =>
    let n : ℕ := (roundHalfEven (|q| * 10000)).toNat
    (if q < 0 then "-" else "") ++ toString (n / 10000) ++ "." ++ zeroPad 4 (n % 10000)
  | .pinf => "+Inf"
  | .ninf => "-Inf"
  | .nan => "NaN"

/-! ## The harness -/

/-- The counters of `runtime.MemStats` that `Run` reads, both `uint64`. -/
structure MemStats where
  TotalAlloc : ℕ
  PauseTotalNs : ℕ
  deriving DecidableEq, Repr

/-- One record per benchmarked operation. -/
structure Result where
  Operation : String
  AvgLatency : F64
  P95Latency : F64
  Throughput : F64
  AvgRAM : F64
  GCPause : F64
  deriving DecidableEq, Repr

/-- An operation under measurement; `Execute` acts on the state `σ` of the
world outside the harness and returns its error (`none` for `nil`). -/
structure Operation (σ : Type) where
  Name : String
  Execute : ℤ → σ → Option String × σ

/-- The runtime services `Run` calls; each may advance the outside state.
`Alloc n` tells whether the runtime has the memory for a slice of `n`
durations; `Now` gives a clock reading and `Since` the `int64` duration
elapsed since one. -/
structure Runtime (σ : Type) where
  Alloc : ℤ → σ → Bool
  GC : σ → σ
  ReadMemStats : σ → MemStats × σ
  Now : σ → ℤ × σ
  Since : ℤ → σ → Duration × σ

/-- What a run does that can be observed, in the order it happens. -/
inductive Event where
  /-- The call `Execute(i)` of the named operation returned `nil`; `d` is the
  duration `time.Since` measured around it. -/
  | call (op : String) (i : ℤ) (d : Duration)
  /-- The call `Execute(i)` of the named operation returned an error. -/
  | failed (op : String) (i : ℤ) (err : String)
  /-- A line written to standard output. -/
  | out (line : String)
  /-- The message `log.Fatalf` logs before it exits the process. -/
  | fatal (msg : String)
  deriving DecidableEq, Repr

/-- How a piece of the program ends: normally with a value, by the process
exit of `log.Fatalf`, or by a runtime panic or fatal runtime error, `msg`
telling which. -/
inductive Outcome (σ α : Type) where
  | ok (a : α) (s : σ)
  | fatal (s : σ)
  | panic (msg : String) (s : σ)
  deriving DecidableEq, Repr

/-- The length above which `make([]time.Duration, n)` panics with `len out of
range`: `maxAlloc` (`2^48` bytes on 64-bit platforms) over the element size of
8 bytes. A slice no longer than this is allocated only when the runtime has
the memory for it. -/
def maxLen : ℤ := 2 ^ 45

/-- The text logged when `Execute` fails. -/
def fatalMsg (name err : String) : String :=
  "failed to execute operation \"" ++ name ++ "\": " ++ err

/-- The measuring loop: `n` iterations remain, `i` is the loop counter. -/
def loop {σ : Type} (rt : Runtime σ) (op : Operation σ) :
    ℕ → ℤ → List Duration → σ → List Event × Outcome σ (List Duration)
  | 0, _, times, s => ([], .ok times s)
  | n + 1, i, times, s =>
    let t := rt.Now s
    let r := op.Execute i t.2
    match r.1 with
    | some err => ([.failed op.Name i err, .fatal (fatalMsg op.Name err)], .fatal r.2)
    | none =>
      let d := rt.Since t.1 r.2
      let rest := loop rt op n (i + 1) (times.set i.toNat d.1) d.2
      (.call op.Name i d.1 :: rest.1, rest.2)

/-- The first part of `Run`, up to the second snapshot: allocation of the
timing sample, garbage collection, first snapshot, the timed calls, second
snapshot. Yields the sample and the two snapshots. The allocation
`make([]time.Duration, iterations)` panics for a length that is negative or
above `maxLen`; for a positive length the runtime has no memory for, the
process dies with `fatal error: runtime: out of memory`; a slice of length 0
needs no memory. -/
def measure {σ : Type} (rt : Runtime σ) (op : Operation σ) (iterations : ℤ) (s : σ) :
    List Event × Outcome σ (List Duration × MemStats × MemStats) :=
  if iterations < 0 ∨ maxLen < iterations then
    ([], .panic "makeslice: len out of range" s)
  else if 0 < iterations ∧ rt.Alloc iterations s = false then
    ([], .panic "runtime: out of memory" s)
  else
    let times := List.replicate iterations.toNat (0 : Duration)
    let m := rt.ReadMemStats (rt.GC s)
    let l := loop rt op iterations.toNat 0 times m.2
    match l.2 with
    | .ok ts s1 =>
      let m1 := rt.ReadMemStats s1
      (l.1, .ok (ts, m.1, m1.1) m1.2)
    | .fatal s1 => (l.1, .fatal s1)
    | .panic msg s1 => (l.1, .panic msg s1)

/-- The running total `totalTime += t` over the sample, in `int64`. -/
def totalTime (times : List Duration) : Duration :=
  times.foldl (fun acc t => wrap64 (acc + t)) 0

/-- The index `max(int(math.Ceil(0.95*float64(iterations)))-1, 0)`. -/
def p95Index (iterations : ℤ) : ℤ :=
  max (wrap64 (F64.toInt (F64.ceil (F64.mul (F64.round (19 / 20)) (F64.ofInt iterations))) - 1)) 0

/-- The second part of `Run`: the statistics. `none` is the panic of an index
out of range at `times[idx]`. -/
def stats (name : String) (iterations : ℤ) (times : List Duration)
    (memStart memEnd : MemStats) : Option Result :=
  let avgLatency :=
    F64.div (F64.div (F64.ofInt (totalTime times)) (F64.ofInt iterations)) (F64.round 1000000)
  let sorted := sortDurations times
  match sorted[(p95Index iterations).toNat]? with
  | none => none
  | some t =>
    some
      { Operation := name
        AvgLatency := avgLatency
        P95Latency := F64.div (F64.ofInt t) (F64.round 1000000)
        Throughput := F64.div (F64.ofInt iterations) (Duration.Seconds (totalTime times))
        AvgRAM :=
          F64.div
            (F64.div (F64.ofInt (wrapU64 ((memEnd.TotalAlloc : ℤ) - memStart.TotalAlloc)))
              (F64.ofInt iterations))
            (F64.round (1024 * 1024))
        GCPause :=
          F64.div (F64.ofInt (wrapU64 ((memEnd.PauseTotalNs : ℤ) - memStart.PauseTotalNs)))
            (F64.round 1000000) }

/-- The function `Run`. -/
def Run {σ : Type} (rt : Runtime σ) (op : Operation σ) (iterations : ℤ) (s : σ) :
    List Event × Outcome σ Result :=
  let m := measure rt op iterations s
  match m.2 with
  | .ok (times, memStart, memEnd) s1 =>
    match stats op.Name iterations times memStart memEnd with
    | some r => (m.1, .ok r s1)
    | none => (m.1, .panic "index out of range" s1)
  | .fatal s1 => (m.1, .fatal s1)
  | .panic msg s1 => (m.1, .panic msg s1)

/-- The header line of the report. -/
def headerLine : String :=
  padRight 60 "Operation" ++ " " ++ padRight 20 "Avg Latency (ms)" ++ " " ++
    padRight 20 "P95 Latency (ms)" ++ " " ++ padRight 20 "Throughput (ops/s)" ++ " " ++
    padRight 20 "Avg RAM (MB)" ++ " " ++ padRight 20 "GC Pause (ms)" ++ "\n"

/-- The line printed for one `Result`. -/
def formatRow (r : Result) : String :=
  padRight 60 r.Operation ++ " " ++ padRight 20 (fmt4 r.AvgLatency) ++ " " ++
    padRight 20 (fmt4 r.P95Latency) ++ " " ++ padRight 20 (fmt4 r.Throughput) ++ " " ++
    padRight 20 (fmt4 r.AvgRAM) ++ " " ++ padRight 20 (fmt4 r.GCPause) ++ "\n"

/-- The loop of `PrintResult` over the operations. -/
def printRows {σ : Type} (rt : Runtime σ) (iterations : ℤ) :
    List (Operation σ) → σ → List Event × Outcome σ Unit
  | [], s => ([], .ok () s)
  | op :: rest, s =>
    let r := Run rt op iterations s
    match r.2 with
    | .ok result s1 =>
      let k := printRows rt iterations rest s1
      (r.1 ++ .out (formatRow result) :: k.1, k.2)
    | .fatal s1 => (r.1, .fatal s1)
    | .panic msg s1 => (r.1, .panic msg s1)

/-- The function `PrintResult`. -/
def PrintResult {σ : Type} (rt : Runtime σ) (operations : List (Operation σ))
    (iterations : ℤ) (s : σ) : List Event × Outcome σ Unit :=
  let k := printRows rt iterations operations s
  (.out headerLine :: k.1, k.2)

/-- The lines written to standard output, in order. -/
def outLines : List Event → List String
  | [] => []
  | .out l :: es => l :: outLines es
  | _ :: es => outLines es

/-- The events of successive successful calls of one operation, the first at
index `a`, one per measured duration of `ds`. -/
def callEvents (name : String) (a : ℕ) (ds : List Duration) : List Event :=
  List.zipWith (fun (k : ℕ) d => Event.call name (k : ℤ) d) (List.range' a ds.length) ds

/-! ## A small world for concrete runs -/

/-- A runtime whose outside state is the clock itself, in nanoseconds: the
snapshots report the state as bytes allocated and no pause; it has the memory
for a sample of up to `2^30` durations. -/
def clockRuntime : Runtime ℕ where
  Alloc := fun n _ => decide (n ≤ 2 ^ 30)
  GC := fun s => s
  ReadMemStats := fun s => (⟨s, 0⟩, s)
  Now := fun s => ((s : ℤ), s)
  Since := fun t s => ((s : ℤ) - t, s)

/-- An operation whose call `Execute(i)` always succeeds and takes `i + 1`
milliseconds. -/
def rampOp : Operation ℕ where
  Name := "ramp"
  Execute := fun i s => (none, s + 1000000 * (i.toNat + 1))

/-- An operation whose call `Execute(i)` takes one nanosecond and fails at
index `k`. -/
def failAt (k : ℤ) : Operation ℕ where
  Name := "flaky"
  Execute := fun i s => (if i = k then some "boom" else none, s + 1)

/-- A runtime that replays durations: the outside state is the list of the
durations still to be measured, `time.Since` hands out the next one; it has
the memory for a sample of up to `2^30` durations. -/
def replayRuntime : Runtime (List Duration) where
  Alloc := fun n _ => decide (n ≤ 2 ^ 30)
  GC := fun s => s
  ReadMemStats := fun s => (⟨0, 0⟩, s)
  Now := fun s => (0, s)
  Since := fun _ s => (s.headD 0, s.tail)

/-- An operation that always succeeds and leaves the outside state alone. -/
def quietOp : Operation (List Duration) where
  Name := "quiet"
  Execute := fun _ s => (none, s)

/-- An operation whose every call succeeds and takes exactly one millisecond. -/
def steadyOp : Operation ℕ where
  Name := "steady"
  Execute := fun _ s => (none, s + 1000000)

/-- A runtime that replays a recording: the outside state holds the snapshots
still to be read and the durations still to be measured; `ReadMemStats` and
`time.Since` hand out the next entry of each; it has the memory for a sample
of up to `2^30` durations. -/
def tapeRuntime : Runtime (List MemStats × List Duration) where
  Alloc := fun n _ => decide (n ≤ 2 ^ 30)
  GC := fun s => s
  ReadMemStats := fun s => (s.1.headD ⟨0, 0⟩, (s.1.tail, s.2))
  Now := fun s => (0, s)
  Since := fun _ s => (s.2.headD 0, (s.1, s.2.tail))

/-- An operation of the given name that always succeeds and leaves the outside
state alone. -/
def idleOp (name : String) : Operation (List MemStats × List Duration) where
  Name := name
  Execute := fun _ s => (none, s)

/-- Shape of a fixed-point numeral with exactly four decimals: an optional
minus sign, at least one digit, a point, four digits. -/
def isFixed4 (s : String) : Bool :=
  let body := if s.data.head? = some '-' then s.data.tail else s.data
  let whole := body.takeWhile Char.isDigit
  let rest := body.dropWhile Char.isDigit
  !whole.isEmpty && rest.head? == some '.' && rest.tail.length == 4 && rest.tail.all Char.isDigit

/-- The number a run of decimal digits denotes. -/
def readDecimal (cs : List Char) : ℕ :=
  cs.foldl (fun acc c => 10 * acc + (c.toNat - 48)) 0

/-! ## The shipped operations -/

/-- The verb `%d` on an `int`: a minus sign for a negative value, then the
decimal digits of the magnitude. -/
def formatInt (n : ℤ) : String :=
  if n < 0 then "-" ++ toString n.natAbs else toString n.toNat

/-- The expression `fmt.Sprintf("Product_%d", iteration)`. -/
def sprintfProduct (iteration : ℤ) : String := "Product_" ++ formatInt iteration

/-- An argument handed to the database with a statement. -/
inductive SqlValue where
  | text (s : String)
  | float (x : F64)
  | int (n : ℤ)
  deriving DecidableEq, Repr

/-- The struct `models.Product`; `CreatedAt` is held as a count of nanoseconds. -/
structure Product where
  ID : ℤ
  Name : String
  Description : String
  Price : F64
  Stock : ℤ
  CreatedAt : ℤ
  deriving DecidableEq, Repr

/-- The calls the product operations make on their database handle: `Exec`
of `database/sql`, `Create` and `Where(...).Delete(...)` of GORM, and the
`Product.Create()` and `Product.Delete()` builders of the ent client with
the values set on them. -/
inductive DBCall where
  | Exec (query : String) (args : List SqlValue)
  | GormCreate (value : Product)
  | GormWhereDelete (query : String) (args : List SqlValue) (model : Product)
  | EntProductCreate (name description : String) (price : F64) (stock : ℤ)
  | EntProductDeleteWhereName (name : String)
  deriving DecidableEq, Repr

/-- A database handle: it runs a call against the outside state and returns
the error, `none` for `nil`. -/
abbrev Handle (σ : Type) := DBCall → σ → Option String × σ

/-- The constant `99.99` as a `float64`. -/
def price9999 : F64 := F64.round (9999 / 100)

namespace SQL

/-- The operation `CreateProduct` of the raw-SQL program. -/
def CreateProduct {σ : Type} (db : Handle σ) : Operation σ where
  Name := "Create Product"
  Execute := fun iteration s =>
    db (.Exec "INSERT INTO products (name, description, price, stock) VALUES ($1, $2, $3, $4)"
      [.text (sprintfProduct iteration), .text "Test product", .float price9999, .int 100]) s

/-- The operation `DeleteProductByName` of the raw-SQL program. -/
def DeleteProductByName {σ : Type} (db : Handle σ) : Operation σ where
  Name := "Delete Product by Name"
  Execute := fun iteration s =>
    db (.Exec "DELETE FROM products WHERE name = $1" [.text (sprintfProduct iteration)]) s

end SQL

namespace GORM

/-- The operation `CreateProduct` of the GORM program. -/
def CreateProduct {σ : Type} (db : Handle σ) : Operation σ where
  Name := "Create Product"
  Execute := fun iteration s =>
    db (.GormCreate
      { ID := 0, Name := sprintfProduct iteration, Description := "Test product",
        Price := price9999, Stock := 100, CreatedAt := 0 }) s

/-- The operation `DeleteProductByName` of the GORM program. -/
def DeleteProductByName {σ : Type} (db : Handle σ) : Operation σ where
  Name := "Delete Product by Name"
  Execute := fun iteration s =>
    db (.GormWhereDelete "name = ?" [.text (sprintfProduct iteration)]
      { ID := 0, Name := "", Description := "", Price := F64.fin 0, Stock := 0,
        CreatedAt := 0 }) s

end GORM

namespace Ent

/-- The operation `CreateProduct` of the ent program. -/
def CreateProduct {σ : Type} (db : Handle σ) : Operation σ where
  Name := "Create Product"
  Execute := fun iteration s =>
    db (.EntProductCreate (sprintfProduct iteration) "Test product" price9999 100) s

/-- The operation `DeleteProductByName` of the ent program. -/
def DeleteProductByName {σ : Type} (db : Handle σ) : Operation σ where
  Name := "Delete Product by Name"
  Execute := fun iteration s =>
    db (.EntProductDeleteWhereName (sprintfProduct iteration)) s

end Ent

/-- A handle that accepts every call and records it. -/
def recorder : Handle (List DBCall) := fun c s => (none, s ++ [c])

/-! ## The ent customer query -/

/-- The errors of the generated package that `Only` can return: its own
`*NotFoundError` and `*NotSingularError`, each carrying the entity label, and
whatever error the executed query reports. -/
inductive EntError where
  | NotFoundError (label : String)
  | NotSingularError (label : String)
  | query (msg : String)
  deriving DecidableEq, Repr

/-- The generated entity `Customer`, with the fields of its schema;
`CreatedAt` is held as a count of nanoseconds. -/
structure Customer where
  ID : ℤ
  Name : String
  Email : String
  CreatedAt : ℤ
  deriving DecidableEq, Repr

/-- A `predicate.Customer`, taken by what it selects: the rows it keeps. -/
abbrev Predicate := Customer → Bool

/-- The fields of `QueryContext` that the builder methods set. -/
structure QueryContext where
  Limit : Option ℤ
  Offset : Option ℤ
  Unique : Option Bool

/-- The builder `CustomerQuery`: its context and the predicates collected by
`Where`. The ordering, the interceptors, the eager-loading and the traversal
path are left out: neither `Where`, `Limit` nor `Only` reads or writes them. -/
structure CustomerQuery where
  ctx : QueryContext
  predicates : List Predicate

/-- The method `CustomerQuery.Where`. -/
def CustomerQuery.Where (cq : CustomerQuery) (ps : List Predicate) : CustomerQuery :=
  { cq with predicates := cq.predicates ++ ps }

/-- The method `CustomerQuery.Limit`. -/
def CustomerQuery.Limit (cq : CustomerQuery) (limit : ℤ) : CustomerQuery :=
  { cq with ctx := { cq.ctx with Limit := some limit } }

/-- What `Only` and `GetCustomerByID` use of the generated package beyond
this file: the constant `customer.Label`, the predicate constructor
`customer.ID`, the fresh query `client.Customer.Query()`, and the execution
`All` of a built query (interceptor chain and `sqlgraph.QueryNodes`), which
returns the entities found and an error, `none` for `nil`. -/
structure CustomerEnv (σ : Type) where
  Label : String
  ID : ℤ → Predicate
  Query : CustomerQuery
  All : CustomerQuery → σ → (List Customer × Option EntError) × σ

/-- The method `CustomerQuery.Only`: the pair `(*Customer, error)` it returns,
`none` for `nil`. -/
def CustomerQuery.Only {σ : Type} (env : CustomerEnv σ) (cq : CustomerQuery) (s : σ) :
    (Option Customer × Option EntError) × σ :=
  let r := env.All (cq.Limit 2) s
  match r.1.2 with
  | some err => ((none, some err), r.2)
  | none =>
    match r.1.1 with
    | [node] => ((some node, none), r.2)
    | [] => ((none, some (.NotFoundError env.Label)), r.2)
    | _ => ((none, some (.NotSingularError env.Label)), r.2)

/-- The method `Execute` of the ent operation `GetCustomerByID`; the iteration
index is ignored. -/
def GetCustomerByID.Execute {σ : Type} (env : CustomerEnv σ) (ID : ℤ) (_iteration : ℤ)
    (s : σ) : Option EntError × σ :=
  let r := CustomerQuery.Only env (env.Query.Where [env.ID ID]) s
  (r.1.2, r.2)

/-- A database that is a list of customer rows: a query returns the rows that
pass every predicate, at most `Limit` of them, and never fails. -/
def tableEnv : CustomerEnv (List Customer) where
  Label := "customer"
  ID := fun id c => decide (c.ID = id)
  Query := { ctx := { Limit := none, Offset := none, Unique := none }, predicates := [] }
  All := fun cq rows =>
    let found := rows.filter (fun c => cq.predicates.all (fun p => p c))
    ((match cq.ctx.Limit with
      | some l => found.take l.toNat
      | none => found, none), rows)

/-! ## Rounding to the nearest integer -/

theorem roundHalfEven_cases (x : ℚ) : roundHalfEven x = ⌊x⌋ ∨ roundHalfEven x = ⌊x⌋ + 1 := by
  unfold roundHalfEven
  split_ifs <;> simp

theorem roundHalfEven_sub_le (x : ℚ) : x - 1 / 2 ≤ (roundHalfEven x : ℚ) := by
  have h1 := Int.floor_le x
  have h2 := Int.lt_floor_add_one x
  unfold roundHalfEven
  split_ifs with h3 h4 h5
  · linarith
  · push_cast; linarith
  · linarith
  · push_cast; linarith

theorem roundHalfEven_le_add (x : ℚ) : (roundHalfEven x : ℚ) ≤ x + 1 / 2 := by
  have h1 := Int.floor_le x
  have h2 := Int.lt_floor_add_one x
  unfold roundHalfEven
  split_ifs with h3 h4 h5
  · linarith
  · push_cast; linarith
  · linarith
  · push_cast; linarith

theorem roundHalfEven_intCast (m : ℤ) : roundHalfEven (m : ℚ) = m := by
  unfold roundHalfEven
  simp

theorem roundHalfEven_le_of_le (x : ℚ) (m : ℤ) (h : x ≤ m) : roundHalfEven x ≤ m := by
  rcases eq_or_lt_of_le h with h0 | h0
  · rw [h0, roundHalfEven_intCast]
  · have h1 : ⌊x⌋ < m := by
      have := Int.floor_le x
      exact_mod_cast lt_of_le_of_lt this h0
    rcases roundHalfEven_cases x with h2 | h2 <;> omega

theorem le_roundHalfEven_of_le (x : ℚ) (m : ℤ) (h : (m : ℚ) ≤ x) : m ≤ roundHalfEven x := by
  have h1 : m ≤ ⌊x⌋ := Int.le_floor.mpr h
  rcases roundHalfEven_cases x with h2 | h2 <;> omega

theorem roundHalfEven_eq_of_abs_lt (x : ℚ) (m : ℤ) (h : |x - m| < 1 / 2) :
    roundHalfEven x = m := by
  have h1 := roundHalfEven_sub_le x
  have h2 := roundHalfEven_le_add x
  have h3 := abs_lt.mp h
  have h4 : ((roundHalfEven x : ℤ) : ℚ) < (m : ℚ) + 1 := by linarith [h3.1, h3.2]
  have h5 : (m : ℚ) - 1 < ((roundHalfEven x : ℤ) : ℚ) := by linarith [h3.1, h3.2]
  have h6 : roundHalfEven x < m + 1 := by exact_mod_cast h4
  have h7 : m - 1 < roundHalfEven x := by exact_mod_cast h5
  omega

/-! ## Rounding to binary64 -/

namespace F64

theorem log_eq_of (q : ℚ) (e : ℤ) (h1 : (2 : ℚ) ^ e ≤ q) (h2 : q < (2 : ℚ) ^ (e + 1)) :
    Int.log 2 q = e := by
  have hq : 0 < q := lt_of_lt_of_le (by positivity) h1
  have a : e ≤ Int.log 2 q := (Int.zpow_le_iff_le_log (by norm_num) hq).mp (by exact_mod_cast h1)
  have b : Int.log 2 q < e + 1 := (Int.lt_zpow_iff_log_lt (by norm_num) hq).mp (by exact_mod_cast h2)
  omega

theorem ulp_pos (q : ℚ) : 0 < ulp q := by
  unfold ulp; positivity

/-- Below `2^53` the spacing divides one: every integer is on the grid. -/
theorem ulp_mul_pow (q : ℚ) (hq : 0 < q) (hlt : q < (2 : ℚ) ^ (53 : ℕ)) :
    ∃ j : ℕ, ulp q * (2 : ℚ) ^ j = 1 := by
  have hl : Int.log 2 q < 53 :=
    (Int.lt_zpow_iff_log_lt (by norm_num) hq).mp (by exact_mod_cast hlt)
  have he : max (Int.log 2 |q|) (-1022) - 52 ≤ 0 := by
    rw [abs_of_pos hq]
    have : max (Int.log 2 q) (-1022) ≤ 52 := max_le (by omega) (by norm_num)
    omega
  refine ⟨(-(max (Int.log 2 |q|) (-1022) - 52)).toNat, ?_⟩
  unfold ulp
  rw [← zpow_natCast, ← zpow_add₀ (by norm_num : (2 : ℚ) ≠ 0)]
  have : max (Int.log 2 |q|) (-1022) - 52 + ((-(max (Int.log 2 |q|) (-1022) - 52)).toNat : ℤ) = 0 := by
    rw [Int.toNat_of_nonneg (by omega)]; ring
  rw [this, zpow_zero]

/-- In the normal range the spacing is at most `2^-52` of the value. -/
theorem ulp_le (q : ℚ) (hq : (2 : ℚ) ^ (-1022 : ℤ) ≤ q) : ulp q ≤ q * (2 : ℚ) ^ (-52 : ℤ) := by
  have hq0 : 0 < q := lt_of_lt_of_le (by positivity) hq
  have hl : -1022 ≤ Int.log 2 q := (Int.zpow_le_iff_le_log (by norm_num) hq0).mp (by exact_mod_cast hq)
  unfold ulp
  rw [abs_of_pos hq0, max_eq_left hl, sub_eq_add_neg, zpow_add₀ (by norm_num : (2 : ℚ) ≠ 0)]
  have := Int.zpow_log_le_self (b := 2) (by norm_num) hq0
  have h2 : (2 : ℚ) ^ Int.log 2 q ≤ q := by exact_mod_cast this
  exact mul_le_mul_of_nonneg_right h2 (by positivity)

theorem round_of_pos (q : ℚ) (hq : 0 < q) :
    round q =
      if (2 : ℚ) ^ (1024 : ℕ) ≤ (roundHalfEven (q / ulp q) : ℚ) * ulp q then pinf
      else fin ((roundHalfEven (q / ulp q) : ℚ) * ulp q) := by
  have hu := ulp_pos q
  have h0 : (0 : ℤ) ≤ roundHalfEven (q / ulp q) :=
    le_roundHalfEven_of_le _ 0 (by simpa using (div_pos hq hu).le)
  have h1 : (0 : ℚ) ≤ (roundHalfEven (q / ulp q) : ℚ) * ulp q :=
    mul_nonneg (by exact_mod_cast h0) hu.le
  unfold round
  simp only [hq.ne', if_false, abs_of_nonneg h1, hq, if_true]

/-- A value at or below a grid point rounds to at most that grid point. -/
theorem round_le_grid (q B : ℚ) (hq : 0 < q) (hB : q ≤ B) (m : ℤ) (hm : B = m * ulp q)
    (hfin : B < (2 : ℚ) ^ (1024 : ℕ)) :
    ∃ r, round q = fin r ∧ r ≤ B ∧ q - ulp q / 2 ≤ r := by
  have hu := ulp_pos q
  have h1 : q / ulp q ≤ (m : ℚ) := by
    rw [div_le_iff₀ hu, ← hm]; exact hB
  have h2 : roundHalfEven (q / ulp q) ≤ m := roundHalfEven_le_of_le _ _ h1
  have h3 : (roundHalfEven (q / ulp q) : ℚ) * ulp q ≤ B := by
    rw [hm]; exact mul_le_mul_of_nonneg_right (by exact_mod_cast h2) hu.le
  have h4 := roundHalfEven_sub_le (q / ulp q)
  have h5 : q - ulp q / 2 ≤ (roundHalfEven (q / ulp q) : ℚ) * ulp q := by
    have := mul_le_mul_of_nonneg_right h4 hu.le
    have e : (q / ulp q - 1 / 2) * ulp q = q - ulp q / 2 := by
      field_simp
      ring
    linarith
  refine ⟨(roundHalfEven (q / ulp q) : ℚ) * ulp q, ?_, h3, h5⟩
  rw [round_of_pos q hq, if_neg (not_le.mpr (lt_of_le_of_lt h3 hfin))]

/-- A value at or above a grid point rounds to at least that grid point. -/
theorem round_ge_grid (q B : ℚ) (hq : 0 < q) (hB : B ≤ q) (m : ℤ) (hm : B = m * ulp q) :
    round q = pinf ∨ ∃ r, round q = fin r ∧ B ≤ r ∧ r ≤ q + ulp q / 2 := by
  have hu := ulp_pos q
  have h1 : (m : ℚ) ≤ q / ulp q := by
    rw [le_div_iff₀ hu, ← hm]; exact hB
  have h2 : m ≤ roundHalfEven (q / ulp q) := le_roundHalfEven_of_le _ _ h1
  have h3 : B ≤ (roundHalfEven (q / ulp q) : ℚ) * ulp q := by
    rw [hm]; exact mul_le_mul_of_nonneg_right (by exact_mod_cast h2) hu.le
  have h4 := roundHalfEven_le_add (q / ulp q)
  have h5 : (roundHalfEven (q / ulp q) : ℚ) * ulp q ≤ q + ulp q / 2 := by
    have := mul_le_mul_of_nonneg_right h4 hu.le
    have e : (q / ulp q + 1 / 2) * ulp q = q + ulp q / 2 := by
      field_simp
      ring
    linarith
  rw [round_of_pos q hq]
  split_ifs
  · exact Or.inl rfl
  · exact Or.inr ⟨_, rfl, h3, h5⟩

/-- A value on its own grid is a binary64 value: rounding leaves it unchanged. -/
theorem round_exact (q : ℚ) (hq : 0 < q) (m : ℤ) (hm : q = m * ulp q)
    (hfin : q < (2 : ℚ) ^ (1024 : ℕ)) : round q = fin q := by
  obtain ⟨r, hr, h1, _⟩ := round_le_grid q q hq le_rfl m hm hfin
  rcases round_ge_grid q q hq le_rfl m hm with h | ⟨r2, hr2, h2, _⟩
  · rw [h] at hr; cases hr
  · rw [hr] at hr2; cases hr2
    rw [hr, le_antisymm h1 h2]

/-- Integers below `2^53` convert to `float64` without rounding. -/
theorem ofInt_exact (n : ℤ) (h0 : 0 ≤ n) (h1 : n < 2 ^ 53) : ofInt n = fin n := by
  unfold ofInt
  rcases eq_or_lt_of_le h0 with h | h
  · rw [← h]; simp [round]
  · have hq : (0 : ℚ) < n := by exact_mod_cast h
    have hlt : (n : ℚ) < (2 : ℚ) ^ (53 : ℕ) := by exact_mod_cast h1
    obtain ⟨j, hj⟩ := ulp_mul_pow n hq hlt
    refine round_exact n hq (n * 2 ^ j) ?_ ?_
    · push_cast; rw [mul_assoc, mul_comm ((2 : ℚ) ^ j), hj, mul_one]
    · exact lt_trans hlt (by norm_num)

/-- A value within half a spacing of a grid point rounds to it. -/
theorem round_close (q : ℚ) (hq : 0 < q) (m : ℤ) (h : |q / ulp q - m| < 1 / 2)
    (hfin : (m : ℚ) * ulp q < (2 : ℚ) ^ (1024 : ℕ)) : round q = fin ((m : ℚ) * ulp q) := by
  rw [round_of_pos q hq, roundHalfEven_eq_of_abs_lt _ m h, if_neg (not_le.mpr hfin)]

theorem ulp_of_log (q : ℚ) (e : ℤ) (he : -1022 ≤ e) (h1 : (2 : ℚ) ^ e ≤ q)
    (h2 : q < (2 : ℚ) ^ (e + 1)) : ulp q = (2 : ℚ) ^ (e - 52) := by
  have hq : 0 < q := lt_of_lt_of_le (by positivity) h1
  unfold ulp
  rw [abs_of_pos hq, log_eq_of q e h1 h2, max_eq_left he]

/-- The constant `0.95` as a `float64`. -/
theorem round_095 : round (19 / 20) = fin (4278419646001971 / 4503599627370496) := by
  have hu : ulp (19 / 20) = (2 : ℚ) ^ (-53 : ℤ) := by
    rw [ulp_of_log (19 / 20) (-1) (by norm_num) (by norm_num) (by norm_num)]; norm_num
  have h := round_close (19 / 20) (by norm_num) 8556839292003942
    (by rw [hu]; norm_num [abs_lt]) (by rw [hu]; norm_num)
  rw [h, hu]; norm_num

theorem round_1e6 : round 1000000 = fin 1000000 := by
  have := ofInt_exact 1000000 (by norm_num) (by norm_num)
  simpa [ofInt] using this

theorem round_1e9 : round 1000000000 = fin 1000000000 := by
  have := ofInt_exact 1000000000 (by norm_num) (by norm_num)
  simpa [ofInt] using this

theorem round_mib : round (1024 * 1024) = fin 1048576 := by
  have := ofInt_exact 1048576 (by norm_num) (by norm_num)
  norm_num [ofInt] at this ⊢
  exact this

end F64

theorem wrap64_of_range (x : ℤ) (h0 : -2 ^ 63 ≤ x) (h1 : x < 2 ^ 63) : wrap64 x = x := by
  unfold wrap64
  rw [Int.emod_eq_of_lt (by omega) (by omega)]
  ring

/-- The product `0.95 * float64(N)` rounds into the unit interval that ends
at the exact rank `⌈19 N / 20⌉`. -/
theorem mul_095_bounds (N : ℤ) (h1 : 1 ≤ N) (h2 : N ≤ 2 ^ 45) :
    ∃ r : ℚ, F64.mul (F64.round (19 / 20)) (F64.ofInt N) = F64.fin r ∧
      ((⌈(19 / 20 : ℚ) * N⌉ : ℤ) : ℚ) - 1 < r ∧ r ≤ ((⌈(19 / 20 : ℚ) * N⌉ : ℤ) : ℚ) := by
  have hN1 : (1 : ℚ) ≤ N := by exact_mod_cast h1
  have hN2 : (N : ℚ) ≤ 2 ^ 45 := by exact_mod_cast h2
  rw [F64.round_095, F64.ofInt_exact N (by omega) (by omega)]
  show ∃ r : ℚ, F64.round (4278419646001971 / 4503599627370496 * (N : ℚ)) = F64.fin r ∧ _
  set p : ℚ := 4278419646001971 / 4503599627370496 * (N : ℚ) with hp
  set K : ℤ := ⌈(19 / 20 : ℚ) * N⌉ with hK
  have hp0 : 0 < p := by rw [hp]; positivity
  have hplt : p < (2 : ℚ) ^ (53 : ℕ) := by rw [hp]; norm_num; linarith
  have hKge : (19 / 20 : ℚ) * N ≤ K := Int.le_ceil _
  have hKlt : (K : ℚ) < (19 / 20 : ℚ) * N + 1 := Int.ceil_lt_add_one _
  have hpK : p ≤ K := by rw [hp]; linarith
  obtain ⟨j, hj⟩ := F64.ulp_mul_pow p hp0 hplt
  have hgrid : (K : ℚ) = ((K * 2 ^ j : ℤ) : ℚ) * F64.ulp p := by
    push_cast; rw [mul_assoc, mul_comm ((2 : ℚ) ^ j), hj, mul_one]
  have hKfin : (K : ℚ) < (2 : ℚ) ^ (1024 : ℕ) := by
    have : (K : ℚ) < 2 ^ 46 := by linarith
    exact lt_trans this (by norm_num)
  obtain ⟨r, hr, hrK, hrp⟩ := F64.round_le_grid p K hp0 hpK _ hgrid hKfin
  refine ⟨r, hr, ?_, hrK⟩
  have hu : F64.ulp p ≤ p * (2 : ℚ) ^ (-52 : ℤ) :=
    F64.ulp_le p (by
      have : (2 : ℚ) ^ (-1022 : ℤ) ≤ 2 ^ (-1 : ℤ) := zpow_le_zpow_right₀ (by norm_num) (by norm_num)
      have h3 : (2 : ℚ) ^ (-1 : ℤ) ≤ p := by rw [hp]; norm_num; linarith
      linarith)
  -- `20 K ≤ 19 N + 19` over the integers
  have hint : 20 * K < 19 * N + 20 := by
    have : (20 : ℚ) * K < 19 * N + 20 := by linarith
    exact_mod_cast this
  have hint2 : (20 : ℚ) * K ≤ 19 * N + 19 := by
    have : 20 * K ≤ 19 * N + 19 := by omega
    exact_mod_cast this
  have e52 : (2 : ℚ) ^ (-52 : ℤ) = 1 / 4503599627370496 := by norm_num
  rw [e52] at hu
  rw [hp] at hu hrp
  norm_num at hN2
  linarith

/-- For every sample length the runtime can allocate, the index computed in
`float64` is the exact nearest-rank index. -/
theorem p95Index_eq (N : ℤ) (h1 : 1 ≤ N) (h2 : N ≤ 2 ^ 45) :
    p95Index N = ⌈(19 / 20 : ℚ) * N⌉ - 1 := by
  obtain ⟨r, hr, hlo, hhi⟩ := mul_095_bounds N h1 h2
  have hN1 : (1 : ℚ) ≤ N := by exact_mod_cast h1
  have hN2 : (N : ℚ) ≤ 2 ^ 45 := by exact_mod_cast h2
  set K : ℤ := ⌈(19 / 20 : ℚ) * N⌉ with hK
  have hc : ⌈r⌉ = K := Int.ceil_eq_iff.mpr ⟨hlo, hhi⟩
  have hK1 : 1 ≤ K := by
    have : (0 : ℚ) < (19 / 20 : ℚ) * N := by positivity
    exact Int.one_le_ceil_iff.mpr this
  have hK2 : K ≤ N := by
    apply Int.ceil_le.mpr
    linarith
  unfold p95Index
  rw [hr]
  simp only [F64.ceil, F64.toInt, hc]
  have hKq : (0 : ℚ) ≤ (K : ℚ) := by exact_mod_cast (by omega : (0 : ℤ) ≤ K)
  rw [if_pos hKq, Int.floor_intCast, if_pos (by constructor <;> omega),
    wrap64_of_range _ (by omega) (by omega)]
  exact max_eq_left (by omega)

theorem p95Index_lt (N : ℤ) (h1 : 1 ≤ N) (h2 : N ≤ 2 ^ 45) :
    0 ≤ p95Index N ∧ p95Index N < N := by
  rw [p95Index_eq N h1 h2]
  have hN1 : (1 : ℚ) ≤ N := by exact_mod_cast h1
  have hK1 : 1 ≤ ⌈(19 / 20 : ℚ) * N⌉ := by
    have : (0 : ℚ) < (19 / 20 : ℚ) * N := by positivity
    exact Int.one_le_ceil_iff.mpr this
  have hK2 : ⌈(19 / 20 : ℚ) * N⌉ ≤ N := by
    apply Int.ceil_le.mpr
    linarith
  constructor <;> omega

/-! ## The measuring loop -/

theorem callEvents_cons (name : String) (a : ℕ) (d : Duration) (ds : List Duration) :
    callEvents name a (d :: ds) = Event.call name (a : ℤ) d :: callEvents name (a + 1) ds := by
  simp [callEvents, List.range'_succ]

theorem outLines_append (xs ys : List Event) : outLines (xs ++ ys) = outLines xs ++ outLines ys := by
  induction xs with
  | nil => rfl
  | cons x xs ih => cases x <;> simp [outLines, ih]

theorem outLines_callEvents (name : String) (a : ℕ) (ds : List Duration) :
    outLines (callEvents name a ds) = [] := by
  induction ds generalizing a with
  | nil => rfl
  | cons d ds ih => rw [callEvents_cons]; simp [outLines, ih]

/-- A loop that runs to its end made one successful call per remaining
index, in order, and stored each measured duration at its index. -/
theorem loop_ok {σ : Type} (rt : Runtime σ) (op : Operation σ) :
    ∀ (n a : ℕ) (times : List Duration) (s : σ) (evs : List Event) (ts : List Duration) (s1 : σ),
      a + n ≤ times.length → loop rt op n (a : ℤ) times s = (evs, .ok ts s1) →
      ts.length = times.length ∧ (∀ k, k < a → ts[k]? = times[k]?) ∧
        evs = callEvents op.Name a ((ts.drop a).take n) := by
  intro n
  induction n with
  | zero =>
    intro a times s evs ts s1 _ h
    simp only [loop, Prod.mk.injEq, Outcome.ok.injEq] at h
    obtain ⟨h1, h2, _⟩ := h
    subst h1 h2
    simp [callEvents]
  | succ n ih =>
    intro a times s evs ts s1 hlen h
    simp only [loop] at h
    split at h
    · simp at h
    · simp only [Prod.mk.injEq] at h
      obtain ⟨h1, h2⟩ := h
      have hcast : ((a : ℤ) + 1) = ((a + 1 : ℕ) : ℤ) := by push_cast; rfl
      rw [hcast] at h1 h2
      have hlen2 : a + 1 + n ≤ (times.set (a : ℤ).toNat (rt.Since (rt.Now s).1
          (op.Execute (a : ℤ) (rt.Now s).2).2).1).length := by
        rw [List.length_set]; omega
      obtain ⟨i1, i2, i3⟩ := ih (a + 1) _ _ _ ts s1 hlen2 (Prod.ext rfl h2)
      rw [List.length_set] at i1
      have ha : a < ts.length := by omega
      have hta : ts[a] = (rt.Since (rt.Now s).1 (op.Execute (a : ℤ) (rt.Now s).2).2).1 := by
        have := i2 a (by omega)
        simp only [Int.toNat_ofNat] at this
        rw [List.getElem?_set_self (by omega)] at this
        rw [List.getElem?_eq_getElem ha] at this
        exact Option.some.inj this
      refine ⟨i1, ?_, ?_⟩
      · intro k hk
        have := i2 k (by omega)
        simp only [Int.toNat_ofNat] at this
        rw [this, List.getElem?_set_ne (by omega)]
      · rw [← h1, List.drop_eq_getElem_cons ha, List.take_succ_cons, callEvents_cons, hta, ← i3]

/-- The loop never panics; when it stops early it made the calls before the
failing one, then the failing call, then the fatal log. -/
theorem loop_fatal {σ : Type} (rt : Runtime σ) (op : Operation σ) :
    ∀ (n a : ℕ) (times : List Duration) (s : σ) (evs : List Event) (s1 : σ),
      loop rt op n (a : ℤ) times s = (evs, .fatal s1) →
      ∃ (ds : List Duration) (e : String), a + ds.length < a + n ∧
        evs = callEvents op.Name a ds ++
          [Event.failed op.Name ((a + ds.length : ℕ) : ℤ) e, Event.fatal (fatalMsg op.Name e)] := by
  intro n
  induction n with
  | zero =>
    intro a times s evs s1 h
    simp [loop] at h
  | succ n ih =>
    intro a times s evs s1 h
    simp only [loop] at h
    split at h
    · rename_i err _
      simp only [Prod.mk.injEq] at h
      refine ⟨[], err, by simp, ?_⟩
      rw [← h.1]; simp [callEvents]
    · simp only [Prod.mk.injEq] at h
      obtain ⟨h1, h2⟩ := h
      have hcast : ((a : ℤ) + 1) = ((a + 1 : ℕ) : ℤ) := by push_cast; rfl
      rw [hcast] at h1 h2
      obtain ⟨ds, e, i1, i2⟩ := ih (a + 1) _ _ _ s1 (Prod.ext rfl h2)
      refine ⟨(rt.Since (rt.Now s).1 (op.Execute (a : ℤ) (rt.Now s).2).2).1 :: ds, e, ?_, ?_⟩
      · simp only [List.length_cons]; omega
      · have : a + 1 + ds.length = a + (ds.length + 1) := by omega
        rw [← h1, callEvents_cons, List.length_cons, List.cons_append, ← this, ← i2]

theorem loop_no_panic {σ : Type} (rt : Runtime σ) (op : Operation σ) :
    ∀ (n : ℕ) (i : ℤ) (times : List Duration) (s : σ) (msg : String) (s1 : σ),
      (loop rt op n i times s).2 ≠ .panic msg s1 := by
  intro n
  induction n with
  | zero => intro i times s msg s1; simp [loop]
  | succ n ih =>
    intro i times s msg s1
    simp only [loop]
    split
    · simp
    · exact ih _ _ _ _ _

/-- When `Execute` never returns an error the loop runs to its end. -/
theorem loop_total {σ : Type} (rt : Runtime σ) (op : Operation σ)
    (hop : ∀ i s, (op.Execute i s).1 = none) :
    ∀ (n : ℕ) (i : ℤ) (times : List Duration) (s : σ),
      ∃ ts s1, (loop rt op n i times s).2 = .ok ts s1 := by
  intro n
  induction n with
  | zero => intro i times s; exact ⟨times, s, rfl⟩
  | succ n ih =>
    intro i times s
    simp only [loop]
    split
    · rename_i err h; rw [hop] at h; cases h
    · exact ih _ _ _

/-! ## `Run` as measurement followed by statistics -/

/-- A measurement that completes allocated its sample, made exactly one
successful call per index `0, …, N-1` in order, and holds at each index the
duration measured around that call. -/
theorem measure_ok {σ : Type} (rt : Runtime σ) (op : Operation σ) (N : ℤ) (s : σ)
    (evs : List Event) (ts : List Duration) (mS mE : MemStats) (s1 : σ)
    (h : measure rt op N s = (evs, .ok (ts, mS, mE) s1)) :
    0 ≤ N ∧ N ≤ maxLen ∧ ts.length = N.toNat ∧ evs = callEvents op.Name 0 ts := by
  unfold measure at h
  split at h
  · simp at h
  · rename_i hr
    push_neg at hr
    split at h
    · simp at h
    simp only at h
    split at h
    · rename_i ts' s' hl
      simp only [Prod.mk.injEq, Outcome.ok.injEq] at h
      obtain ⟨h1, ⟨h2, _, _⟩, _⟩ := h
      subst h2
      have hl2 := loop_ok rt op N.toNat 0 (List.replicate N.toNat 0) _ _ ts' s'
        (by simp) (Prod.ext rfl hl)
      obtain ⟨i1, _, i3⟩ := hl2
      rw [List.length_replicate] at i1
      refine ⟨hr.1, hr.2, i1, ?_⟩
      rw [← h1]
      refine Eq.trans i3 ?_
      rw [List.drop_zero, ← i1, List.take_length]
    · simp at h
    · simp at h

theorem stats_some (name : String) (N : ℤ) (ts : List Duration) (mS mE : MemStats)
    (h1 : 1 ≤ N) (h2 : N ≤ maxLen) (hlen : ts.length = N.toNat) :
    ∃ t r, (sortDurations ts)[(p95Index N).toNat]? = some t ∧ stats name N ts mS mE = some r ∧
      r.Operation = name ∧
      r.AvgLatency =
        F64.div (F64.div (F64.ofInt (totalTime ts)) (F64.ofInt N)) (F64.round 1000000) ∧
      r.P95Latency = F64.div (F64.ofInt t) (F64.round 1000000) ∧
      r.Throughput = F64.div (F64.ofInt N) (Duration.Seconds (totalTime ts)) := by
  have hidx := p95Index_lt N h1 h2
  have hlt : (p95Index N).toNat < (sortDurations ts).length := by
    unfold sortDurations
    rw [List.length_insertionSort, hlen]
    omega
  have hst : ∃ r, stats name N ts mS mE = some r ∧ r.Operation = name ∧
      r.AvgLatency =
        F64.div (F64.div (F64.ofInt (totalTime ts)) (F64.ofInt N)) (F64.round 1000000) ∧
      r.P95Latency =
        F64.div (F64.ofInt (sortDurations ts)[(p95Index N).toNat]) (F64.round 1000000) ∧
      r.Throughput = F64.div (F64.ofInt N) (Duration.Seconds (totalTime ts)) := by
    unfold stats
    simp only [List.getElem?_eq_getElem hlt]
    exact ⟨_, rfl, rfl, rfl, rfl, rfl⟩
  obtain ⟨r, hr⟩ := hst
  exact ⟨_, r, List.getElem?_eq_getElem hlt, hr⟩

/-- When the measurement completes, `Run` returns a `Result`: the statistics
of the recorded sample. -/
theorem Run_of_measure {σ : Type} (rt : Runtime σ) (op : Operation σ) (N : ℤ) (s : σ)
    (evs : List Event) (ts : List Duration) (mS mE : MemStats) (s1 : σ) (hN : 1 ≤ N)
    (h : measure rt op N s = (evs, .ok (ts, mS, mE) s1)) :
    ∃ r, Run rt op N s = (evs, .ok r s1) ∧ stats op.Name N ts mS mE = some r := by
  obtain ⟨_, h2, h3, _⟩ := measure_ok rt op N s evs ts mS mE s1 h
  obtain ⟨t, r, _, hr, _⟩ := stats_some op.Name N ts mS mE hN h2 h3
  refine ⟨r, ?_, hr⟩
  unfold Run
  simp only [h, hr]

theorem sortDurations_unique (ts sorted : List Duration) (h1 : sorted.Sorted (fun a b => a ≤ b))
    (h2 : sorted.Perm ts) : sortDurations ts = sorted := by
  unfold sortDurations
  exact List.eq_of_perm_of_sorted ((List.perm_insertionSort _ ts).trans h2.symm)
    (List.sorted_insertionSort _ ts) h1

/-! ## Latency statistics -/

/-- C1: for every `N ≥ 1` and every timing sample of `N` durations that a run
records, `Run` returns a `Result` whose `P95Latency` is the element at index
`max(⌈0.95 N⌉ - 1, 0)` of the ascending rearrangement of the sample,
converted to `float64` and divided by `10^6`: one sample element, no
interpolation. -/
theorem Run_p95_sorted_element {σ : Type} (rt : Runtime σ) (op : Operation σ) (N : ℤ) (s : σ)
    (evs : List Event) (ts : List Duration) (mS mE : MemStats) (s1 : σ) (hN : 1 ≤ N)
    (hm : measure rt op N s = (evs, .ok (ts, mS, mE) s1)) :
    ts.length = N.toNat ∧
      ∃ r, Run rt op N s = (evs, .ok r s1) ∧
        ∀ sorted : List Duration, sorted.Sorted (fun a b => a ≤ b) → sorted.Perm ts →
          ∃ t, sorted[(max (⌈(19 / 20 : ℚ) * N⌉ - 1) 0).toNat]? = some t ∧
            r.P95Latency = F64.div (F64.ofInt t) (F64.fin 1000000) := by
  obtain ⟨_, h2, h3, _⟩ := measure_ok rt op N s evs ts mS mE s1 hm
  obtain ⟨r, hr, hst⟩ := Run_of_measure rt op N s evs ts mS mE s1 hN hm
  obtain ⟨t, r2, ht, hr2, _, _, hp, _⟩ := stats_some op.Name N ts mS mE hN h2 h3
  rw [hst] at hr2
  cases hr2
  refine ⟨h3, r, hr, ?_⟩
  intro sorted hs hperm
  refine ⟨t, ?_, ?_⟩
  · rw [← sortDurations_unique ts sorted hs hperm, ← ht, p95Index_eq N hN h2]
    congr 1
    have hK1 : 1 ≤ ⌈(19 / 20 : ℚ) * N⌉ := by
      have hN1 : (1 : ℚ) ≤ N := by exact_mod_cast hN
      have : (0 : ℚ) < (19 / 20 : ℚ) * N := by positivity
      exact Int.one_le_ceil_iff.mpr this
    rw [max_eq_left (by omega)]
  · rw [hp, F64.round_1e6]

theorem Run_p95_sorted_element_witness :
    (1 : ℤ) ≤ 3 ∧
      measure clockRuntime rampOp 3 0 =
        (callEvents "ramp" 0 [1000000, 2000000, 3000000],
          .ok ([1000000, 2000000, 3000000], ⟨0, 0⟩, ⟨6000000, 0⟩) 6000000) ∧
      ([1000000, 2000000, 3000000] : List Duration).length = (3 : ℤ).toNat ∧
      ∃ r, Run clockRuntime rampOp 3 0 =
          (callEvents "ramp" 0 [1000000, 2000000, 3000000], .ok r 6000000) ∧
        ∀ sorted : List Duration, sorted.Sorted (fun a b => a ≤ b) →
          sorted.Perm [1000000, 2000000, 3000000] →
          ∃ t, sorted[(max (⌈(19 / 20 : ℚ) * (3 : ℤ)⌉ - 1) 0).toNat]? = some t ∧
            r.P95Latency = F64.div (F64.ofInt t) (F64.fin 1000000) :=
  ⟨by decide, by decide,
    Run_p95_sorted_element clockRuntime rampOp 3 0 _ _ ⟨0, 0⟩ ⟨6000000, 0⟩ _ (by decide)
      (by decide)⟩

/-- In an ascending list the element at index `i` has at least `i + 1`
elements at or below it and at most `i` elements strictly below it. -/
theorem sorted_rank (l : List Duration) (hs : l.Sorted (fun a b => a ≤ b)) (i : ℕ)
    (hi : i < l.length) :
    i + 1 ≤ l.countP (fun x => decide (x ≤ l[i])) ∧
      l.countP (fun x => decide (x < l[i])) ≤ i := by
  have hsplit : l = l.take i ++ l[i] :: l.drop (i + 1) := by
    rw [← List.drop_eq_getElem_cons hi, List.take_append_drop]
  have hp : (l.take i ++ l[i] :: l.drop (i + 1)).Pairwise (fun a b => a ≤ b) := by
    rw [← hsplit]; exact hs
  rw [List.pairwise_append] at hp
  obtain ⟨_, hp2, hp3⟩ := hp
  rw [List.pairwise_cons] at hp2
  have hlen : (l.take i).length = i := by rw [List.length_take]; omega
  obtain ⟨v, hv⟩ : ∃ v, v = l[i] := ⟨_, rfl⟩
  rw [← hv] at hsplit hp2 hp3 ⊢
  constructor
  · conv_rhs => rw [hsplit]
    rw [List.countP_append, List.countP_cons]
    have h1 : (l.take i).countP (fun x => decide (x ≤ v)) = (l.take i).length := by
      rw [List.countP_eq_length]
      intro a ha
      simpa using hp3 a ha v (List.mem_cons_self _ _)
    rw [h1, hlen]
    simp only [le_refl, decide_True, if_true]
    omega
  · conv_lhs => rw [hsplit]
    rw [List.countP_append, List.countP_cons]
    have h1 : (l.take i).countP (fun x => decide (x < v)) ≤ i := by
      have := List.countP_le_length (fun x => decide (x < v)) (l := l.take i)
      omega
    have h2 : (l.drop (i + 1)).countP (fun x => decide (x < v)) = 0 := by
      rw [List.countP_eq_zero]
      intro a ha
      have := hp2.1 a ha
      simp only [decide_eq_true_eq, not_lt]
      exact this
    rw [h2]
    simp only [lt_self_iff_false, decide_False, Bool.false_eq_true, if_false]
    omega

/-- C2: the `P95Latency` that `Run` returns is the nearest-rank 95th
percentile of the sample: it is a value `v` of the sample with at least
`⌈0.95 N⌉` samples at or below it and fewer than `⌈0.95 N⌉` strictly below it,
and it is the smallest sample value at or below which at least 95% of the `N`
samples lie. -/
theorem Run_p95_nearest_rank {σ : Type} (rt : Runtime σ) (op : Operation σ) (N : ℤ) (s : σ)
    (evs : List Event) (ts : List Duration) (mS mE : MemStats) (s1 : σ) (hN : 1 ≤ N)
    (hm : measure rt op N s = (evs, .ok (ts, mS, mE) s1)) :
    ∃ r v, Run rt op N s = (evs, .ok r s1) ∧ v ∈ ts ∧
      r.P95Latency = F64.div (F64.ofInt v) (F64.fin 1000000) ∧
      ⌈(19 / 20 : ℚ) * N⌉ ≤ (ts.countP (fun x => decide (x ≤ v)) : ℤ) ∧
      (ts.countP (fun x => decide (x < v)) : ℤ) < ⌈(19 / 20 : ℚ) * N⌉ ∧
      19 * (ts.length : ℤ) ≤ 20 * (ts.countP (fun x => decide (x ≤ v)) : ℤ) ∧
      ∀ u ∈ ts, 19 * (ts.length : ℤ) ≤ 20 * (ts.countP (fun x => decide (x ≤ u)) : ℤ) →
        v ≤ u := by
  obtain ⟨h0, h2, h3, _⟩ := measure_ok rt op N s evs ts mS mE s1 hm
  obtain ⟨r, hr, hst⟩ := Run_of_measure rt op N s evs ts mS mE s1 hN hm
  obtain ⟨t, r2, ht, hr2, _, _, hp, _⟩ := stats_some op.Name N ts mS mE hN h2 h3
  rw [hst] at hr2
  cases hr2
  have hperm : (sortDurations ts).Perm ts := List.perm_insertionSort _ ts
  have hsorted : (sortDurations ts).Sorted (fun a b => a ≤ b) := List.sorted_insertionSort _ ts
  have hidx := p95Index_lt N hN h2
  have hlt : (p95Index N).toNat < (sortDurations ts).length := by
    rw [hperm.length_eq, h3]; omega
  have hte : t = (sortDurations ts)[(p95Index N).toNat] := by
    rw [List.getElem?_eq_getElem hlt] at ht
    exact (Option.some.inj ht).symm
  obtain ⟨ha, hb⟩ := sorted_rank (sortDurations ts) hsorted _ hlt
  rw [← hte, hperm.countP_eq] at ha hb
  have hK := p95Index_eq N hN h2
  have hKlt : ((⌈(19 / 20 : ℚ) * N⌉ : ℤ) : ℚ) < (19 / 20 : ℚ) * N + 1 := Int.ceil_lt_add_one _
  have hKge : (19 / 20 : ℚ) * N ≤ ((⌈(19 / 20 : ℚ) * N⌉ : ℤ) : ℚ) := Int.le_ceil _
  have hKint : 20 * ⌈(19 / 20 : ℚ) * N⌉ < 19 * N + 20 := by
    have : (20 : ℚ) * ((⌈(19 / 20 : ℚ) * N⌉ : ℤ) : ℚ) < 19 * N + 20 := by linarith
    exact_mod_cast this
  have hKint2 : 19 * N ≤ 20 * ⌈(19 / 20 : ℚ) * N⌉ := by
    have : (19 : ℚ) * N ≤ 20 * ((⌈(19 / 20 : ℚ) * N⌉ : ℤ) : ℚ) := by linarith
    exact_mod_cast this
  have hlenN : (ts.length : ℤ) = N := by rw [h3, Int.toNat_of_nonneg h0]
  have hmem : t ∈ ts := by
    rw [hte]; exact hperm.subset (List.getElem_mem _)
  have hA : ⌈(19 / 20 : ℚ) * N⌉ ≤ (ts.countP (fun x => decide (x ≤ t)) : ℤ) := by omega
  have hB : (ts.countP (fun x => decide (x < t)) : ℤ) < ⌈(19 / 20 : ℚ) * N⌉ := by omega
  refine ⟨r, t, hr, hmem, ?_, hA, hB, ?_, ?_⟩
  · rw [hp, F64.round_1e6]
  · omega
  · intro u _ hu
    by_contra hlt2
    push_neg at hlt2
    have hmono : ts.countP (fun x => decide (x ≤ u)) ≤ ts.countP (fun x => decide (x < t)) := by
      apply List.countP_mono_left
      intro x _ hx
      simp only [decide_eq_true_eq] at hx ⊢
      exact lt_of_le_of_lt hx hlt2
    have hmono2 : (ts.countP (fun x => decide (x ≤ u)) : ℤ) ≤
        (ts.countP (fun x => decide (x < t)) : ℤ) := by exact_mod_cast hmono
    rw [hlenN] at hu
    linarith

theorem Run_p95_nearest_rank_witness :
    (1 : ℤ) ≤ 3 ∧
      measure clockRuntime rampOp 3 0 =
        (callEvents "ramp" 0 [1000000, 2000000, 3000000],
          .ok ([1000000, 2000000, 3000000], ⟨0, 0⟩, ⟨6000000, 0⟩) 6000000) ∧
      ∃ r v, Run clockRuntime rampOp 3 0 =
          (callEvents "ramp" 0 [1000000, 2000000, 3000000], .ok r 6000000) ∧
        v ∈ ([1000000, 2000000, 3000000] : List Duration) ∧
        r.P95Latency = F64.div (F64.ofInt v) (F64.fin 1000000) ∧
        ⌈(19 / 20 : ℚ) * (3 : ℤ)⌉ ≤
          (([1000000, 2000000, 3000000] : List Duration).countP (fun x => decide (x ≤ v)) : ℤ) ∧
        (([1000000, 2000000, 3000000] : List Duration).countP (fun x => decide (x < v)) : ℤ) <
          ⌈(19 / 20 : ℚ) * (3 : ℤ)⌉ ∧
        19 * (([1000000, 2000000, 3000000] : List Duration).length : ℤ) ≤
          20 * (([1000000, 2000000, 3000000] : List Duration).countP
            (fun x => decide (x ≤ v)) : ℤ) ∧
        ∀ u ∈ ([1000000, 2000000, 3000000] : List Duration),
          19 * (([1000000, 2000000, 3000000] : List Duration).length : ℤ) ≤
            20 * (([1000000, 2000000, 3000000] : List Duration).countP
              (fun x => decide (x ≤ u)) : ℤ) → v ≤ u :=
  ⟨by decide, by decide,
    Run_p95_nearest_rank clockRuntime rampOp 3 0 _ _ ⟨0, 0⟩ ⟨6000000, 0⟩ _ (by decide)
      (by decide)⟩

namespace F64

/-- Rounding keeps a value at or below a power of two at or below it. -/
theorem round_le_pow (q : ℚ) (hq : 0 < q) (k : ℤ) (hqk : q ≤ (2 : ℚ) ^ k) (hk1 : -1022 ≤ k)
    (hk2 : k ≤ 1023) : ∃ r, round q = fin r ∧ 0 ≤ r ∧ r ≤ (2 : ℚ) ^ k := by
  have hlog : Int.log 2 q ≤ k := by
    have := Int.log_mono_right (b := 2) hq hqk
    rwa [show ((2 : ℚ) ^ k) = (((2 : ℕ) : ℚ) ^ k) by norm_num, Int.log_zpow (by norm_num)] at this
  have he : max (Int.log 2 |q|) (-1022) - 52 ≤ k := by
    rw [abs_of_pos hq]
    have : max (Int.log 2 q) (-1022) ≤ k := max_le hlog hk1
    omega
  have hgrid : (2 : ℚ) ^ k =
      (((2 : ℤ) ^ (k - (max (Int.log 2 |q|) (-1022) - 52)).toNat : ℤ) : ℚ) * ulp q := by
    unfold ulp
    push_cast
    rw [← zpow_natCast, ← zpow_add₀ (by norm_num : (2 : ℚ) ≠ 0), Int.toNat_of_nonneg (by omega)]
    congr 1; ring
  have hfin : (2 : ℚ) ^ k < (2 : ℚ) ^ (1024 : ℕ) := by
    rw [← zpow_natCast]
    exact zpow_lt_zpow_right₀ (by norm_num) (by omega)
  obtain ⟨r, hr, h1, h2⟩ := round_le_grid q _ hq hqk _ hgrid hfin
  refine ⟨r, hr, ?_, h1⟩
  have := round_of_pos q hq
  rw [hr] at this
  split_ifs at this
  cases this
  have hu := ulp_pos q
  have h0 : (0 : ℤ) ≤ roundHalfEven (q / ulp q) :=
    le_roundHalfEven_of_le _ 0 (by simpa using (div_pos hq hu).le)
  exact mul_nonneg (by exact_mod_cast h0) hu.le

/-- Rounding keeps a value at or above a power of two of the normal range
at or above it. -/
theorem round_ge_pow (q : ℚ) (k : ℤ) (hqk : (2 : ℚ) ^ k ≤ q) (hk : -1022 ≤ k) :
    round q = pinf ∨ ∃ r, round q = fin r ∧ (2 : ℚ) ^ k ≤ r := by
  have hq : 0 < q := lt_of_lt_of_le (by positivity) hqk
  have hlog : k ≤ Int.log 2 q := (Int.zpow_le_iff_le_log (by norm_num) hq).mp (by exact_mod_cast hqk)
  have hle : (2 : ℚ) ^ Int.log 2 q ≤ q := by
    exact_mod_cast Int.zpow_log_le_self (b := 2) (by norm_num) hq
  have hu : ulp q = (2 : ℚ) ^ (Int.log 2 q - 52) := by
    unfold ulp
    rw [abs_of_pos hq, max_eq_left (by omega)]
  have hgrid : (2 : ℚ) ^ Int.log 2 q = (((2 : ℤ) ^ 52 : ℤ) : ℚ) * ulp q := by
    rw [hu]
    have h52 : ((((2 : ℤ) ^ 52 : ℤ)) : ℚ) = (2 : ℚ) ^ (52 : ℤ) := by norm_num
    rw [h52, ← zpow_add₀ (by norm_num : (2 : ℚ) ≠ 0)]
    congr 1; ring
  rcases round_ge_grid q _ hq hle _ hgrid with h | ⟨r, hr, h1, _⟩
  · exact Or.inl h
  · refine Or.inr ⟨r, hr, le_trans ?_ h1⟩
    exact zpow_le_zpow_right₀ (by norm_num) hlog

theorem round_zero : round 0 = fin 0 := by simp [round]

end F64

/-! ## The running total and `Duration.Seconds` -/

theorem wrap64_wrap64_add (x t : ℤ) : wrap64 (wrap64 x + t) = wrap64 (x + t) := by
  unfold wrap64; omega

theorem wrap64_range (x : ℤ) : -2 ^ 63 ≤ wrap64 x ∧ wrap64 x < 2 ^ 63 := by
  unfold wrap64; omega

theorem foldl_wrap64 (ts : List Duration) (a : ℤ) :
    wrap64 (ts.foldl (fun acc t => wrap64 (acc + t)) a) = wrap64 (a + ts.sum) := by
  induction ts generalizing a with
  | nil => simp
  | cons t ts ih =>
    rw [List.foldl_cons, ih, List.sum_cons, wrap64_wrap64_add, add_assoc]

/-- The running total is the exact sum of the sample reduced into `int64`. -/
theorem totalTime_eq (ts : List Duration) : totalTime ts = wrap64 ts.sum := by
  have h := foldl_wrap64 ts 0
  rw [zero_add] at h
  rw [← h]
  cases ts with
  | nil => simp [totalTime, wrap64]
  | cons t ts =>
    have hr : ∀ (l : List Duration) (a : ℤ), -2 ^ 63 ≤ a → a < 2 ^ 63 →
        -2 ^ 63 ≤ l.foldl (fun acc t => wrap64 (acc + t)) a ∧
          l.foldl (fun acc t => wrap64 (acc + t)) a < 2 ^ 63 := by
      intro l
      induction l with
      | nil => intro a h1 h2; exact ⟨h1, h2⟩
      | cons x l ih =>
        intro a _ _
        rw [List.foldl_cons]
        exact ih _ (wrap64_range _).1 (wrap64_range _).2
    have := hr (t :: ts) 0 (by norm_num) (by norm_num)
    unfold totalTime
    rw [wrap64_of_range _ this.1 this.2]

theorem totalTime_of_range (ts : List Duration) (h0 : -2 ^ 63 ≤ ts.sum) (h1 : ts.sum < 2 ^ 63) :
    totalTime ts = ts.sum := by
  rw [totalTime_eq, wrap64_of_range _ h0 h1]

theorem Seconds_zero : Duration.Seconds 0 = F64.fin 0 := by
  unfold Duration.Seconds
  rw [Int.zero_tdiv, Int.zero_tmod, F64.round_1e9]
  have h0 : F64.ofInt 0 = F64.fin 0 := by unfold F64.ofInt; rw [Int.cast_zero, F64.round_zero]
  rw [h0]
  have hne : (1000000000 : ℚ) ≠ 0 := by norm_num
  simp only [F64.div, hne, if_false, zero_div, F64.round_zero, F64.add, add_zero]

/-- A positive duration converts to a positive finite number of seconds. -/
theorem Seconds_pos (d : ℤ) (h0 : 0 < d) (h1 : d < 2 ^ 80) :
    ∃ x, Duration.Seconds d = F64.fin x ∧ (2 : ℚ) ^ (-30 : ℤ) ≤ x ∧ x ≤ (2 : ℚ) ^ (51 : ℤ) := by
  unfold Duration.Seconds
  have hd : Int.tdiv d 1000000000 = d / 1000000000 := Int.tdiv_eq_ediv (by omega) (by norm_num)
  have hmd : Int.tmod d 1000000000 = d % 1000000000 := Int.tmod_eq_emod (by omega) (by norm_num)
  rw [hd, hmd, F64.round_1e9]
  have hs0 : 0 ≤ d / 1000000000 := by omega
  have hs1 : d / 1000000000 < 2 ^ 51 := by omega
  have hn0 : 0 ≤ d % 1000000000 := by omega
  have hn1 : d % 1000000000 < 1000000000 := by omega
  rw [F64.ofInt_exact _ hs0 (by omega), F64.ofInt_exact _ hn0 (by omega)]
  have hsq0 : (0 : ℚ) ≤ ((d / 1000000000 : ℤ) : ℚ) := by exact_mod_cast hs0
  have hsq1 : ((d / 1000000000 : ℤ) : ℚ) ≤ 2 ^ 51 - 1 := by
    have : d / 1000000000 ≤ 2 ^ 51 - 1 := by omega
    exact_mod_cast this
  have hnq1 : ((d % 1000000000 : ℤ) : ℚ) ≤ 1000000000 := by
    exact_mod_cast hn1.le
  have hne : (1000000000 : ℚ) ≠ 0 := by norm_num
  have hdiv : F64.div (F64.fin ((d % 1000000000 : ℤ) : ℚ)) (F64.fin 1000000000) =
      F64.round (((d % 1000000000 : ℤ) : ℚ) / 1000000000) := by
    simp only [F64.div, hne, if_false]
  rw [hdiv]
  rcases eq_or_lt_of_le hn0 with hz | hp
  · -- no fractional part
    have hs : 1 ≤ d / 1000000000 := by omega
    rw [← hz, Int.cast_zero, zero_div, F64.round_zero]
    show ∃ x, F64.round (((d / 1000000000 : ℤ) : ℚ) + 0) = F64.fin x ∧ _
    rw [add_zero]
    have hx := F64.ofInt_exact (d / 1000000000) hs0 (by omega)
    unfold F64.ofInt at hx
    rw [hx]
    refine ⟨_, rfl, ?_, ?_⟩
    · have : (1 : ℚ) ≤ ((d / 1000000000 : ℤ) : ℚ) := by exact_mod_cast hs
      have h2 : (2 : ℚ) ^ (-30 : ℤ) ≤ 1 := by norm_num
      linarith
    · have h2 : (2 : ℚ) ^ (51 : ℤ) = 2 ^ 51 := by norm_num
      rw [h2]; linarith
  · have hnq0 : (1 : ℚ) ≤ ((d % 1000000000 : ℤ) : ℚ) := by
      have : 1 ≤ d % 1000000000 := by omega
      exact_mod_cast this
    have hq1 : (2 : ℚ) ^ (-30 : ℤ) ≤ ((d % 1000000000 : ℤ) : ℚ) / 1000000000 := by
      rw [le_div_iff₀ (by norm_num)]
      have : (2 : ℚ) ^ (-30 : ℤ) * 1000000000 ≤ 1 := by norm_num
      linarith
    have hq2 : ((d % 1000000000 : ℤ) : ℚ) / 1000000000 ≤ (2 : ℚ) ^ (0 : ℤ) := by
      rw [div_le_iff₀ (by norm_num)]; norm_num; linarith
    have hq0 : (0 : ℚ) < ((d % 1000000000 : ℤ) : ℚ) / 1000000000 :=
      lt_of_lt_of_le (by positivity) hq1
    obtain ⟨f, hf, _, hf2⟩ := F64.round_le_pow _ hq0 0 hq2 (by norm_num) (by norm_num)
    rcases F64.round_ge_pow _ (-30) hq1 (by norm_num) with hinf | ⟨f', hf', hf1⟩
    · rw [hinf] at hf; cases hf
    · rw [hf] at hf'; cases hf'
      rw [hf]
      show ∃ x, F64.round (((d / 1000000000 : ℤ) : ℚ) + f) = F64.fin x ∧ _
      have hsum1 : (2 : ℚ) ^ (-30 : ℤ) ≤ ((d / 1000000000 : ℤ) : ℚ) + f :=
        le_add_of_nonneg_of_le hsq0 hf1
      have hsum2 : ((d / 1000000000 : ℤ) : ℚ) + f ≤ (2 : ℚ) ^ (51 : ℤ) := by
        have h2 : (2 : ℚ) ^ (51 : ℤ) = 2 ^ 51 := by norm_num
        have h3 : (2 : ℚ) ^ (0 : ℤ) = 1 := by norm_num
        rw [h2]; rw [h3] at hf2; linarith
      have hsum0 : (0 : ℚ) < ((d / 1000000000 : ℤ) : ℚ) + f :=
        lt_of_lt_of_le (by positivity) hsum1
      obtain ⟨x, hx, _, hx2⟩ := F64.round_le_pow _ hsum0 51 hsum2 (by norm_num) (by norm_num)
      rcases F64.round_ge_pow _ (-30) hsum1 (by norm_num) with hinf | ⟨x', hx', hx1⟩
      · rw [hinf] at hx; cases hx
      · rw [hx] at hx'; cases hx'
        exact ⟨x, hx, hx1, hx2⟩

namespace F64

/-- A quotient of a numerator at least `2^k` by a positive denominator at
most `2^m` is at least `2^(k-m)`, or overflows to `+Inf`. -/
theorem div_ge_pow (a b : ℚ) (k m : ℤ) (ha : (2 : ℚ) ^ k ≤ a) (hb0 : 0 < b)
    (hb : b ≤ (2 : ℚ) ^ m) (hkm : -1022 ≤ k - m) :
    div (fin a) (fin b) = pinf ∨ ∃ c, div (fin a) (fin b) = fin c ∧ (2 : ℚ) ^ (k - m) ≤ c := by
  have hdiv : div (fin a) (fin b) = round (a / b) := by
    simp only [div, hb0.ne', if_false]
  rw [hdiv]
  apply round_ge_pow _ _ _ hkm
  rw [zpow_sub₀ (by norm_num : (2 : ℚ) ≠ 0)]
  have h2k : (0 : ℚ) < 2 ^ k := by positivity
  exact div_le_div₀ ((h2k.le).trans ha) ha hb0 hb

/-- A quotient of a positive numerator at most `2^k` by a denominator at
least `2^m` is finite and at most `2^(k-m)`. -/
theorem div_le_pow (a b : ℚ) (k m : ℤ) (ha0 : 0 < a) (ha : a ≤ (2 : ℚ) ^ k)
    (hb : (2 : ℚ) ^ m ≤ b) (hkm1 : -1022 ≤ k - m) (hkm2 : k - m ≤ 1023) :
    ∃ c, div (fin a) (fin b) = fin c ∧ 0 ≤ c ∧ c ≤ (2 : ℚ) ^ (k - m) := by
  have h2m : (0 : ℚ) < 2 ^ m := by positivity
  have hb0 : 0 < b := lt_of_lt_of_le h2m hb
  have hdiv : div (fin a) (fin b) = round (a / b) := by
    simp only [div, hb0.ne', if_false]
  rw [hdiv]
  apply round_le_pow _ (div_pos ha0 hb0) _ _ hkm1 hkm2
  rw [zpow_sub₀ (by norm_num : (2 : ℚ) ≠ 0)]
  have h2k : (0 : ℚ) < 2 ^ k := by positivity
  exact div_le_div₀ h2k.le ha h2m hb

end F64

/-- The throughput of a run whose total is non-negative is positive: `+Inf`
for a zero total, a positive finite value otherwise. -/
theorem throughput_pos (N d : ℤ) (hN1 : 1 ≤ N) (hN2 : N ≤ 2 ^ 45) (hd0 : 0 ≤ d)
    (hd1 : d < 2 ^ 63) :
    F64.lt (F64.fin 0) (F64.div (F64.ofInt N) (Duration.Seconds d)) = true := by
  rw [F64.ofInt_exact N (by omega) (by omega)]
  have hNq : (2 : ℚ) ^ (0 : ℤ) ≤ (N : ℚ) := by
    rw [zpow_zero]; exact_mod_cast hN1
  have hNpos : (0 : ℚ) < (N : ℚ) := by exact_mod_cast (by omega : 0 < N)
  rcases eq_or_lt_of_le hd0 with h | h
  · rw [← h, Seconds_zero]
    simp only [F64.div, if_true, hNpos.ne', if_false, hNpos, F64.lt]
  · obtain ⟨x, hx, hx1, hx2⟩ := Seconds_pos d h (by omega)
    rw [hx]
    have hx0 : 0 < x := lt_of_lt_of_le (by positivity) hx1
    rcases F64.div_ge_pow (N : ℚ) x 0 51 hNq hx0 hx2 (by norm_num) with hinf | ⟨c, hc, hc1⟩
    · rw [hinf]; rfl
    · rw [hc]
      have hc0 : 0 < c := lt_of_lt_of_le (by positivity) hc1
      simp only [F64.lt, hc0, decide_True]

/-! ## Average latency and throughput -/

/-- C3: for every `N ≥ 1` and every timing sample of `N` durations a run
records (their exact sum, the time the calls took on one `int64` nanosecond
clock, is an `int64`), the `AvgLatency` returned by `Run` is the sum of the
`N` durations, converted to `float64`, divided by `N` and then by `10^6`. -/
theorem Run_avg_latency {σ : Type} (rt : Runtime σ) (op : Operation σ) (N : ℤ) (s : σ)
    (evs : List Event) (ts : List Duration) (mS mE : MemStats) (s1 : σ) (hN : 1 ≤ N)
    (hm : measure rt op N s = (evs, .ok (ts, mS, mE) s1))
    (hlo : -2 ^ 63 ≤ ts.sum) (hrec : ts.sum < 2 ^ 63) :
    ts.length = N.toNat ∧
      ∃ r, Run rt op N s = (evs, .ok r s1) ∧
        r.AvgLatency =
          F64.div (F64.div (F64.ofInt ts.sum) (F64.fin N)) (F64.fin 1000000) := by
  obtain ⟨_, h2, h3, _⟩ := measure_ok rt op N s evs ts mS mE s1 hm
  obtain ⟨r, hr, hst⟩ := Run_of_measure rt op N s evs ts mS mE s1 hN hm
  obtain ⟨t, r2, _, hr2, _, ha, _, _⟩ := stats_some op.Name N ts mS mE hN h2 h3
  rw [hst] at hr2
  cases hr2
  have hN2 : N < 2 ^ 53 := by unfold maxLen at h2; omega
  rw [F64.round_1e6, F64.ofInt_exact N (by omega) hN2, totalTime_of_range ts hlo hrec] at ha
  exact ⟨h3, r, hr, ha⟩

theorem Run_avg_latency_witness :
    ([1000000, 2000000, 3000000] : List Duration).length = (3 : ℤ).toNat ∧
      ∃ r, Run clockRuntime rampOp 3 0 =
          (callEvents "ramp" 0 [1000000, 2000000, 3000000], .ok r 6000000) ∧
        r.AvgLatency =
          F64.div (F64.div (F64.ofInt ([1000000, 2000000, 3000000] : List Duration).sum)
            (F64.fin (3 : ℤ))) (F64.fin 1000000) :=
  Run_avg_latency clockRuntime rampOp 3 0 _ _ ⟨0, 0⟩ ⟨6000000, 0⟩ _ (by decide) (by decide)
    (by decide) (by decide)

/-- C4: for every `N ≥ 1` and every timing sample of `N` durations a run
records (their exact sum is an `int64`), the `Throughput` returned by `Run` is
`N` divided by the sum of the durations expressed in seconds by
`Duration.Seconds`. Nothing but `N` and the recorded durations enters it: any
other run that records the same sample, whatever its runtime, its operation,
its snapshots and the time spent outside the timed calls, returns the same
`Throughput`. -/
theorem Run_throughput {σ : Type} (rt : Runtime σ) (op : Operation σ) (N : ℤ) (s : σ)
    (evs : List Event) (ts : List Duration) (mS mE : MemStats) (s1 : σ) (hN : 1 ≤ N)
    (hm : measure rt op N s = (evs, .ok (ts, mS, mE) s1))
    (hlo : -2 ^ 63 ≤ ts.sum) (hrec : ts.sum < 2 ^ 63) :
    ts.length = N.toNat ∧
      ∃ r, Run rt op N s = (evs, .ok r s1) ∧
        r.Throughput = F64.div (F64.fin N) (Duration.Seconds ts.sum) ∧
        ∀ (τ : Type) (rt' : Runtime τ) (op' : Operation τ) (s' : τ) (evs' : List Event)
          (mS' mE' : MemStats) (s1' : τ),
          measure rt' op' N s' = (evs', .ok (ts, mS', mE') s1') →
          ∃ r', Run rt' op' N s' = (evs', .ok r' s1') ∧ r'.Throughput = r.Throughput := by
  have key : ∀ (τ : Type) (rt' : Runtime τ) (op' : Operation τ) (s' : τ) (evs' : List Event)
      (mS' mE' : MemStats) (s1' : τ),
      measure rt' op' N s' = (evs', .ok (ts, mS', mE') s1') →
      ts.length = N.toNat ∧ ∃ r', Run rt' op' N s' = (evs', .ok r' s1') ∧
        r'.Throughput = F64.div (F64.fin N) (Duration.Seconds ts.sum) := by
    intro τ rt' op' s' evs' mS' mE' s1' hm'
    obtain ⟨_, h2, h3, _⟩ := measure_ok rt' op' N s' evs' ts mS' mE' s1' hm'
    obtain ⟨r, hr, hst⟩ := Run_of_measure rt' op' N s' evs' ts mS' mE' s1' hN hm'
    obtain ⟨t, r2, _, hr2, _, _, _, ha⟩ := stats_some op'.Name N ts mS' mE' hN h2 h3
    rw [hst] at hr2
    cases hr2
    have hN2 : N < 2 ^ 53 := by unfold maxLen at h2; omega
    rw [F64.ofInt_exact N (by omega) hN2, totalTime_of_range ts hlo hrec] at ha
    exact ⟨h3, r, hr, ha⟩
  obtain ⟨h3, r, hr, ha⟩ := key σ rt op s evs mS mE s1 hm
  refine ⟨h3, r, hr, ha, ?_⟩
  intro τ rt' op' s' evs' mS' mE' s1' hm'
  obtain ⟨_, r', hr', ha'⟩ := key τ rt' op' s' evs' mS' mE' s1' hm'
  exact ⟨r', hr', by rw [ha', ha]⟩

theorem Run_throughput_witness :
    ([1000000, 2000000, 3000000] : List Duration).length = (3 : ℤ).toNat ∧
      ∃ r, Run clockRuntime rampOp 3 0 =
          (callEvents "ramp" 0 [1000000, 2000000, 3000000], .ok r 6000000) ∧
        r.Throughput =
          F64.div (F64.fin (3 : ℤ))
            (Duration.Seconds ([1000000, 2000000, 3000000] : List Duration).sum) ∧
        ∀ (τ : Type) (rt' : Runtime τ) (op' : Operation τ) (s' : τ) (evs' : List Event)
          (mS' mE' : MemStats) (s1' : τ),
          measure rt' op' 3 s' = (evs', .ok ([1000000, 2000000, 3000000], mS', mE') s1') →
          ∃ r', Run rt' op' 3 s' = (evs', .ok r' s1') ∧ r'.Throughput = r.Throughput :=
  Run_throughput clockRuntime rampOp 3 0 _ _ ⟨0, 0⟩ ⟨6000000, 0⟩ _ (by decide) (by decide)
    (by decide) (by decide)

/-- C5: for every `N ≥ 1` and every sample of non-negative durations a run
records (their exact sum, the time the calls took on one `int64` nanosecond
clock, is below `2^63`), `Run` returns a `Result` whose `Throughput` is
strictly positive; it is `+Inf` when all the durations are zero. -/
theorem Run_throughput_pos {σ : Type} (rt : Runtime σ) (op : Operation σ) (N : ℤ) (s : σ)
    (evs : List Event) (ts : List Duration) (mS mE : MemStats) (s1 : σ) (hN : 1 ≤ N)
    (hm : measure rt op N s = (evs, .ok (ts, mS, mE) s1))
    (hnn : ∀ t ∈ ts, 0 ≤ t) (hrec : ts.sum < 2 ^ 63) :
    ∃ r, Run rt op N s = (evs, .ok r s1) ∧ F64.lt (F64.fin 0) r.Throughput = true := by
  obtain ⟨_, h2, h3, _⟩ := measure_ok rt op N s evs ts mS mE s1 hm
  obtain ⟨r, hr, hst⟩ := Run_of_measure rt op N s evs ts mS mE s1 hN hm
  obtain ⟨t, r2, _, hr2, _, _, _, ha⟩ := stats_some op.Name N ts mS mE hN h2 h3
  rw [hst] at hr2
  cases hr2
  have hs0 : 0 ≤ ts.sum := List.sum_nonneg hnn
  refine ⟨r, hr, ?_⟩
  rw [ha, totalTime_of_range ts (le_trans (by norm_num) hs0) hrec]
  exact throughput_pos N ts.sum hN (by unfold maxLen at h2; exact h2) hs0 hrec

theorem Run_throughput_pos_witness :
    ∃ r, Run clockRuntime rampOp 3 0 =
        (callEvents "ramp" 0 [1000000, 2000000, 3000000], .ok r 6000000) ∧
      F64.lt (F64.fin 0) r.Throughput = true :=
  Run_throughput_pos clockRuntime rampOp 3 0 _ [1000000, 2000000, 3000000] ⟨0, 0⟩
    ⟨6000000, 0⟩ _ (by decide) (by decide) (by decide) (by decide)

/-! ## Outcomes of `Run` and of `PrintResult` -/

theorem callEvents_length (name : String) (a : ℕ) (ds : List Duration) :
    (callEvents name a ds).length = ds.length := by
  simp [callEvents]

theorem callEvents_getElem? (name : String) (a : ℕ) (ds : List Duration) (i : ℕ)
    (hi : i < ds.length) :
    (callEvents name a ds)[i]? = some (Event.call name ((a + i : ℕ) : ℤ) ds[i]) := by
  induction ds generalizing a i with
  | nil => simp at hi
  | cons d ds ih =>
    rw [callEvents_cons]
    cases i with
    | zero => simp
    | succ i =>
      simp only [List.length_cons, Nat.add_lt_add_iff_right] at hi
      rw [List.getElem?_cons_succ, ih (a + 1) i hi]
      simp only [List.getElem_cons_succ]
      congr 3
      omega

theorem not_failed_mem_callEvents (name : String) (a : ℕ) (ds : List Duration) (nm : String)
    (k : ℤ) (e : String) : Event.failed nm k e ∉ callEvents name a ds := by
  induction ds generalizing a with
  | nil => simp [callEvents]
  | cons d ds ih =>
    rw [callEvents_cons]
    simp only [List.mem_cons, not_or]
    exact ⟨by simp, ih (a + 1)⟩

/-- When `Execute` never returns an error and the sample can be allocated,
the measurement completes. -/
theorem measure_total {σ : Type} (rt : Runtime σ) (op : Operation σ) (N : ℤ) (s : σ)
    (hop : ∀ i s, (op.Execute i s).1 = none) (h0 : 0 ≤ N) (h1 : N ≤ maxLen)
    (ha : rt.Alloc N s = true) :
    ∃ evs ts mS mE s1, measure rt op N s = (evs, .ok (ts, mS, mE) s1) := by
  obtain ⟨ts, s1, hl⟩ := loop_total rt op hop N.toNat 0 (List.replicate N.toNat 0)
    (rt.ReadMemStats (rt.GC s)).2
  refine ⟨(loop rt op N.toNat 0 (List.replicate N.toNat 0) (rt.ReadMemStats (rt.GC s)).2).1, ts,
    (rt.ReadMemStats (rt.GC s)).1, (rt.ReadMemStats s1).1, (rt.ReadMemStats s1).2, ?_⟩
  unfold measure
  rw [if_neg (by push_neg; exact ⟨h0, h1⟩), if_neg (by simp [ha])]
  simp only [hl]

/-- The three ways `Run` can end: with a `Result` after `N` successful calls;
by `log.Fatalf` right after a failing call; before any call, by the panic or
the out-of-memory death of `make`, or by the panic of the index into an empty
sample. -/
theorem Run_cases {σ : Type} (rt : Runtime σ) (op : Operation σ) (N : ℤ) (s : σ) :
    (∃ ts r s1, Run rt op N s = (callEvents op.Name 0 ts, .ok r s1) ∧ r.Operation = op.Name ∧
        1 ≤ N ∧ ts.length = N.toNat) ∨
      (∃ ds e s1, (ds.length : ℤ) < N ∧
        Run rt op N s =
          (callEvents op.Name 0 ds ++
            [Event.failed op.Name (ds.length : ℤ) e, Event.fatal (fatalMsg op.Name e)],
            .fatal s1)) ∨
      (∃ msg s1, Run rt op N s = ([], .panic msg s1) ∧
        (N ≤ 0 ∨ maxLen < N ∨ rt.Alloc N s = false)) := by
  rcases hm : measure rt op N s with ⟨evs, o⟩
  cases o with
  | ok a s1 =>
    obtain ⟨ts, mS, mE⟩ := a
    obtain ⟨h0, h1, h2, h3⟩ := measure_ok rt op N s evs ts mS mE s1 hm
    rcases lt_or_le 0 N with hN | hN
    · left
      obtain ⟨r, hr, hst⟩ := Run_of_measure rt op N s evs ts mS mE s1 (by omega) hm
      obtain ⟨_, r2, _, hr2, hname, _⟩ := stats_some op.Name N ts mS mE (by omega) h1 h2
      rw [hst] at hr2
      cases hr2
      exact ⟨ts, r, s1, by rw [hr, h3], hname, by omega, h2⟩
    · right; right
      have hN0 : N = 0 := by omega
      subst hN0
      have hts : ts = [] := by
        apply List.eq_nil_of_length_eq_zero
        rw [h2]; rfl
      subst hts
      refine ⟨"index out of range", s1, ?_, Or.inl le_rfl⟩
      have hst : stats op.Name 0 [] mS mE = none := by
        unfold stats sortDurations
        simp
      unfold Run
      simp only [hm, hst, h3]
      rfl
  | fatal s1 =>
    right; left
    unfold measure at hm
    split at hm
    · simp at hm
    · rename_i hr
      push_neg at hr
      split at hm
      · simp at hm
      rename_i hoom
      simp only at hm
      split at hm
      · simp at hm
      · rename_i s' hl
        simp only [Prod.mk.injEq, Outcome.fatal.injEq] at hm
        obtain ⟨h1, h2⟩ := hm
        subst h2
        obtain ⟨ds, e, i1, i2⟩ := loop_fatal rt op N.toNat 0 _ _ _ s' (Prod.ext rfl hl)
        refine ⟨ds, e, s', by omega, ?_⟩
        have hm2 : measure rt op N s =
            (callEvents op.Name 0 ds ++
              [Event.failed op.Name (ds.length : ℤ) e, Event.fatal (fatalMsg op.Name e)],
              .fatal s') := by
          unfold measure
          rw [if_neg (by push_neg; exact hr), if_neg hoom]
          simp only [hl]
          refine Prod.ext ?_ rfl
          refine Eq.trans i2 ?_
          simp
        unfold Run
        simp only [hm2]
      · simp at hm
  | panic msg s1 =>
    right; right
    unfold measure at hm
    split at hm
    · rename_i hr
      simp only [Prod.mk.injEq, Outcome.panic.injEq] at hm
      obtain ⟨h1, h2, h3⟩ := hm
      subst h1 h2 h3
      refine ⟨"makeslice: len out of range", s, ?_, ?_⟩
      · unfold Run measure
        rw [if_pos hr]
      · rcases hr with h | h
        · left; omega
        · right; left; exact h
    · rename_i hr
      split at hm
      · rename_i hoom
        simp only [Prod.mk.injEq, Outcome.panic.injEq] at hm
        obtain ⟨h1, h2, h3⟩ := hm
        subst h1 h2 h3
        refine ⟨"runtime: out of memory", s, ?_, Or.inr (Or.inr hoom.2)⟩
        unfold Run measure
        rw [if_neg hr, if_pos hoom]
      · simp only at hm
        split at hm
        · simp at hm
        · simp at hm
        · rename_i msg' s' hl
          exact absurd hl (loop_no_panic rt op _ _ _ _ _ _)

theorem printRows_cons_ok {σ : Type} (rt : Runtime σ) (N : ℤ) (op : Operation σ)
    (rest : List (Operation σ)) (s : σ) (evs : List Event) (r : Result) (s1 : σ)
    (h : Run rt op N s = (evs, .ok r s1)) :
    printRows rt N (op :: rest) s =
      (evs ++ Event.out (formatRow r) :: (printRows rt N rest s1).1,
        (printRows rt N rest s1).2) := by
  simp only [printRows, h]

theorem printRows_cons_fatal {σ : Type} (rt : Runtime σ) (N : ℤ) (op : Operation σ)
    (rest : List (Operation σ)) (s : σ) (evs : List Event) (s1 : σ)
    (h : Run rt op N s = (evs, .fatal s1)) :
    printRows rt N (op :: rest) s = (evs, .fatal s1) := by
  simp only [printRows, h]

theorem printRows_cons_panic {σ : Type} (rt : Runtime σ) (N : ℤ) (op : Operation σ)
    (rest : List (Operation σ)) (s : σ) (evs : List Event) (msg : String) (s1 : σ)
    (h : Run rt op N s = (evs, .panic msg s1)) :
    printRows rt N (op :: rest) s = (evs, .panic msg s1) := by
  simp only [printRows, h]

/-- Running a list of operations whose front part completes continues with
the rest from the state reached, its events appended. -/
theorem printRows_append {σ : Type} (rt : Runtime σ) (N : ℤ) (rest : List (Operation σ)) :
    ∀ (pre : List (Operation σ)) (s s1 : σ), (printRows rt N pre s).2 = .ok () s1 →
      printRows rt N (pre ++ rest) s =
        ((printRows rt N pre s).1 ++ (printRows rt N rest s1).1, (printRows rt N rest s1).2) := by
  intro pre
  induction pre with
  | nil =>
    intro s s1 h
    simp only [printRows, Outcome.ok.injEq, true_and] at h
    subst h
    simp [printRows]
  | cons op pre ih =>
    intro s s1 h
    rcases Run_cases rt op N s with ⟨ts, r, s2, hr, _⟩ | ⟨ds, e, s2, _, hr⟩ | ⟨msg, s2, hr, _⟩
    · rw [printRows_cons_ok rt N op pre s _ r s2 hr] at h
      rw [List.cons_append, printRows_cons_ok rt N op (pre ++ rest) s _ r s2 hr,
        printRows_cons_ok rt N op pre s _ r s2 hr, ih s2 s1 h]
      simp
    · rw [printRows_cons_fatal rt N op pre s _ s2 hr] at h
      cases h
    · rw [printRows_cons_panic rt N op pre s _ msg s2 hr] at h
      cases h

/-- A completed loop over the operations printed one row per operation, in
order, each carrying the name of its operation, and ended on a row. -/
theorem printRows_ok {σ : Type} (rt : Runtime σ) (N : ℤ) :
    ∀ (ops : List (Operation σ)) (s s1 : σ), (printRows rt N ops s).2 = .ok () s1 →
      ∃ rs : List Result, rs.length = ops.length ∧
        rs.map (fun r => r.Operation) = ops.map (fun op => op.Name) ∧
        outLines (printRows rt N ops s).1 = rs.map formatRow ∧
        (ops ≠ [] → ∃ line, (printRows rt N ops s).1.getLast? = some (Event.out line)) := by
  intro ops
  induction ops with
  | nil =>
    intro s s1 _
    exact ⟨[], rfl, rfl, rfl, fun h => absurd rfl h⟩
  | cons op ops ih =>
    intro s s1 h
    rcases Run_cases rt op N s with ⟨ts, r, s2, hr, hname, _⟩ | ⟨ds, e, s2, _, hr⟩ |
      ⟨msg, s2, hr, _⟩
    · rw [printRows_cons_ok rt N op ops s _ r s2 hr] at h ⊢
      obtain ⟨rs, h1, h2, h3, h4⟩ := ih s2 s1 h
      refine ⟨r :: rs, by simp [h1], by simp [h2, hname], ?_, ?_⟩
      · simp only [outLines_append, outLines_callEvents, List.nil_append, outLines, h3,
          List.map_cons]
      · intro _
        cases ops with
        | nil => exact ⟨formatRow r, by simp [printRows]⟩
        | cons op2 ops2 =>
          obtain ⟨line, hl⟩ := h4 (by simp)
          refine ⟨line, ?_⟩
          have hne : (printRows rt N (op2 :: ops2) s2).1 ≠ [] := by
            intro hnil; rw [hnil] at hl; simp at hl
          rw [List.getLast?_append_of_ne_nil _ (by simp)]
          obtain ⟨b, l, hbl⟩ := List.exists_cons_of_ne_nil hne
          rw [hbl] at hl ⊢
          rw [List.getLast?_cons_cons]
          exact hl
    · rw [printRows_cons_fatal rt N op ops s _ s2 hr] at h
      cases h
    · rw [printRows_cons_panic rt N op ops s _ msg s2 hr] at h
      cases h

/-! ## Zero iterations -/

theorem p95Index_zero : p95Index 0 = 0 := by
  have h0 : F64.ofInt 0 = F64.fin 0 := by
    unfold F64.ofInt; rw [Int.cast_zero, F64.round_zero]
  unfold p95Index
  rw [F64.round_095, h0]
  simp only [F64.mul, mul_zero, F64.round_zero, F64.ceil, F64.toInt, Int.ceil_zero,
    Int.cast_zero, le_refl, if_true, Int.floor_zero]
  rw [if_pos (by norm_num), zero_sub, wrap64_of_range (-1) (by norm_num) (by norm_num)]
  rfl

/-- With no iteration `Run` makes no call and panics at the index into the
empty sample. -/
theorem Run_zero_panics {σ : Type} (rt : Runtime σ) (op : Operation σ) (s : σ) :
    Run rt op 0 s =
      ([], .panic "index out of range" (rt.ReadMemStats (rt.ReadMemStats (rt.GC s)).2).2) := by
  have hm : measure rt op 0 s =
      ([], .ok ([], (rt.ReadMemStats (rt.GC s)).1,
        (rt.ReadMemStats (rt.ReadMemStats (rt.GC s)).2).1)
        (rt.ReadMemStats (rt.ReadMemStats (rt.GC s)).2).2) := by
    unfold measure
    rw [if_neg (by unfold maxLen; norm_num), if_neg (by norm_num)]
    rfl
  have hst : ∀ mS mE, stats op.Name 0 [] mS mE = none := by
    intro mS mE
    unfold stats sortDurations
    simp
  unfold Run
  simp only [hm, hst]

/-- C6: with `iterations = 0` the code does not reject its input. `Run` makes
no call, evaluates the average latency as the float division `0 / 0` (NaN),
clamps the index `-1` to `0` and reads the empty sample there: it ends in the
runtime panic of an index out of range. -/
theorem Run_zero_iterations {σ : Type} (rt : Runtime σ) (op : Operation σ) (s : σ) :
    Run rt op 0 s =
        ([], .panic "index out of range" (rt.ReadMemStats (rt.ReadMemStats (rt.GC s)).2).2) ∧
      F64.div (F64.div (F64.ofInt (totalTime [])) (F64.ofInt 0)) (F64.round 1000000) = F64.nan ∧
      p95Index 0 = 0 ∧ (sortDurations [])[(p95Index 0).toNat]? = none := by
  have h0 : F64.ofInt 0 = F64.fin 0 := by
    unfold F64.ofInt; rw [Int.cast_zero, F64.round_zero]
  refine ⟨Run_zero_panics rt op s, ?_, p95Index_zero, ?_⟩
  · have ht : totalTime [] = 0 := rfl
    rw [ht, h0, F64.round_1e6]
    simp [F64.div]
  · simp [sortDurations]

/-! ## Failing calls and the printed report -/

/-- A run in which some call failed ended by `log.Fatalf` right after that
call, having made only the calls before it. -/
theorem Run_failed {σ : Type} (rt : Runtime σ) (op : Operation σ) (N : ℤ) (s : σ) (k : ℤ)
    (e : String) (h : Event.failed op.Name k e ∈ (Run rt op N s).1) :
    ∃ ds s1, (ds.length : ℤ) = k ∧ k < N ∧
      Run rt op N s =
        (callEvents op.Name 0 ds ++
          [Event.failed op.Name k e, Event.fatal (fatalMsg op.Name e)], .fatal s1) := by
  rcases Run_cases rt op N s with ⟨ts, r, s2, hr, _⟩ | ⟨ds, e2, s2, hlt, hr⟩ | ⟨msg, s2, hr, _⟩
  · rw [hr] at h
    exact absurd h (not_failed_mem_callEvents _ _ _ _ _ _)
  · rw [hr] at h
    simp only [List.mem_append, List.mem_cons, Event.failed.injEq, true_and, List.mem_singleton,
      List.mem_nil_iff, or_false] at h
    rcases h with h | h | h
    · exact absurd h (not_failed_mem_callEvents _ _ _ _ _ _)
    · obtain ⟨hk, he⟩ := h
      subst hk he
      exact ⟨ds, s2, rfl, hlt, hr⟩
    · cases h
  · rw [hr] at h
    simp at h

/-- C7: if, after the operations before it completed, a call `Execute(k)` of
operation `j` fails, the whole run is: the complete run of the operations
before `j`, the calls `0, …, k-1` of operation `j`, the failing call, the fatal
log — and nothing more. `Run` yields no `Result` for operation `j`, the
operations after `j` are never called, and no row is printed for `j` or for
any later operation. -/
theorem PrintResult_abort {σ : Type} (rt : Runtime σ) (pre post : List (Operation σ))
    (op : Operation σ) (N : ℤ) (s s1 : σ) (k : ℤ) (e : String)
    (hpre : (PrintResult rt pre N s).2 = .ok () s1)
    (hfail : Event.failed op.Name k e ∈ (Run rt op N s1).1) :
    ∃ ds s2, (ds.length : ℤ) = k ∧ 1 ≤ N ∧ k < N ∧
      Run rt op N s1 =
        (callEvents op.Name 0 ds ++
          [Event.failed op.Name k e, Event.fatal (fatalMsg op.Name e)], .fatal s2) ∧
      PrintResult rt (pre ++ op :: post) N s =
        ((PrintResult rt pre N s).1 ++
          (callEvents op.Name 0 ds ++
            [Event.failed op.Name k e, Event.fatal (fatalMsg op.Name e)]), .fatal s2) ∧
      outLines (PrintResult rt (pre ++ op :: post) N s).1 = outLines (PrintResult rt pre N s).1 ∧
      (outLines (PrintResult rt pre N s).1).length = 1 + pre.length := by
  obtain ⟨ds, s2, hk, hlt, hr⟩ := Run_failed rt op N s1 k e hfail
  have hpre2 : (printRows rt N pre s).2 = .ok () s1 := hpre
  have happ := printRows_append rt N (op :: post) pre s s1 hpre2
  rw [printRows_cons_fatal rt N op post s1 _ s2 hr] at happ
  have hP : PrintResult rt (pre ++ op :: post) N s =
      ((PrintResult rt pre N s).1 ++
        (callEvents op.Name 0 ds ++
          [Event.failed op.Name k e, Event.fatal (fatalMsg op.Name e)]), .fatal s2) := by
    unfold PrintResult
    simp only [happ, List.cons_append]
  obtain ⟨rs, h1, _, h3, _⟩ := printRows_ok rt N pre s s1 hpre2
  refine ⟨ds, s2, hk, ?_, hlt, hr, hP, ?_, ?_⟩
  · have : (0 : ℤ) ≤ (ds.length : ℤ) := Int.natCast_nonneg _
    omega
  · rw [hP]
    have hff : outLines [Event.failed op.Name k e, Event.fatal (fatalMsg op.Name e)] = [] := rfl
    rw [outLines_append, outLines_append, outLines_callEvents, hff, List.append_nil,
      List.append_nil]
  · unfold PrintResult
    simp only [outLines, h3, List.length_cons, List.length_map, h1]
    omega

/-- The scenario of the specification: two operations, ten iterations, the
first fails at its call of index 3; the second is never called and no row
is written. -/
theorem PrintResult_abort_witness :
    ∃ ds s2, ((ds.length : ℕ) : ℤ) = 3 ∧ (1 : ℤ) ≤ 10 ∧ (3 : ℤ) < 10 ∧
      Run clockRuntime (failAt 3) 10 0 =
        (callEvents "flaky" 0 ds ++
          [Event.failed "flaky" 3 "boom", Event.fatal (fatalMsg "flaky" "boom")], .fatal s2) ∧
      PrintResult clockRuntime ([] ++ failAt 3 :: [rampOp]) 10 0 =
        ((PrintResult clockRuntime [] 10 0).1 ++
          (callEvents "flaky" 0 ds ++
            [Event.failed "flaky" 3 "boom", Event.fatal (fatalMsg "flaky" "boom")]),
          .fatal s2) ∧
      outLines (PrintResult clockRuntime ([] ++ failAt 3 :: [rampOp]) 10 0).1 =
        outLines (PrintResult clockRuntime [] 10 0).1 ∧
      (outLines (PrintResult clockRuntime [] 10 0).1).length = 1 + ([] : List (Operation ℕ)).length :=
  PrintResult_abort clockRuntime [] [rampOp] (failAt 3) 10 0 0 3 "boom" rfl (by decide)

/-- A report on a single operation completes when its measurement does. -/
theorem PrintResult_single_ok {σ : Type} (rt : Runtime σ) (op : Operation σ) (N : ℤ) (s : σ)
    (evs : List Event) (ts : List Duration) (mS mE : MemStats) (s1 : σ) (hN : 1 ≤ N)
    (hm : measure rt op N s = (evs, .ok (ts, mS, mE) s1)) :
    (PrintResult rt [op] N s).2 = .ok () s1 := by
  obtain ⟨r, hr, _⟩ := Run_of_measure rt op N s evs ts mS mE s1 hN hm
  show (printRows rt N [op] s).2 = .ok () s1
  rw [printRows_cons_ok rt N op [] s evs r s1 hr]
  rfl

/-- A report on two operations completes when both measurements do. -/
theorem PrintResult_pair_ok {σ : Type} (rt : Runtime σ) (op1 op2 : Operation σ) (N : ℤ)
    (s : σ) (evs1 evs2 : List Event) (ts1 ts2 : List Duration) (mS1 mE1 mS2 mE2 : MemStats)
    (s1 s2 : σ) (hN : 1 ≤ N)
    (hm1 : measure rt op1 N s = (evs1, .ok (ts1, mS1, mE1) s1))
    (hm2 : measure rt op2 N s1 = (evs2, .ok (ts2, mS2, mE2) s2)) :
    (PrintResult rt [op1, op2] N s).2 = .ok () s2 := by
  obtain ⟨r1, hr1, _⟩ := Run_of_measure rt op1 N s evs1 ts1 mS1 mE1 s1 hN hm1
  obtain ⟨r2, hr2, _⟩ := Run_of_measure rt op2 N s1 evs2 ts2 mS2 mE2 s2 hN hm2
  show (printRows rt N [op1, op2] s).2 = .ok () s2
  rw [printRows_cons_ok rt N op1 [op2] s evs1 r1 s1 hr1,
    printRows_cons_ok rt N op2 [] s1 evs2 r2 s2 hr2]
  rfl

/-- The events of a completed loop over the operations, one operation after
the other: the calls of an operation, then its row, the row being the
formatted `Result` that `Run` returned for it from the state the operations
before it had left. -/
theorem printRows_trace {σ : Type} (rt : Runtime σ) (N : ℤ) :
    ∀ (ops : List (Operation σ)) (s s1 : σ), (printRows rt N ops s).2 = .ok () s1 →
      ∃ (segs : List (List Duration × Result)) (sts : List σ),
        segs.length = ops.length ∧ sts.length = ops.length + 1 ∧
        sts[0]? = some s ∧ sts[ops.length]? = some s1 ∧
        (∀ i o, ops[i]? = some o → ∃ ts r a b, segs[i]? = some (ts, r) ∧
          sts[i]? = some a ∧ sts[i + 1]? = some b ∧ ts.length = N.toNat ∧
          r.Operation = o.Name ∧ Run rt o N a = (callEvents o.Name 0 ts, .ok r b)) ∧
        (printRows rt N ops s).1 =
          (List.zipWith
            (fun o p => callEvents o.Name 0 p.1 ++ [Event.out (formatRow p.2)]) ops segs).flatten := by
  intro ops
  induction ops with
  | nil =>
    intro s s1 h
    simp only [printRows, Outcome.ok.injEq, true_and] at h
    subst h
    exact ⟨[], [s], rfl, rfl, rfl, rfl, fun i o h => by simp at h, rfl⟩
  | cons op ops ih =>
    intro s s1 h
    rcases Run_cases rt op N s with ⟨ts, r, s2, hr, hname, _, hlen⟩ | ⟨ds, e, s2, _, hr⟩ |
      ⟨msg, s2, hr, _⟩
    · rw [printRows_cons_ok rt N op ops s _ r s2 hr] at h ⊢
      obtain ⟨segs, sts, h1, h2, h3, h4, h5, h6⟩ := ih s2 s1 h
      refine ⟨(ts, r) :: segs, s :: sts, by simp [h1], by simp [h2], by simp, ?_, ?_, ?_⟩
      · rw [List.length_cons, List.getElem?_cons_succ]; exact h4
      · intro i o hi
        cases i with
        | zero =>
          simp only [List.getElem?_cons_zero, Option.some.injEq] at hi
          subst hi
          exact ⟨ts, r, s, s2, by simp, by simp, by rw [List.getElem?_cons_succ]; exact h3,
            hlen, hname, hr⟩
        | succ i =>
          rw [List.getElem?_cons_succ] at hi
          obtain ⟨ts', r', a, b, g1, g2, g3, g4, g5, g6⟩ := h5 i o hi
          exact ⟨ts', r', a, b, by rw [List.getElem?_cons_succ]; exact g1,
            by rw [List.getElem?_cons_succ]; exact g2,
            by rw [List.getElem?_cons_succ]; exact g3, g4, g5, g6⟩
      · simp only [List.zipWith_cons_cons, List.flatten_cons, h6, List.append_assoc,
          List.singleton_append]
    · rw [printRows_cons_fatal rt N op ops s _ s2 hr] at h
      cases h
    · rw [printRows_cons_panic rt N op ops s _ msg s2 hr] at h
      cases h

/-- C8: `PrintResult` streams. If the operations before position `j`
complete and the run of operation `j` is aborted by a failing call, then the
events of the whole run are, in this order: the header line; for each
operation before `j`, in the caller's order, its `N` calls followed at once by
its row, the formatted `Result` that `Run` returned for it from the state the
operations before it had left; then the calls of operation `j` up to the
failing one and the fatal log, which write nothing. So each row is written
before the first call of the next operation, and at the abort the output is
exactly the header followed by the rows of the operations before `j`. -/
theorem PrintResult_streams {σ : Type} (rt : Runtime σ) (pre post : List (Operation σ))
    (op : Operation σ) (N : ℤ) (s s1 s2 : σ)
    (hpre : (PrintResult rt pre N s).2 = .ok () s1)
    (hfatal : (Run rt op N s1).2 = .fatal s2) :
    (PrintResult rt (pre ++ op :: post) N s).2 = .fatal s2 ∧
      ∃ (segs : List (List Duration × Result)) (sts : List σ) (ds : List Duration) (e : String),
        segs.length = pre.length ∧ sts.length = pre.length + 1 ∧
        sts[0]? = some s ∧ sts[pre.length]? = some s1 ∧
        (∀ i o, pre[i]? = some o → ∃ ts r a b, segs[i]? = some (ts, r) ∧
          sts[i]? = some a ∧ sts[i + 1]? = some b ∧ ts.length = N.toNat ∧
          r.Operation = o.Name ∧ Run rt o N a = (callEvents o.Name 0 ts, .ok r b)) ∧
        (ds.length : ℤ) < N ∧
        Run rt op N s1 =
          (callEvents op.Name 0 ds ++
            [Event.failed op.Name (ds.length : ℤ) e, Event.fatal (fatalMsg op.Name e)],
            .fatal s2) ∧
        (PrintResult rt (pre ++ op :: post) N s).1 =
          Event.out headerLine ::
            ((List.zipWith
              (fun o p => callEvents o.Name 0 p.1 ++ [Event.out (formatRow p.2)])
              pre segs).flatten ++
              (callEvents op.Name 0 ds ++
                [Event.failed op.Name (ds.length : ℤ) e, Event.fatal (fatalMsg op.Name e)])) ∧
        outLines (PrintResult rt (pre ++ op :: post) N s).1 =
          headerLine :: segs.map (fun p => formatRow p.2) := by
  have hpre2 : (printRows rt N pre s).2 = .ok () s1 := hpre
  have happ := printRows_append rt N (op :: post) pre s s1 hpre2
  have hrun : Run rt op N s1 = ((Run rt op N s1).1, .fatal s2) := Prod.ext rfl hfatal
  rw [printRows_cons_fatal rt N op post s1 _ s2 hrun] at happ
  obtain ⟨ds, e, hlt, hr⟩ : ∃ (ds : List Duration) (e : String), (ds.length : ℤ) < N ∧
      Run rt op N s1 =
        (callEvents op.Name 0 ds ++
          [Event.failed op.Name (ds.length : ℤ) e, Event.fatal (fatalMsg op.Name e)],
          .fatal s2) := by
    rcases Run_cases rt op N s1 with ⟨ts, r, s3, hr, _⟩ | ⟨ds, e, s3, hlt, hr⟩ | ⟨msg, s3, hr, _⟩
    · rw [hr] at hfatal; cases hfatal
    · rw [hr] at hfatal
      simp only [Outcome.fatal.injEq] at hfatal
      subst hfatal
      exact ⟨ds, e, hlt, hr⟩
    · rw [hr] at hfatal; cases hfatal
  obtain ⟨segs, sts, h1, h2, h3, h4, h5, h6⟩ := printRows_trace rt N pre s s1 hpre2
  have hev : (PrintResult rt (pre ++ op :: post) N s).1 =
      Event.out headerLine ::
        ((List.zipWith
          (fun o p => callEvents o.Name 0 p.1 ++ [Event.out (formatRow p.2)])
          pre segs).flatten ++
          (callEvents op.Name 0 ds ++
            [Event.failed op.Name (ds.length : ℤ) e, Event.fatal (fatalMsg op.Name e)])) := by
    unfold PrintResult
    simp only [happ, h6, hr]
  have hrows : ∀ (ops : List (Operation σ)) (sg : List (List Duration × Result)),
      outLines (List.zipWith
        (fun o p => callEvents o.Name 0 p.1 ++ [Event.out (formatRow p.2)]) ops sg).flatten =
        (List.zipWith (fun (_ : Operation σ) (p : List Duration × Result) => formatRow p.2)
          ops sg) := by
    intro ops
    induction ops with
    | nil => intro sg; rfl
    | cons o ops ih =>
      intro sg
      cases sg with
      | nil => rfl
      | cons p sg =>
        simp only [List.zipWith_cons_cons, List.flatten_cons, outLines_append,
          outLines_callEvents, List.nil_append, outLines, ih sg, List.singleton_append,
          List.cons_append]
  have hzip : ∀ (ops : List (Operation σ)) (sg : List (List Duration × Result)),
      sg.length = ops.length →
      List.zipWith (fun (_ : Operation σ) (p : List Duration × Result) => formatRow p.2)
        ops sg = sg.map (fun p => formatRow p.2) := by
    intro ops
    induction ops with
    | nil =>
      intro sg hsg
      rw [List.length_nil, List.length_eq_zero] at hsg
      rw [hsg]; rfl
    | cons o ops ih =>
      intro sg hsg
      cases sg with
      | nil => simp at hsg
      | cons p sg =>
        simp only [List.zipWith_cons_cons, List.map_cons, ih sg (by simpa using hsg)]
  refine ⟨?_, segs, sts, ds, e, h1, h2, h3, h4, h5, hlt, hr, hev, ?_⟩
  · unfold PrintResult
    simp only [happ]
  · rw [hev]
    simp only [outLines, outLines_append, outLines_callEvents, hrows, hzip pre segs h1,
      List.nil_append, List.append_nil]

/-- Two operations complete and the third fails at its second call: the rows
of the first two are written, each right after the calls of its operation. -/
theorem PrintResult_streams_witness :
    (PrintResult clockRuntime ([rampOp, steadyOp] ++ failAt 1 :: [rampOp]) 3 0).2 =
        .fatal 9000002 ∧
      ∃ (segs : List (List Duration × Result)) (sts : List ℕ) (ds : List Duration) (e : String),
        segs.length = [rampOp, steadyOp].length ∧ sts.length = [rampOp, steadyOp].length + 1 ∧
        sts[0]? = some 0 ∧ sts[[rampOp, steadyOp].length]? = some 9000000 ∧
        (∀ i o, [rampOp, steadyOp][i]? = some o → ∃ ts r a b, segs[i]? = some (ts, r) ∧
          sts[i]? = some a ∧ sts[i + 1]? = some b ∧ ts.length = (3 : ℤ).toNat ∧
          r.Operation = o.Name ∧ Run clockRuntime o 3 a = (callEvents o.Name 0 ts, .ok r b)) ∧
        (ds.length : ℤ) < 3 ∧
        Run clockRuntime (failAt 1) 3 9000000 =
          (callEvents (failAt 1).Name 0 ds ++
            [Event.failed (failAt 1).Name (ds.length : ℤ) e,
              Event.fatal (fatalMsg (failAt 1).Name e)],
            .fatal 9000002) ∧
        (PrintResult clockRuntime ([rampOp, steadyOp] ++ failAt 1 :: [rampOp]) 3 0).1 =
          Event.out headerLine ::
            ((List.zipWith
              (fun o p => callEvents o.Name 0 p.1 ++ [Event.out (formatRow p.2)])
              [rampOp, steadyOp] segs).flatten ++
              (callEvents (failAt 1).Name 0 ds ++
                [Event.failed (failAt 1).Name (ds.length : ℤ) e,
                  Event.fatal (fatalMsg (failAt 1).Name e)])) ∧
        outLines (PrintResult clockRuntime ([rampOp, steadyOp] ++ failAt 1 :: [rampOp]) 3 0).1 =
          headerLine :: segs.map (fun p => formatRow p.2) :=
  PrintResult_streams clockRuntime [rampOp, steadyOp] [rampOp] (failAt 1) 3 0 9000000 9000002
    (PrintResult_pair_ok clockRuntime rampOp steadyOp 3 0
      (callEvents "ramp" 0 [1000000, 2000000, 3000000])
      (callEvents "steady" 0 [1000000, 1000000, 1000000])
      [1000000, 2000000, 3000000] [1000000, 1000000, 1000000]
      ⟨0, 0⟩ ⟨6000000, 0⟩ ⟨6000000, 0⟩ ⟨9000000, 0⟩ 6000000 9000000
      (by decide) (by decide) (by decide))
    rfl

/-- C9, as amended: for an operation whose `Execute` never returns an error
and an `N ≥ 1` whose timing sample `make` allocates (`N` is at most `2^45` and
the runtime has the memory for `N` durations), `Run` makes exactly the calls
`Execute(0), …, Execute(N-1)`, in that order and nothing else, and returns the
statistics of a sample of exactly `N` entries whose entry `i` is the duration
measured around the call `Execute(i)`. -/
theorem Run_calls {σ : Type} (rt : Runtime σ) (op : Operation σ) (N : ℤ) (s : σ)
    (hop : ∀ i s, (op.Execute i s).1 = none) (h1 : 1 ≤ N) (h2 : N ≤ maxLen)
    (halloc : rt.Alloc N s = true) :
    ∃ ts mS mE r s1, measure rt op N s = (callEvents op.Name 0 ts, .ok (ts, mS, mE) s1) ∧
      Run rt op N s = (callEvents op.Name 0 ts, .ok r s1) ∧
      stats op.Name N ts mS mE = some r ∧
      ts.length = N.toNat ∧ (Run rt op N s).1.length = N.toNat ∧
      ∀ i (hi : i < ts.length),
        (Run rt op N s).1[i]? = some (Event.call op.Name (i : ℤ) ts[i]) := by
  obtain ⟨evs, ts, mS, mE, s1, hm⟩ := measure_total rt op N s hop (by omega) h2 halloc
  obtain ⟨_, _, h3, h4⟩ := measure_ok rt op N s evs ts mS mE s1 hm
  obtain ⟨r, hr, hst⟩ := Run_of_measure rt op N s evs ts mS mE s1 h1 hm
  subst h4
  refine ⟨ts, mS, mE, r, s1, hm, hr, hst, h3, ?_, ?_⟩
  · rw [hr]
    simp only [callEvents_length, h3]
  · intro i hi
    rw [hr]
    simp only
    rw [callEvents_getElem? op.Name 0 ts i hi]
    simp

theorem Run_calls_witness :
    ∃ ts mS mE r s1, measure clockRuntime rampOp 3 0 =
        (callEvents rampOp.Name 0 ts, .ok (ts, mS, mE) s1) ∧
      Run clockRuntime rampOp 3 0 = (callEvents rampOp.Name 0 ts, .ok r s1) ∧
      stats rampOp.Name 3 ts mS mE = some r ∧
      ts.length = (3 : ℤ).toNat ∧ (Run clockRuntime rampOp 3 0).1.length = (3 : ℤ).toNat ∧
      ∀ i (hi : i < ts.length),
        (Run clockRuntime rampOp 3 0).1[i]? = some (Event.call rampOp.Name (i : ℤ) ts[i]) :=
  Run_calls clockRuntime rampOp 3 0 (fun _ _ => rfl) (by decide) (by decide) (by decide)

/-- C9 fails as stated: `rampOp` never fails and `2^45 + 1 ≥ 1`, yet `Run`
makes no call at all: `make` panics on the length of the timing sample. -/
theorem Run_calls_too_many :
    (∀ i s, (rampOp.Execute i s).1 = none) ∧ (1 : ℤ) ≤ 2 ^ 45 + 1 ∧
      Run clockRuntime rampOp (2 ^ 45 + 1) 0 = ([], .panic "makeslice: len out of range" 0) := by
  refine ⟨fun _ _ => rfl, by norm_num, ?_⟩
  unfold Run measure
  rw [if_pos (by unfold maxLen; norm_num)]

/-- A length `make` does not reject but the runtime has no memory for: the
process dies before any call. -/
theorem Run_out_of_memory :
    Run clockRuntime rampOp (2 ^ 45) 0 = ([], .panic "runtime: out of memory" 0) := by
  unfold Run measure
  rw [if_neg (by unfold maxLen; norm_num), if_pos ⟨by norm_num, by decide⟩]

/-- C10, as amended: for operations whose `Execute` never returns an error
and an `N ≥ 1` whose timing sample `make` allocates at every run (`N` is at
most `2^45` and the runtime has the memory for `N` durations), `PrintResult`
returns after writing exactly the header line followed by exactly one row per
operation, the `i`-th row being the formatted `Result` that carries the name
of the `i`-th operation. -/
theorem PrintResult_report {σ : Type} (rt : Runtime σ) (N : ℤ) (h1 : 1 ≤ N) (h2 : N ≤ maxLen)
    (halloc : ∀ s, rt.Alloc N s = true) :
    ∀ (ops : List (Operation σ)) (s : σ), (∀ op ∈ ops, ∀ i s, (op.Execute i s).1 = none) →
      ∃ (s1 : σ) (rs : List Result), (PrintResult rt ops N s).2 = .ok () s1 ∧ rs.length = ops.length ∧
        rs.map (fun r => r.Operation) = ops.map (fun o => o.Name) ∧
        outLines (PrintResult rt ops N s).1 = headerLine :: rs.map formatRow := by
  have htot : ∀ (ops : List (Operation σ)) (s : σ),
      (∀ op ∈ ops, ∀ i s, (op.Execute i s).1 = none) →
      ∃ s1, (printRows rt N ops s).2 = .ok () s1 := by
    intro ops
    induction ops with
    | nil => intro s _; exact ⟨s, rfl⟩
    | cons op ops ih =>
      intro s hops
      obtain ⟨evs, ts, mS, mE, s1, hm⟩ :=
        measure_total rt op N s (hops op (List.mem_cons_self _ _)) (by omega) h2 (halloc s)
      obtain ⟨r, hr, _⟩ := Run_of_measure rt op N s evs ts mS mE s1 h1 hm
      obtain ⟨s2, hs2⟩ := ih s1 (fun o ho => hops o (List.mem_cons_of_mem _ ho))
      exact ⟨s2, by rw [printRows_cons_ok rt N op ops s evs r s1 hr]; exact hs2⟩
  intro ops s hops
  obtain ⟨s1, hs1⟩ := htot ops s hops
  obtain ⟨rs, h3, h4, h5, _⟩ := printRows_ok rt N ops s s1 hs1
  refine ⟨s1, rs, hs1, h3, h4, ?_⟩
  have hh : outLines (PrintResult rt ops N s).1 = headerLine :: outLines (printRows rt N ops s).1 :=
    rfl
  rw [hh, h5]

theorem PrintResult_report_witness :
    ∃ (s1 : ℕ) (rs : List Result), (PrintResult clockRuntime [rampOp, rampOp] 3 0).2 = .ok () s1 ∧
      rs.length = [rampOp, rampOp].length ∧
      rs.map (fun r => r.Operation) = [rampOp, rampOp].map (fun o => o.Name) ∧
      outLines (PrintResult clockRuntime [rampOp, rampOp] 3 0).1 = headerLine :: rs.map formatRow :=
  PrintResult_report clockRuntime 3 (by decide) (by decide) (fun _ => rfl)
    [rampOp, rampOp] 0
    (fun op hop i s => by
      have h : op = rampOp := by simpa using hop
      rw [h]; rfl)

/-- C10 fails as stated: with `2^45 + 1` iterations the one operation never
fails (it is never called), yet the output is the header alone: `make` panics
on the length of the timing sample and no row is written. -/
theorem PrintResult_report_too_many :
    (∀ i s, (rampOp.Execute i s).1 = none) ∧ (1 : ℤ) ≤ 2 ^ 45 + 1 ∧
      PrintResult clockRuntime [rampOp] (2 ^ 45 + 1) 0 =
        ([Event.out headerLine], .panic "makeslice: len out of range" 0) ∧
      outLines (PrintResult clockRuntime [rampOp] (2 ^ 45 + 1) 0).1 = [headerLine] := by
  have hr : Run clockRuntime rampOp (2 ^ 45 + 1) 0 =
      ([], .panic "makeslice: len out of range" 0) := by
    unfold Run measure
    rw [if_pos (by unfold maxLen; norm_num)]
  have hp : PrintResult clockRuntime [rampOp] (2 ^ 45 + 1) 0 =
      ([Event.out headerLine], .panic "makeslice: len out of range" 0) := by
    unfold PrintResult
    rw [printRows_cons_panic clockRuntime _ rampOp [] 0 _ _ _ hr]
  exact ⟨fun _ _ => rfl, by norm_num, hp, by rw [hp]; rfl⟩

/-! ## More on rounding: exactness, idempotence, scaling -/

namespace F64

theorem ulp_abs (q : ℚ) : ulp |q| = ulp q := by
  unfold ulp; rw [abs_abs]

theorem ulp_neg (q : ℚ) : ulp (-q) = ulp q := by
  unfold ulp; rw [abs_neg]

/-- A value on its own grid, of either sign, is a binary64 value. -/
theorem round_on_grid (q : ℚ) (m : ℤ) (hm : q = m * ulp q)
    (hfin : |q| < (2 : ℚ) ^ (1024 : ℕ)) : round q = fin q := by
  by_cases h0 : q = 0
  · rw [h0, round_zero]
  · have hu := ulp_pos q
    have hdiv : q / ulp q = (m : ℚ) := by
      rw [div_eq_iff hu.ne']; exact hm
    unfold round
    rw [if_neg h0]
    simp only [hdiv, roundHalfEven_intCast, ← hm]
    rw [if_neg (not_le.mpr hfin)]

/-- The exponent of a non-zero value places it between two powers of two. -/
theorem abs_lt_pow_succ (q : ℚ) :
    |q| < (2 : ℚ) ^ (max (Int.log 2 |q|) (-1022) + 1) := by
  have h := Int.lt_zpow_succ_log_self (b := 2) (by norm_num) |q|
  have h2 : |q| < (2 : ℚ) ^ (Int.log 2 |q| + 1) := by exact_mod_cast h
  exact lt_of_lt_of_le h2 (zpow_le_zpow_right₀ (by norm_num) (by omega))

/-- Integers of magnitude below `2^53` convert to `float64` without rounding. -/
theorem ofInt_exact_abs (n : ℤ) (h : |n| < 2 ^ 53) : ofInt n = fin n := by
  unfold ofInt
  by_cases h0 : n = 0
  · rw [h0, Int.cast_zero, round_zero]
  · have hq : (0 : ℚ) < |(n : ℚ)| := abs_pos.mpr (by exact_mod_cast h0)
    have hlt : |(n : ℚ)| < (2 : ℚ) ^ (53 : ℕ) := by
      have : ((|n| : ℤ) : ℚ) < ((2 ^ 53 : ℤ) : ℚ) := by exact_mod_cast h
      simpa using this
    obtain ⟨j, hj⟩ := ulp_mul_pow |(n : ℚ)| hq hlt
    rw [ulp_abs] at hj
    refine round_on_grid n (n * 2 ^ j) ?_ (lt_trans hlt (by norm_num))
    push_cast; rw [mul_assoc, mul_comm ((2 : ℚ) ^ j), hj, mul_one]

end F64

namespace F64

/-- Every `m · 2^(e-52)` with a significand `|m| ≤ 2^53` and an exponent `e`
of the binary64 range is a binary64 value. -/
theorem round_grid_value (e : ℤ) (he : -1022 ≤ e) (m : ℤ) (hm : |m| ≤ 2 ^ 53)
    (hfin : |(m : ℚ) * (2 : ℚ) ^ (e - 52)| < (2 : ℚ) ^ (1024 : ℕ)) :
    round ((m : ℚ) * (2 : ℚ) ^ (e - 52)) = fin ((m : ℚ) * (2 : ℚ) ^ (e - 52)) := by
  by_cases hm0 : m = 0
  · rw [hm0]; simp [round_zero]
  have h2pos : (0 : ℚ) < (2 : ℚ) ^ (e - 52) := by positivity
  have habs_r : |(m : ℚ) * (2 : ℚ) ^ (e - 52)| = |(m : ℚ)| * (2 : ℚ) ^ (e - 52) := by
    rw [abs_mul, abs_of_pos h2pos]
  have hone : (1 : ℚ) ≤ |(m : ℚ)| := by
    have : (1 : ℤ) ≤ |m| := Int.one_le_abs hm0
    exact_mod_cast this
  have hr0 : (m : ℚ) * (2 : ℚ) ^ (e - 52) ≠ 0 :=
    mul_ne_zero (by exact_mod_cast hm0) h2pos.ne'
  have hrpos : (0 : ℚ) < |(m : ℚ) * (2 : ℚ) ^ (e - 52)| := abs_pos.mpr hr0
  have h53 : ((2 ^ 53 : ℤ) : ℚ) = (2 : ℚ) ^ (53 : ℤ) := by norm_num
  have hur : ulp ((m : ℚ) * (2 : ℚ) ^ (e - 52)) =
      (2 : ℚ) ^ (max (Int.log 2 |(m : ℚ) * (2 : ℚ) ^ (e - 52)|) (-1022) - 52) := rfl
  rcases lt_or_eq_of_le hm with hlt | heq
  · -- the exponent of the value is at most `e`
    have hlt' : |(m : ℚ)| < (2 : ℚ) ^ (53 : ℤ) := by
      have : ((|m| : ℤ) : ℚ) < ((2 ^ 53 : ℤ) : ℚ) := by exact_mod_cast hlt
      rw [h53] at this
      simpa using this
    have hrlt : |(m : ℚ) * (2 : ℚ) ^ (e - 52)| < (2 : ℚ) ^ (e + 1) := by
      rw [habs_r]
      have : (2 : ℚ) ^ (e + 1) = (2 : ℚ) ^ (53 : ℤ) * (2 : ℚ) ^ (e - 52) := by
        rw [← zpow_add₀ (by norm_num : (2 : ℚ) ≠ 0)]; congr 1; ring
      rw [this]
      exact mul_lt_mul_of_pos_right hlt' (by positivity)
    have hlog2 : Int.log 2 |(m : ℚ) * (2 : ℚ) ^ (e - 52)| < e + 1 :=
      (Int.lt_zpow_iff_log_lt (by norm_num) hrpos).mp (by exact_mod_cast hrlt)
    refine round_on_grid _
      (m * 2 ^ (e - max (Int.log 2 |(m : ℚ) * (2 : ℚ) ^ (e - 52)|) (-1022)).toNat) ?_ hfin
    rw [hur]
    generalize Int.log 2 |(m : ℚ) * (2 : ℚ) ^ (e - 52)| = L at hlog2 ⊢
    have hee : max L (-1022) ≤ e := max_le (by omega) he
    push_cast
    rw [mul_assoc, ← zpow_natCast, ← zpow_add₀ (by norm_num : (2 : ℚ) ≠ 0),
      Int.toNat_of_nonneg (by omega)]
    congr 2; ring
  · -- the value is a power of two, one exponent up
    have heq' : |(m : ℚ)| = (2 : ℚ) ^ (53 : ℤ) := by
      have : ((|m| : ℤ) : ℚ) = ((2 ^ 53 : ℤ) : ℚ) := by exact_mod_cast heq
      rw [h53] at this
      simpa using this
    have hreq : |(m : ℚ) * (2 : ℚ) ^ (e - 52)| = (2 : ℚ) ^ (e + 1) := by
      rw [habs_r, heq', ← zpow_add₀ (by norm_num : (2 : ℚ) ≠ 0)]; congr 1; ring
    have hlog : Int.log 2 |(m : ℚ) * (2 : ℚ) ^ (e - 52)| = e + 1 := by
      rw [hreq]
      have := Int.log_zpow (R := ℚ) (b := 2) (by norm_num) (e + 1)
      exact_mod_cast this
    have hdvd : (2 : ℤ) ∣ m := by
      rcases abs_eq (by norm_num : (0 : ℤ) ≤ 2 ^ 53) |>.mp heq with h1 | h1
      · rw [h1]; norm_num
      · rw [h1]; norm_num
    obtain ⟨k, hk⟩ := hdvd
    refine round_on_grid _ k ?_ hfin
    rw [hur, hlog, max_eq_left (by omega), hk]
    push_cast
    have : (2 : ℚ) ^ (e + 1 - 52) = 2 * (2 : ℚ) ^ (e - 52) := by
      rw [show e + 1 - 52 = 1 + (e - 52) by ring, zpow_add₀ (by norm_num : (2 : ℚ) ≠ 0)]
      norm_num
    rw [this]; ring

/-- The significand of a rounded value has at most 53 bits. -/
theorem roundHalfEven_div_ulp_abs (q : ℚ) : |roundHalfEven (q / ulp q)| ≤ 2 ^ 53 := by
  have hupos := ulp_pos q
  have hqlt := abs_lt_pow_succ q
  have hu : ulp q = (2 : ℚ) ^ (max (Int.log 2 |q|) (-1022) - 52) := rfl
  have hdivlt : |q / ulp q| < (2 : ℚ) ^ (53 : ℤ) := by
    rw [abs_div, abs_of_pos hupos, div_lt_iff₀ hupos, hu, ← zpow_add₀ (by norm_num : (2 : ℚ) ≠ 0)]
    have : (53 : ℤ) + (max (Int.log 2 |q|) (-1022) - 52) = max (Int.log 2 |q|) (-1022) + 1 := by
      ring
    rw [this]; exact hqlt
  have h53 : ((2 ^ 53 : ℤ) : ℚ) = (2 : ℚ) ^ (53 : ℤ) := by norm_num
  have hb := abs_lt.mp hdivlt
  rw [abs_le]
  constructor
  · apply le_roundHalfEven_of_le
    have : ((-(2 ^ 53) : ℤ) : ℚ) = -(2 : ℚ) ^ (53 : ℤ) := by norm_num
    rw [this]; exact hb.1.le
  · apply roundHalfEven_le_of_le
    rw [h53]; exact hb.2.le

/-- Rounding is idempotent: what it returns is a binary64 value. -/
theorem round_round (q r : ℚ) (h : round q = fin r) : round r = fin r := by
  by_cases h0 : q = 0
  · rw [h0, round_zero] at h
    cases h
    exact round_zero
  · unfold round at h
    rw [if_neg h0] at h
    simp only at h
    split_ifs at h with hov
    cases h
    push_neg at hov
    have hu : ulp q = (2 : ℚ) ^ (max (Int.log 2 |q|) (-1022) - 52) := rfl
    rw [hu] at hov ⊢
    exact round_grid_value _ (le_max_right _ _) _
      (by have := roundHalfEven_div_ulp_abs q; rw [hu] at this; exact this) hov

end F64

namespace F64

/-- Doubling commutes with rounding, away from the subnormal range and from
overflow. -/
theorem round_two_mul (q r : ℚ) (h : round q = fin r) (hq : (2 : ℚ) ^ (-1022 : ℤ) ≤ |q|)
    (hr : |r| < (2 : ℚ) ^ (1023 : ℕ)) : round (2 * q) = fin (2 * r) := by
  have hqpos : 0 < |q| := lt_of_lt_of_le (by positivity) hq
  have h0 : q ≠ 0 := abs_pos.mp hqpos
  have hl : -1022 ≤ Int.log 2 |q| :=
    (Int.zpow_le_iff_le_log (by norm_num) hqpos).mp (by exact_mod_cast hq)
  have hlo : (2 : ℚ) ^ Int.log 2 |q| ≤ |q| := by
    exact_mod_cast Int.zpow_log_le_self (b := 2) (by norm_num) hqpos
  have hhi : |q| < (2 : ℚ) ^ (Int.log 2 |q| + 1) := by
    exact_mod_cast Int.lt_zpow_succ_log_self (b := 2) (by norm_num) |q|
  have habs2 : |2 * q| = 2 * |q| := by rw [abs_mul]; norm_num
  have hlog2 : Int.log 2 |2 * q| = Int.log 2 |q| + 1 := by
    apply log_eq_of
    · rw [habs2, zpow_add₀ (by norm_num : (2 : ℚ) ≠ 0), zpow_one]; linarith
    · rw [habs2, zpow_add₀ (by norm_num : (2 : ℚ) ≠ 0) (Int.log 2 |q| + 1), zpow_one]; linarith
  have hu : ulp q = (2 : ℚ) ^ (Int.log 2 |q| - 52) := by
    unfold ulp; rw [max_eq_left hl]
  have hu2 : ulp (2 * q) = 2 * ulp q := by
    unfold ulp
    rw [hlog2, max_eq_left (by omega), max_eq_left hl,
      show Int.log 2 |q| + 1 - 52 = 1 + (Int.log 2 |q| - 52) by ring,
      zpow_add₀ (by norm_num : (2 : ℚ) ≠ 0), zpow_one]
  have hupos := ulp_pos q
  have hdiv : 2 * q / (2 * ulp q) = q / ulp q := by
    field_simp
    ring
  unfold round at h ⊢
  rw [if_neg h0] at h
  rw [if_neg (mul_ne_zero (by norm_num) h0)]
  simp only at h ⊢
  split_ifs at h with hov
  cases h
  rw [hu2, hdiv]
  have e2 : (roundHalfEven (q / ulp q) : ℚ) * (2 * ulp q) =
      2 * ((roundHalfEven (q / ulp q) : ℚ) * ulp q) := by ring
  rw [e2]
  have hlt : |2 * ((roundHalfEven (q / ulp q) : ℚ) * ulp q)| < (2 : ℚ) ^ (1024 : ℕ) := by
    rw [abs_mul]
    have : (2 : ℚ) ^ (1024 : ℕ) = 2 * (2 : ℚ) ^ (1023 : ℕ) := by norm_num
    rw [this]
    have h2 : |(2 : ℚ)| = 2 := by norm_num
    rw [h2]; linarith
  rw [if_neg (not_le.mpr hlt)]

/-- Evaluation of a rounding from the exponent `e` and the significand `m` of
the result. -/
theorem round_eval (q : ℚ) (e m : ℤ) (he : -1022 ≤ e) (h1 : (2 : ℚ) ^ e ≤ q)
    (h2 : q < (2 : ℚ) ^ (e + 1)) (hm : |q / (2 : ℚ) ^ (e - 52) - m| < 1 / 2)
    (hfin : (m : ℚ) * (2 : ℚ) ^ (e - 52) < (2 : ℚ) ^ (1024 : ℕ)) :
    round q = fin ((m : ℚ) * (2 : ℚ) ^ (e - 52)) := by
  have hq : 0 < q := lt_of_lt_of_le (by positivity) h1
  have hu := ulp_of_log q e he h1 h2
  have := round_close q hq m (by rw [hu]; exact hm) (by rw [hu]; exact hfin)
  rw [this, hu]

/-- Division by one returns a binary64 value unchanged. -/
theorem div_one_of_round (q r : ℚ) (h : round q = fin r) : div (fin r) (fin 1) = fin r := by
  simp only [div, one_ne_zero, if_false, div_one]
  exact round_round q r h

/-- The conversion of a 64-bit integer never overflows. -/
theorem ofInt_finite (n : ℤ) (h : |n| < 2 ^ 64) : ∃ r, ofInt n = fin r := by
  unfold ofInt
  by_cases h0 : n = 0
  · exact ⟨0, by rw [h0, Int.cast_zero, round_zero]⟩
  · have hq : (n : ℚ) ≠ 0 := by exact_mod_cast h0
    unfold round
    rw [if_neg hq]
    simp only
    have hgrid := roundHalfEven_div_ulp_abs (n : ℚ)
    have hupos := ulp_pos (n : ℚ)
    have habs : |(n : ℚ)| < (2 : ℚ) ^ (64 : ℤ) := by
      have : ((|n| : ℤ) : ℚ) < ((2 ^ 64 : ℤ) : ℚ) := by exact_mod_cast h
      have h64 : ((2 ^ 64 : ℤ) : ℚ) = (2 : ℚ) ^ (64 : ℤ) := by norm_num
      rw [h64] at this
      simpa using this
    have hapos : 0 < |(n : ℚ)| := abs_pos.mpr hq
    have hlog : Int.log 2 |(n : ℚ)| < 64 :=
      (Int.lt_zpow_iff_log_lt (by norm_num) hapos).mp (by exact_mod_cast habs)
    have hule : ulp (n : ℚ) ≤ (2 : ℚ) ^ (11 : ℤ) := by
      unfold ulp
      apply zpow_le_zpow_right₀ (by norm_num)
      have : max (Int.log 2 |(n : ℚ)|) (-1022) ≤ 63 := max_le (by omega) (by norm_num)
      omega
    have hm : |(roundHalfEven ((n : ℚ) / ulp (n : ℚ)) : ℚ)| ≤ (2 : ℚ) ^ (53 : ℤ) := by
      have : ((|roundHalfEven ((n : ℚ) / ulp (n : ℚ))| : ℤ) : ℚ) ≤ ((2 ^ 53 : ℤ) : ℚ) := by
        exact_mod_cast hgrid
      have h53 : ((2 ^ 53 : ℤ) : ℚ) = (2 : ℚ) ^ (53 : ℤ) := by norm_num
      rw [h53] at this
      simpa using this
    have hlt : |(roundHalfEven ((n : ℚ) / ulp (n : ℚ)) : ℚ) * ulp (n : ℚ)| <
        (2 : ℚ) ^ (1024 : ℕ) := by
      rw [abs_mul, abs_of_pos hupos]
      calc |(roundHalfEven ((n : ℚ) / ulp (n : ℚ)) : ℚ)| * ulp (n : ℚ)
          ≤ (2 : ℚ) ^ (53 : ℤ) * (2 : ℚ) ^ (11 : ℤ) :=
            mul_le_mul hm hule hupos.le (by positivity)
        _ < (2 : ℚ) ^ (1024 : ℕ) := by norm_num
    rw [if_neg (not_le.mpr hlt)]
    exact ⟨_, rfl⟩

end F64

/-! ## All the fields of the `Result` -/

/-- The `Result` computed from a sample of `N ≥ 1` entries, field by field,
with its constants evaluated. -/
theorem stats_full (name : String) (N : ℤ) (ts : List Duration) (mS mE : MemStats)
    (h1 : 1 ≤ N) (h2 : N ≤ maxLen) (hlen : ts.length = N.toNat) :
    ∃ t, (sortDurations ts)[(p95Index N).toNat]? = some t ∧
      stats name N ts mS mE = some
        { Operation := name
          AvgLatency :=
            F64.div (F64.div (F64.ofInt (totalTime ts)) (F64.fin N)) (F64.fin 1000000)
          P95Latency := F64.div (F64.ofInt t) (F64.fin 1000000)
          Throughput := F64.div (F64.fin N) (Duration.Seconds (totalTime ts))
          AvgRAM :=
            F64.div
              (F64.div (F64.ofInt (wrapU64 ((mE.TotalAlloc : ℤ) - mS.TotalAlloc))) (F64.fin N))
              (F64.fin 1048576)
          GCPause :=
            F64.div (F64.ofInt (wrapU64 ((mE.PauseTotalNs : ℤ) - mS.PauseTotalNs)))
              (F64.fin 1000000) } := by
  have hidx := p95Index_lt N h1 h2
  have hlt : (p95Index N).toNat < (sortDurations ts).length := by
    unfold sortDurations
    rw [List.length_insertionSort, hlen]
    omega
  have hN2 : N < 2 ^ 53 := by unfold maxLen at h2; omega
  refine ⟨(sortDurations ts)[(p95Index N).toNat], List.getElem?_eq_getElem hlt, ?_⟩
  unfold stats
  simp only [List.getElem?_eq_getElem hlt, F64.round_1e6, F64.round_mib,
    F64.ofInt_exact N (by omega) hN2]

/-- The `Result` that `Run` returns when the measurement completes. -/
theorem Run_full {σ : Type} (rt : Runtime σ) (op : Operation σ) (N : ℤ) (s : σ)
    (evs : List Event) (ts : List Duration) (mS mE : MemStats) (s1 : σ) (hN : 1 ≤ N)
    (h : measure rt op N s = (evs, .ok (ts, mS, mE) s1)) :
    ∃ t, (sortDurations ts)[(p95Index N).toNat]? = some t ∧
      Run rt op N s = (evs, .ok
        { Operation := op.Name
          AvgLatency :=
            F64.div (F64.div (F64.ofInt (totalTime ts)) (F64.fin N)) (F64.fin 1000000)
          P95Latency := F64.div (F64.ofInt t) (F64.fin 1000000)
          Throughput := F64.div (F64.fin N) (Duration.Seconds (totalTime ts))
          AvgRAM :=
            F64.div
              (F64.div (F64.ofInt (wrapU64 ((mE.TotalAlloc : ℤ) - mS.TotalAlloc))) (F64.fin N))
              (F64.fin 1048576)
          GCPause :=
            F64.div (F64.ofInt (wrapU64 ((mE.PauseTotalNs : ℤ) - mS.PauseTotalNs)))
              (F64.fin 1000000) } s1) := by
  obtain ⟨_, h2, h3, _⟩ := measure_ok rt op N s evs ts mS mE s1 h
  obtain ⟨t, ht, hst⟩ := stats_full op.Name N ts mS mE hN h2 h3
  refine ⟨t, ht, ?_⟩
  unfold Run
  simp only [h, hst]

/-! ## The percentile index -/

/-- C14: for every `N ≥ 1` for which `Run` reaches the computation (`make`
accepts at most `maxLen` entries), the index computed in `float64`,
`max(int(ceil(0.95 * float64(N))) - 1, 0)`, is the exact nearest-rank index
`⌈19 N / 20⌉ - 1`; for a multiple of 20 it is `19 N / 20 - 1`, and for
`N = 20` it is 18. -/
theorem p95Index_exact (N : ℤ) (h1 : 1 ≤ N) (h2 : N ≤ maxLen) :
    p95Index N = ⌈(19 / 20 : ℚ) * N⌉ - 1 ∧
      (∀ k : ℤ, N = 20 * k → p95Index N = 19 * k - 1) ∧ p95Index 20 = 18 := by
  have key : ∀ M : ℤ, 1 ≤ M → M ≤ maxLen → ∀ k : ℤ, M = 20 * k → p95Index M = 19 * k - 1 := by
    intro M hM1 hM2 k hk
    rw [p95Index_eq M hM1 (by unfold maxLen at hM2; exact hM2), hk]
    have : (19 / 20 : ℚ) * ((20 * k : ℤ) : ℚ) = ((19 * k : ℤ) : ℚ) := by
      push_cast; ring
    rw [this, Int.ceil_intCast]
  refine ⟨p95Index_eq N h1 (by unfold maxLen at h2; exact h2), key N h1 h2, ?_⟩
  have := key 20 (by norm_num) (by unfold maxLen; norm_num) 1 (by norm_num)
  simpa using this

theorem p95Index_exact_witness :
    p95Index 20 = ⌈(19 / 20 : ℚ) * (20 : ℤ)⌉ - 1 ∧
      (∀ k : ℤ, (20 : ℤ) = 20 * k → p95Index 20 = 19 * k - 1) ∧ p95Index 20 = 18 :=
  p95Index_exact 20 (by decide) (by decide)

/-! ## Constant samples -/

theorem p95Index_one : p95Index 1 = 0 := by
  rw [p95Index_eq 1 (by norm_num) (by norm_num)]
  have : ⌈(19 / 20 : ℚ) * ((1 : ℤ) : ℚ)⌉ = 1 := by
    rw [Int.ceil_eq_iff]; norm_num
  rw [this]; rfl

/-- C13: with one iteration `Run` returns `P95Latency` equal to `AvgLatency`:
the index is 0 and both fields are the single recorded duration, converted
to `float64` and divided by `10^6`. -/
theorem Run_single_sample {σ : Type} (rt : Runtime σ) (op : Operation σ) (s : σ)
    (evs : List Event) (ts : List Duration) (mS mE : MemStats) (s1 : σ)
    (hm : measure rt op 1 s = (evs, .ok (ts, mS, mE) s1))
    (hrange : ∀ t ∈ ts, -2 ^ 63 ≤ t ∧ t < 2 ^ 63) :
    ∃ t r, ts = [t] ∧ Run rt op 1 s = (evs, .ok r s1) ∧ p95Index 1 = 0 ∧
      r.P95Latency = r.AvgLatency ∧
      r.AvgLatency = F64.div (F64.ofInt t) (F64.fin 1000000) := by
  obtain ⟨_, _, h3, _⟩ := measure_ok rt op 1 s evs ts mS mE s1 hm
  obtain ⟨t', ht', hrun⟩ := Run_full rt op 1 s evs ts mS mE s1 le_rfl hm
  have hlen : ts.length = 1 := h3
  obtain ⟨t, rfl⟩ := List.length_eq_one.mp hlen
  have hr := hrange t (List.mem_singleton_self t)
  have htt : t' = t := by
    rw [p95Index_one] at ht'
    simpa [sortDurations] using ht'.symm
  subst htt
  have htot : totalTime [t'] = t' := by
    unfold totalTime
    simp only [List.foldl_cons, List.foldl_nil, zero_add]
    exact wrap64_of_range t' hr.1 hr.2
  obtain ⟨a, ha⟩ := F64.ofInt_finite t' (by
    rw [abs_lt]; constructor <;> [linarith [hr.1]; linarith [hr.2]])
  have hdiv : F64.div (F64.ofInt t') (F64.fin ((1 : ℤ) : ℚ)) = F64.ofInt t' := by
    rw [ha, Int.cast_one]
    exact F64.div_one_of_round _ _ ha
  refine ⟨t', _, rfl, hrun, p95Index_one, ?_, ?_⟩
  · simp only [htot, hdiv]
  · simp only [htot, hdiv]

theorem Run_single_sample_witness :
    ∃ t r, ([1000000] : List Duration) = [t] ∧
      Run clockRuntime rampOp 1 0 = (callEvents "ramp" 0 [1000000], .ok r 1000000) ∧
      p95Index 1 = 0 ∧ r.P95Latency = r.AvgLatency ∧
      r.AvgLatency = F64.div (F64.ofInt t) (F64.fin 1000000) :=
  Run_single_sample clockRuntime rampOp 0 (callEvents "ramp" 0 [1000000]) [1000000] ⟨0, 0⟩
    ⟨1000000, 0⟩ 1000000 (by decide) (by decide)

namespace F64

theorem div_fin (a b : ℚ) (hb : b ≠ 0) : div (fin a) (fin b) = round (a / b) := by
  simp only [div, hb, if_false]

theorem round_one : round 1 = fin 1 := by
  have := ofInt_exact 1 (by norm_num) (by norm_num)
  simpa [ofInt] using this

end F64

theorem fmt4_one : fmt4 (F64.fin 1) = "1.0000" := by
  have h : roundHalfEven (|(1 : ℚ)| * 10000) = 10000 := by
    have := roundHalfEven_intCast 10000
    simpa using this
  unfold fmt4
  simp only [h]
  decide

theorem formatRow_split (r : Result) :
    formatRow r =
      padRight 60 r.Operation ++ " " ++ padRight 20 (fmt4 r.AvgLatency) ++ " " ++
        padRight 20 (fmt4 r.P95Latency) ++ " " ++
        (padRight 20 (fmt4 r.Throughput) ++ " " ++ padRight 20 (fmt4 r.AvgRAM) ++ " " ++
          padRight 20 (fmt4 r.GCPause) ++ "\n") := by
  simp only [formatRow, String.append_assoc]

/-- A sample whose entries all equal `d` sums to `N · d`. -/
theorem sum_const (ts : List Duration) (d : ℤ) (hall : ∀ t ∈ ts, t = d) :
    ts.sum = (ts.length : ℤ) * d := by
  have : ts = List.replicate ts.length d := List.eq_replicate_of_mem hall
  rw [this, List.sum_replicate, List.length_replicate]
  simp

/-- C12, as amended: if all `N ≥ 1` recorded durations equal `d` and `N · d`
is below `2^53` in magnitude, `Run` returns `AvgLatency = P95Latency`, both
`d / 10^6` rounded to `float64`; for `d` one millisecond both are exactly 1
and both columns of the printed row read `1.0000`. -/
theorem Run_constant_sample {σ : Type} (rt : Runtime σ) (op : Operation σ) (N : ℤ) (s : σ)
    (evs : List Event) (ts : List Duration) (mS mE : MemStats) (s1 : σ) (d : ℤ) (hN : 1 ≤ N)
    (hm : measure rt op N s = (evs, .ok (ts, mS, mE) s1))
    (hall : ∀ t ∈ ts, t = d) (hbound : |N * d| < 2 ^ 53) :
    ∃ r, Run rt op N s = (evs, .ok r s1) ∧
      r.AvgLatency = F64.div (F64.fin d) (F64.fin 1000000) ∧
      r.P95Latency = F64.div (F64.fin d) (F64.fin 1000000) ∧
      (d = 1000000 → r.AvgLatency = F64.fin 1 ∧ r.P95Latency = F64.fin 1 ∧
        ∃ rest, formatRow r =
          padRight 60 op.Name ++ " " ++ padRight 20 "1.0000" ++ " " ++
            padRight 20 "1.0000" ++ " " ++ rest) := by
  obtain ⟨h0, h2, h3, _⟩ := measure_ok rt op N s evs ts mS mE s1 hm
  obtain ⟨t, ht, hrun⟩ := Run_full rt op N s evs ts mS mE s1 hN hm
  have hlenN : (ts.length : ℤ) = N := by rw [h3, Int.toNat_of_nonneg h0]
  have hsum : ts.sum = N * d := by rw [sum_const ts d hall, hlenN]
  have hb := abs_lt.mp hbound
  have htot : totalTime ts = N * d := by
    rw [totalTime_eq, hsum]
    exact wrap64_of_range _ (by linarith [hb.1]) (by linarith [hb.2])
  have htd : t = d := by
    have hmem : t ∈ sortDurations ts := List.getElem?_mem ht
    have hperm : (sortDurations ts).Perm ts := List.perm_insertionSort _ ts
    exact hall t (hperm.subset hmem)
  have hdabs : |d| < 2 ^ 53 := by
    have hNd : |N * d| = N * |d| := by rw [abs_mul, abs_of_pos (by omega : 0 < N)]
    have : |d| ≤ N * |d| := by nlinarith [abs_nonneg d]
    omega
  have hNq : (N : ℚ) ≠ 0 := by
    have : N ≠ 0 := by omega
    exact_mod_cast this
  have havg : F64.div (F64.ofInt (totalTime ts)) (F64.fin N) = F64.fin d := by
    rw [htot, F64.ofInt_exact_abs _ hbound, F64.div_fin _ _ hNq]
    have : ((N * d : ℤ) : ℚ) / (N : ℚ) = (d : ℚ) := by
      push_cast; field_simp
    rw [this]
    exact F64.ofInt_exact_abs d hdabs
  have hp : F64.ofInt t = F64.fin d := by rw [htd]; exact F64.ofInt_exact_abs d hdabs
  rw [havg, hp] at hrun
  refine ⟨_, hrun, rfl, rfl, ?_⟩
  intro hd
  have hone : F64.div (F64.fin (d : ℚ)) (F64.fin 1000000) = F64.fin 1 := by
    rw [hd, F64.div_fin _ _ (by norm_num)]
    have : ((1000000 : ℤ) : ℚ) / 1000000 = 1 := by norm_num
    rw [this, F64.round_one]
  refine ⟨hone, hone, ?_⟩
  rw [formatRow_split]
  simp only [hone, fmt4_one]
  exact ⟨_, rfl⟩

theorem Run_constant_sample_witness :
    ∃ r, Run clockRuntime steadyOp 5 0 =
        (callEvents "steady" 0 [1000000, 1000000, 1000000, 1000000, 1000000],
          .ok r 5000000) ∧
      r.AvgLatency = F64.div (F64.fin (1000000 : ℤ)) (F64.fin 1000000) ∧
      r.P95Latency = F64.div (F64.fin (1000000 : ℤ)) (F64.fin 1000000) ∧
      ((1000000 : ℤ) = 1000000 → r.AvgLatency = F64.fin 1 ∧ r.P95Latency = F64.fin 1 ∧
        ∃ rest, formatRow r =
          padRight 60 steadyOp.Name ++ " " ++ padRight 20 "1.0000" ++ " " ++
            padRight 20 "1.0000" ++ " " ++ rest) :=
  Run_constant_sample clockRuntime steadyOp 5 0 _
    [1000000, 1000000, 1000000, 1000000, 1000000] ⟨0, 0⟩ ⟨5000000, 0⟩ 5000000 1000000
    (by decide) (by decide) (by decide) (by decide)

theorem measure_long_calls :
    measure replayRuntime quietOp 5
        [7212774161856687, 7212774161856687, 7212774161856687, 7212774161856687,
          7212774161856687] =
      (callEvents "quiet" 0
          [7212774161856687, 7212774161856687, 7212774161856687, 7212774161856687,
            7212774161856687],
        .ok ([7212774161856687, 7212774161856687, 7212774161856687, 7212774161856687,
          7212774161856687], ⟨0, 0⟩, ⟨0, 0⟩) []) := by decide

/-- C12 fails as stated: five calls of 7212774161856687 ns each (their sum
needs more than 53 bits) give an `AvgLatency` one unit in the last place
below `P95Latency`. -/
theorem Run_constant_sample_rounding :
    ∃ r, Run replayRuntime quietOp 5
          [7212774161856687, 7212774161856687, 7212774161856687, 7212774161856687,
            7212774161856687] =
        (callEvents "quiet" 0
          [7212774161856687, 7212774161856687, 7212774161856687, 7212774161856687,
            7212774161856687], .ok r []) ∧
      r.AvgLatency = F64.fin (7563141879543036 / 1048576) ∧
      r.P95Latency = F64.fin (7563141879543037 / 1048576) ∧
      r.AvgLatency ≠ r.P95Latency := by
  obtain ⟨t, ht, hrun⟩ := Run_full _ _ _ _ _ _ _ _ _ (by decide) measure_long_calls
  have htot : totalTime
      [7212774161856687, 7212774161856687, 7212774161856687, 7212774161856687,
        7212774161856687] = 36063870809283435 := by
    rw [totalTime_of_range _ (by norm_num) (by norm_num)]
    norm_num
  have htd : t = 7212774161856687 := by
    have hmem := List.getElem?_mem ht
    have hperm : (sortDurations
      [7212774161856687, 7212774161856687, 7212774161856687, 7212774161856687,
        7212774161856687]).Perm _ := List.perm_insertionSort _ _
    have := hperm.subset hmem
    simpa using this
  -- the sum does not fit in 53 bits: it is rounded to a multiple of 8
  have h1 : F64.ofInt 36063870809283435 = F64.fin 36063870809283432 := by
    unfold F64.ofInt
    rw [F64.round_eval _ 55 4507983851160429 (by norm_num) (by norm_num) (by norm_num)
      (by norm_num [abs_lt]) (by norm_num)]
    norm_num
  have h2 : F64.div (F64.fin 36063870809283432) (F64.fin ((5 : ℤ) : ℚ)) =
      F64.fin 7212774161856686 := by
    rw [F64.div_fin _ _ (by norm_num),
      F64.round_eval _ 52 7212774161856686 (by norm_num) (by norm_num) (by norm_num)
        (by norm_num [abs_lt]) (by norm_num)]
    norm_num
  have h3 : F64.div (F64.fin 7212774161856686) (F64.fin 1000000) =
      F64.fin (7563141879543036 / 1048576) := by
    rw [F64.div_fin _ _ (by norm_num),
      F64.round_eval _ 32 7563141879543036 (by norm_num) (by norm_num) (by norm_num)
        (by norm_num [abs_lt]) (by norm_num)]
    norm_num
  have h4 : F64.ofInt 7212774161856687 = F64.fin 7212774161856687 := by
    have := F64.ofInt_exact 7212774161856687 (by norm_num) (by norm_num)
    simpa using this
  have h5 : F64.div (F64.fin 7212774161856687) (F64.fin 1000000) =
      F64.fin (7563141879543037 / 1048576) := by
    rw [F64.div_fin _ _ (by norm_num),
      F64.round_eval _ 32 7563141879543037 (by norm_num) (by norm_num) (by norm_num)
        (by norm_num [abs_lt]) (by norm_num)]
    norm_num
  rw [htot, h1, h2, h3, htd, h4, h5] at hrun
  refine ⟨_, hrun, rfl, rfl, ?_⟩
  simp only [ne_eq, F64.fin.injEq]
  norm_num

/-! ## Allocation and pause accounting -/

namespace F64

/-- Rounding keeps a value in `[0, 2^64]` there. -/
theorem round_nonneg (q : ℚ) (h0 : 0 ≤ q) (h1 : q ≤ (2 : ℚ) ^ (64 : ℤ)) :
    ∃ r, round q = fin r ∧ 0 ≤ r ∧ r ≤ (2 : ℚ) ^ (64 : ℤ) := by
  rcases eq_or_lt_of_le h0 with h | h
  · exact ⟨0, by rw [← h, round_zero], le_refl _, by positivity⟩
  · exact round_le_pow q h 64 h1 (by norm_num) (by norm_num)

/-- Rounding a negative value never gives a positive one. -/
theorem round_nonpos (q r : ℚ) (hq : q < 0) (h : round q = fin r) : r ≤ 0 := by
  unfold round at h
  rw [if_neg hq.ne] at h
  simp only at h
  split_ifs at h with h1
  · have hu := ulp_pos q
    have hx : q / ulp q ≤ ((0 : ℤ) : ℚ) := by
      rw [Int.cast_zero]; exact (div_neg_of_neg_of_pos hq hu).le
    have hm := roundHalfEven_le_of_le _ 0 hx
    cases h
    exact mul_nonpos_of_nonpos_of_nonneg (by exact_mod_cast hm) hu.le

/-- An integer below `2^53` scaled by a power of two is a binary64 value. -/
theorem round_div_mib (k : ℤ) (hk : |k| ≤ 2 ^ 53) :
    round ((k : ℚ) / 1048576) = fin ((k : ℚ) / 1048576) := by
  have h := round_grid_value 32 (by norm_num) k hk (by
    have : |(k : ℚ)| ≤ 2 ^ 53 := by exact_mod_cast hk
    rw [abs_mul, abs_of_pos (by positivity : (0 : ℚ) < (2 : ℚ) ^ ((32 : ℤ) - 52))]
    calc |(k : ℚ)| * (2 : ℚ) ^ ((32 : ℤ) - 52) ≤ 2 ^ 53 * (2 : ℚ) ^ ((32 : ℤ) - 52) :=
          mul_le_mul_of_nonneg_right this (by positivity)
      _ < (2 : ℚ) ^ (1024 : ℕ) := by norm_num)
  have e : (k : ℚ) * (2 : ℚ) ^ ((32 : ℤ) - 52) = (k : ℚ) / 1048576 := by
    norm_num [div_eq_mul_inv]
  rwa [e] at h

end F64

theorem wrapU64_of_range (x : ℤ) (h0 : 0 ≤ x) (h1 : x < 2 ^ 64) : wrapU64 x = x := by
  unfold wrapU64
  exact Int.emod_eq_of_lt h0 h1

theorem wrapU64_range (x : ℤ) : 0 ≤ wrapU64 x ∧ wrapU64 x < 2 ^ 64 := by
  unfold wrapU64
  exact ⟨Int.emod_nonneg _ (by norm_num), Int.emod_lt_of_pos _ (by norm_num)⟩

/-- C15, as amended: for `N ≥ 1` and snapshots whose `TotalAlloc` did not
decrease, `Run` returns `AvgRAM = float64(end - start) / N / (1024*1024)`, each
step in `float64`; when the delta is `k * N` bytes and below `2^53`, `AvgRAM`
is exactly `k / 1048576`. -/
theorem Run_avg_ram {σ : Type} (rt : Runtime σ) (op : Operation σ) (N : ℤ) (s : σ)
    (evs : List Event) (ts : List Duration) (mS mE : MemStats) (s1 : σ) (hN : 1 ≤ N)
    (hm : measure rt op N s = (evs, .ok (ts, mS, mE) s1))
    (hle : mS.TotalAlloc ≤ mE.TotalAlloc) (hlt : mE.TotalAlloc < 2 ^ 64) :
    ∃ r, Run rt op N s = (evs, .ok r s1) ∧
      r.AvgRAM =
        F64.div (F64.div (F64.ofInt ((mE.TotalAlloc : ℤ) - mS.TotalAlloc)) (F64.fin N))
          (F64.fin 1048576) ∧
      ∀ k : ℕ, (mE.TotalAlloc : ℤ) - mS.TotalAlloc = k * N → (k : ℤ) * N < 2 ^ 53 →
        r.AvgRAM = F64.fin ((k : ℚ) / 1048576) := by
  obtain ⟨t, _, hrun⟩ := Run_full rt op N s evs ts mS mE s1 hN hm
  have hd0 : (0 : ℤ) ≤ (mE.TotalAlloc : ℤ) - mS.TotalAlloc := by
    have : (mS.TotalAlloc : ℤ) ≤ mE.TotalAlloc := by exact_mod_cast hle
    linarith
  have hd1 : (mE.TotalAlloc : ℤ) - mS.TotalAlloc < 2 ^ 64 := by
    have h1 : (mE.TotalAlloc : ℤ) < 2 ^ 64 := by exact_mod_cast hlt
    have h2 : (0 : ℤ) ≤ mS.TotalAlloc := Int.natCast_nonneg _
    linarith
  rw [wrapU64_of_range _ hd0 hd1] at hrun
  refine ⟨_, hrun, rfl, ?_⟩
  intro k hk hb
  have hNq : (N : ℚ) ≠ 0 := by
    have : (0 : ℚ) < N := by exact_mod_cast (by linarith : (0 : ℤ) < N)
    exact this.ne'
  have hk0 : (0 : ℤ) ≤ k := Int.natCast_nonneg _
  have hkN : (k : ℤ) ≤ k * N := le_mul_of_one_le_right hk0 hN
  have h1 : F64.ofInt ((k : ℤ) * N) = F64.fin (((k : ℤ) * N : ℤ) : ℚ) :=
    F64.ofInt_exact _ (mul_nonneg hk0 (by linarith)) hb
  have h2 : F64.round (((k : ℤ) : ℚ)) = F64.fin ((k : ℤ) : ℚ) :=
    F64.ofInt_exact (k : ℤ) hk0 (lt_of_le_of_lt hkN hb)
  have h3 := F64.round_div_mib (k : ℤ)
    (by rw [abs_of_nonneg hk0]; exact (lt_of_le_of_lt hkN hb).le)
  have e1 : ((((k : ℤ) * N : ℤ) : ℚ)) / (N : ℚ) = ((k : ℤ) : ℚ) := by
    push_cast; field_simp
  show F64.div (F64.div (F64.ofInt ((mE.TotalAlloc : ℤ) - mS.TotalAlloc)) (F64.fin N))
      (F64.fin 1048576) = _
  rw [hk, h1, F64.div_fin _ _ hNq, e1, h2, F64.div_fin _ _ (by norm_num), h3]
  simp

theorem Run_avg_ram_witness :
    ∃ r, Run clockRuntime steadyOp 5 0 =
        (callEvents "steady" 0 [1000000, 1000000, 1000000, 1000000, 1000000],
          .ok r 5000000) ∧
      r.AvgRAM =
        F64.div (F64.div (F64.ofInt (((5000000 : ℕ) : ℤ) - (0 : ℕ))) (F64.fin (5 : ℤ)))
          (F64.fin 1048576) ∧
      ∀ k : ℕ, ((5000000 : ℕ) : ℤ) - (0 : ℕ) = k * 5 → (k : ℤ) * 5 < 2 ^ 53 →
        r.AvgRAM = F64.fin ((k : ℚ) / 1048576) :=
  Run_avg_ram clockRuntime steadyOp 5 0 _ [1000000, 1000000, 1000000, 1000000, 1000000]
    ⟨0, 0⟩ ⟨5000000, 0⟩ 5000000 (by decide) (by decide) (by decide) (by decide)

theorem measure_tape_alloc :
    measure tapeRuntime (idleOp "idle") 5
        ([⟨0, 0⟩, ⟨44715491558484995, 0⟩], [1000000, 1000000, 1000000, 1000000, 1000000]) =
      (callEvents "idle" 0 [1000000, 1000000, 1000000, 1000000, 1000000],
        .ok ([1000000, 1000000, 1000000, 1000000, 1000000], ⟨0, 0⟩,
          ⟨44715491558484995, 0⟩) ([], [])) := by decide

/-- C15 fails as stated: with five calls and an allocation delta of
`5 * 8943098311696999` bytes (above `2^53`), `AvgRAM` is
`8943098311696998 / 1048576`, not `k / 1048576` for `k = 8943098311696999`. -/
theorem Run_avg_ram_rounding :
    ∃ r, Run tapeRuntime (idleOp "idle") 5
          ([⟨0, 0⟩, ⟨44715491558484995, 0⟩],
            [1000000, 1000000, 1000000, 1000000, 1000000]) =
        (callEvents "idle" 0 [1000000, 1000000, 1000000, 1000000, 1000000],
          .ok r ([], [])) ∧
      (44715491558484995 : ℤ) - 0 = 8943098311696999 * 5 ∧
      r.AvgRAM = F64.fin (8943098311696998 / 1048576) ∧
      r.AvgRAM ≠ F64.fin (8943098311696999 / 1048576) := by
  obtain ⟨t, _, hrun⟩ := Run_full _ _ _ _ _ _ _ _ _ (by decide) measure_tape_alloc
  have h0 : wrapU64 (((44715491558484995 : ℕ) : ℤ) - ((0 : ℕ) : ℤ)) = 44715491558484995 := by
    rw [wrapU64_of_range _ (by norm_num) (by norm_num)]; norm_num
  have h1 : F64.ofInt 44715491558484995 = F64.fin 44715491558484992 := by
    unfold F64.ofInt
    rw [F64.round_eval _ 55 5589436444810624 (by norm_num) (by norm_num) (by norm_num)
      (by norm_num [abs_lt]) (by norm_num)]
    norm_num
  have h2 : F64.div (F64.fin 44715491558484992) (F64.fin ((5 : ℤ) : ℚ)) =
      F64.fin 8943098311696998 := by
    rw [F64.div_fin _ _ (by norm_num),
      F64.round_eval _ 52 8943098311696998 (by norm_num) (by norm_num) (by norm_num)
        (by norm_num [abs_lt]) (by norm_num)]
    norm_num
  have h3 : F64.div (F64.fin 8943098311696998) (F64.fin 1048576) =
      F64.fin (8943098311696998 / 1048576) := by
    rw [F64.div_fin _ _ (by norm_num)]
    exact F64.round_div_mib 8943098311696998 (by norm_num)
  simp only [h0] at hrun
  rw [h1, h2, h3] at hrun
  refine ⟨_, hrun, by norm_num, rfl, ?_⟩
  simp only [ne_eq, F64.fin.injEq]
  norm_num

/-- C16: for every pair of snapshots a run reads (`PauseTotalNs` is a
cumulative `uint64` counter: the second reading is not below the first), `Run`
returns `GCPause = float64(end - start) / 10^6`, which is not negative. The
two readings enter only through their difference: `GCPause` is 0 when the
counter did not move, and any run whose counter advanced by the same amount,
whatever pause had accumulated before its first snapshot, returns the same
`GCPause`. -/
theorem Run_gc_pause {σ : Type} (rt : Runtime σ) (op : Operation σ) (N : ℤ) (s : σ)
    (evs : List Event) (ts : List Duration) (mS mE : MemStats) (s1 : σ) (hN : 1 ≤ N)
    (hm : measure rt op N s = (evs, .ok (ts, mS, mE) s1))
    (hle : mS.PauseTotalNs ≤ mE.PauseTotalNs) (hlt : mE.PauseTotalNs < 2 ^ 64) :
    ∃ r x, Run rt op N s = (evs, .ok r s1) ∧
      r.GCPause =
        F64.div (F64.ofInt ((mE.PauseTotalNs : ℤ) - mS.PauseTotalNs)) (F64.fin 1000000) ∧
      r.GCPause = F64.fin x ∧ 0 ≤ x ∧
      (mS.PauseTotalNs = mE.PauseTotalNs → r.GCPause = F64.fin 0) ∧
      ∀ (τ : Type) (rt' : Runtime τ) (op' : Operation τ) (N' : ℤ) (s' : τ) (evs' : List Event)
        (ts' : List Duration) (mS' mE' : MemStats) (s1' : τ), 1 ≤ N' →
        measure rt' op' N' s' = (evs', .ok (ts', mS', mE') s1') →
        mS'.PauseTotalNs ≤ mE'.PauseTotalNs → mE'.PauseTotalNs < 2 ^ 64 →
        (mE'.PauseTotalNs : ℤ) - mS'.PauseTotalNs = (mE.PauseTotalNs : ℤ) - mS.PauseTotalNs →
        ∃ r', Run rt' op' N' s' = (evs', .ok r' s1') ∧ r'.GCPause = r.GCPause := by
  have key : ∀ (τ : Type) (rt' : Runtime τ) (op' : Operation τ) (N' : ℤ) (s' : τ)
      (evs' : List Event) (ts' : List Duration) (mS' mE' : MemStats) (s1' : τ), 1 ≤ N' →
      measure rt' op' N' s' = (evs', .ok (ts', mS', mE') s1') →
      mS'.PauseTotalNs ≤ mE'.PauseTotalNs → mE'.PauseTotalNs < 2 ^ 64 →
      ∃ r', Run rt' op' N' s' = (evs', .ok r' s1') ∧
        r'.GCPause =
          F64.div (F64.ofInt ((mE'.PauseTotalNs : ℤ) - mS'.PauseTotalNs))
            (F64.fin 1000000) := by
    intro τ rt' op' N' s' evs' ts' mS' mE' s1' hN' hm' hle' hlt'
    obtain ⟨t, _, hrun⟩ := Run_full rt' op' N' s' evs' ts' mS' mE' s1' hN' hm'
    have hd0 : (0 : ℤ) ≤ (mE'.PauseTotalNs : ℤ) - mS'.PauseTotalNs := by
      have : (mS'.PauseTotalNs : ℤ) ≤ mE'.PauseTotalNs := by exact_mod_cast hle'
      linarith
    have hd1 : (mE'.PauseTotalNs : ℤ) - mS'.PauseTotalNs < 2 ^ 64 := by
      have h1 : (mE'.PauseTotalNs : ℤ) < 2 ^ 64 := by exact_mod_cast hlt'
      have h2 : (0 : ℤ) ≤ mS'.PauseTotalNs := Int.natCast_nonneg _
      linarith
    rw [wrapU64_of_range _ hd0 hd1] at hrun
    exact ⟨_, hrun, rfl⟩
  obtain ⟨r, hrun, hg⟩ := key σ rt op N s evs ts mS mE s1 hN hm hle hlt
  have hd0 : (0 : ℤ) ≤ (mE.PauseTotalNs : ℤ) - mS.PauseTotalNs := by
    have : (mS.PauseTotalNs : ℤ) ≤ mE.PauseTotalNs := by exact_mod_cast hle
    linarith
  have hd1 : (mE.PauseTotalNs : ℤ) - mS.PauseTotalNs < 2 ^ 64 := by
    have h1 : (mE.PauseTotalNs : ℤ) < 2 ^ 64 := by exact_mod_cast hlt
    have h2 : (0 : ℤ) ≤ mS.PauseTotalNs := Int.natCast_nonneg _
    linarith
  obtain ⟨a, ha, ha0, ha1⟩ :=
    F64.round_nonneg ((((mE.PauseTotalNs : ℤ) - mS.PauseTotalNs : ℤ)) : ℚ)
      (by exact_mod_cast hd0) (by exact_mod_cast hd1.le)
  obtain ⟨x, hx, hx0, _⟩ := F64.round_nonneg (a / 1000000)
    (div_nonneg ha0 (by norm_num))
    (le_trans (div_le_self ha0 (by norm_num)) ha1)
  have hfin : r.GCPause = F64.fin x := by
    rw [hg]
    unfold F64.ofInt
    rw [ha, F64.div_fin _ _ (by norm_num), hx]
  refine ⟨r, x, hrun, hg, hfin, hx0, ?_, ?_⟩
  · intro heq
    rw [hg, heq, sub_self]
    unfold F64.ofInt
    rw [Int.cast_zero, F64.round_zero, F64.div_fin _ _ (by norm_num), zero_div, F64.round_zero]
  · intro τ rt' op' N' s' evs' ts' mS' mE' s1' hN' hm' hle' hlt' hsame
    obtain ⟨r', hrun', hg'⟩ := key τ rt' op' N' s' evs' ts' mS' mE' s1' hN' hm' hle' hlt'
    exact ⟨r', hrun', by rw [hg', hg, hsame]⟩

theorem measure_tape_pause :
    measure tapeRuntime (idleOp "idle") 2 ([⟨0, 7000000⟩, ⟨0, 9000000⟩], [1000000, 1000000]) =
      (callEvents "idle" 0 [1000000, 1000000],
        .ok ([1000000, 1000000], ⟨0, 7000000⟩, ⟨0, 9000000⟩) ([], [])) := by decide

theorem Run_gc_pause_witness :
    ∃ r x, Run tapeRuntime (idleOp "idle") 2
          ([⟨0, 7000000⟩, ⟨0, 9000000⟩], [1000000, 1000000]) =
        (callEvents "idle" 0 [1000000, 1000000], .ok r ([], [])) ∧
      r.GCPause =
        F64.div (F64.ofInt (((9000000 : ℕ) : ℤ) - (7000000 : ℕ))) (F64.fin 1000000) ∧
      r.GCPause = F64.fin x ∧ 0 ≤ x ∧
      ((7000000 : ℕ) = 9000000 → r.GCPause = F64.fin 0) ∧
      ∀ (τ : Type) (rt' : Runtime τ) (op' : Operation τ) (N' : ℤ) (s' : τ) (evs' : List Event)
        (ts' : List Duration) (mS' mE' : MemStats) (s1' : τ), 1 ≤ N' →
        measure rt' op' N' s' = (evs', .ok (ts', mS', mE') s1') →
        mS'.PauseTotalNs ≤ mE'.PauseTotalNs → mE'.PauseTotalNs < 2 ^ 64 →
        (mE'.PauseTotalNs : ℤ) - mS'.PauseTotalNs = ((9000000 : ℕ) : ℤ) - (7000000 : ℕ) →
        ∃ r', Run rt' op' N' s' = (evs', .ok r' s1') ∧ r'.GCPause = r.GCPause :=
  Run_gc_pause tapeRuntime (idleOp "idle") 2 _ _ _ ⟨0, 7000000⟩ ⟨0, 9000000⟩ _ (by decide)
    measure_tape_pause (by decide) (by decide)

/-! ## Scaling of the sample -/

theorem roundHalfEven_neg (x : ℚ) : roundHalfEven (-x) = -roundHalfEven x := by
  have h1 := Int.floor_le x
  have h2 := Int.lt_floor_add_one x
  by_cases hx : ((⌊x⌋ : ℤ) : ℚ) = x
  · have hn : -x = ((-⌊x⌋ : ℤ) : ℚ) := by push_cast; rw [hx]
    have e1 : roundHalfEven x = ⌊x⌋ := by
      conv_lhs => rw [← hx]
      exact roundHalfEven_intCast _
    rw [hn, roundHalfEven_intCast, e1]
  · have hlt : ((⌊x⌋ : ℤ) : ℚ) < x := lt_of_le_of_ne h1 hx
    have hf : ⌊-x⌋ = -⌊x⌋ - 1 := by
      rw [Int.floor_eq_iff]
      push_cast
      constructor <;> linarith
    unfold roundHalfEven
    rw [hf]
    push_cast
    split_ifs <;> first | omega | (exfalso; linarith)

theorem roundHalfEven_half (m : ℤ) :
    roundHalfEven ((m : ℚ) + 1 / 2) = if m % 2 = 0 then m else m + 1 := by
  have hf : ⌊(m : ℚ) + 1 / 2⌋ = m := by
    rw [Int.floor_eq_iff]
    constructor <;> linarith
  unfold roundHalfEven
  rw [hf]
  have e : (m : ℚ) + 1 / 2 - (m : ℚ) = 1 / 2 := by ring
  rw [e]
  simp

namespace F64

/-- Rounding is symmetric about zero. -/
theorem round_neg_fin (q r : ℚ) (h : round q = fin r) : round (-q) = fin (-r) := by
  by_cases h0 : q = 0
  · subst h0
    rw [round_zero] at h
    cases h
    simp [round_zero]
  · unfold round at h ⊢
    rw [if_neg h0] at h
    rw [if_neg (neg_ne_zero.mpr h0)]
    simp only at h ⊢
    rw [ulp_neg, neg_div, roundHalfEven_neg]
    push_cast
    rw [neg_mul, abs_neg]
    split_ifs at h ⊢ with hov
    cases h
    rfl

/-- Relative accuracy of a rounding in the normal range. -/
theorem round_rel (q : ℚ) (hlo : (2 : ℚ) ^ (-1022 : ℤ) ≤ q) (hhi : q ≤ (2 : ℚ) ^ (1023 : ℤ)) :
    ∃ r, round q = fin r ∧ |r - q| ≤ q * (2 : ℚ) ^ (-53 : ℤ) := by
  have hq : 0 < q := lt_of_lt_of_le (by positivity) hlo
  obtain ⟨r, hr, _, _⟩ := round_le_pow q hq 1023 hhi (by norm_num) (by norm_num)
  have hu := ulp_pos q
  have hul := ulp_le q hlo
  have h1 := roundHalfEven_sub_le (q / ulp q)
  have h2 := roundHalfEven_le_add (q / ulp q)
  rw [round_of_pos q hq] at hr
  split_ifs at hr with hov
  refine ⟨_, by rw [round_of_pos q hq, if_neg hov], ?_⟩
  have hd : (roundHalfEven (q / ulp q) : ℚ) * ulp q - q =
      ((roundHalfEven (q / ulp q) : ℚ) - q / ulp q) * ulp q := by
    field_simp
  have hb : ulp q / 2 ≤ q * (2 : ℚ) ^ (-53 : ℤ) := by
    have : (2 : ℚ) ^ (-53 : ℤ) = (2 : ℚ) ^ (-52 : ℤ) / 2 := by norm_num
    rw [this, mul_div_assoc']
    exact div_le_div_of_nonneg_right hul (by norm_num)
  rw [hd]
  generalize q * (2 : ℚ) ^ (-53 : ℤ) = Q at hb ⊢
  have hδ1 : -(1 / 2) ≤ (roundHalfEven (q / ulp q) : ℚ) - q / ulp q := by linarith
  have hδ2 : (roundHalfEven (q / ulp q) : ℚ) - q / ulp q ≤ 1 / 2 := by linarith
  generalize (roundHalfEven (q / ulp q) : ℚ) - q / ulp q = δ at hδ1 hδ2 ⊢
  rw [abs_le]
  constructor
  · have := mul_le_mul_of_nonneg_right hδ1 hu.le
    linarith
  · have := mul_le_mul_of_nonneg_right hδ2 hu.le
    linarith

/-- Rounding keeps the magnitude between two powers of two. -/
theorem round_abs_bounds (q : ℚ) (k1 k2 : ℤ) (h1 : (2 : ℚ) ^ k1 ≤ |q|) (h2 : |q| ≤ (2 : ℚ) ^ k2)
    (hk1 : -1022 ≤ k1) (hk2 : -1022 ≤ k2) (hk3 : k2 ≤ 1023) :
    ∃ r, round q = fin r ∧ (2 : ℚ) ^ k1 ≤ |r| ∧ |r| ≤ (2 : ℚ) ^ k2 := by
  have key : ∀ p : ℚ, 0 < p → (2 : ℚ) ^ k1 ≤ p → p ≤ (2 : ℚ) ^ k2 →
      ∃ r, round p = fin r ∧ (2 : ℚ) ^ k1 ≤ r ∧ r ≤ (2 : ℚ) ^ k2 := by
    intro p hp hp1 hp2
    obtain ⟨r, hr, _, hr2⟩ := round_le_pow p hp k2 hp2 hk2 hk3
    rcases round_ge_pow p k1 hp1 hk1 with hinf | ⟨r', hr', hr1⟩
    · rw [hinf] at hr; cases hr
    · rw [hr] at hr'; cases hr'
      exact ⟨r, hr, hr1, hr2⟩
  have hpos : (0 : ℚ) < |q| := lt_of_lt_of_le (by positivity) h1
  rcases le_total 0 q with hq | hq
  · rw [abs_of_nonneg hq] at h1 h2 hpos
    obtain ⟨r, hr, hr1, hr2⟩ := key q hpos h1 h2
    have hr0 : 0 ≤ r := le_trans (by positivity) hr1
    exact ⟨r, hr, by rwa [abs_of_nonneg hr0], by rwa [abs_of_nonneg hr0]⟩
  · rw [abs_of_nonpos hq] at h1 h2 hpos
    obtain ⟨r, hr, hr1, hr2⟩ := key (-q) hpos h1 h2
    have hr0 : 0 ≤ r := le_trans (by positivity) hr1
    have := round_neg_fin (-q) r hr
    rw [neg_neg] at this
    exact ⟨-r, this, by rwa [abs_neg, abs_of_nonneg hr0], by rwa [abs_neg, abs_of_nonneg hr0]⟩

end F64

namespace F64

/-- Doubling an integer doubles its `float64` conversion. -/
theorem ofInt_dbl (n : ℤ) (hn : |n| ≤ 2 ^ 62) :
    ∃ a, ofInt n = fin a ∧ ofInt (2 * n) = fin (2 * a) ∧
      (a = 0 ∨ ((2 : ℚ) ^ (0 : ℤ) ≤ |a| ∧ |a| ≤ (2 : ℚ) ^ (62 : ℤ))) := by
  unfold ofInt
  by_cases h0 : n = 0
  · refine ⟨0, ?_, ?_, Or.inl rfl⟩
    · rw [h0, Int.cast_zero, round_zero]
    · rw [h0]; simp [round_zero]
  · have h1 : (2 : ℚ) ^ (0 : ℤ) ≤ |(n : ℚ)| := by
      have : (1 : ℤ) ≤ |n| := Int.one_le_abs h0
      rw [zpow_zero]
      exact_mod_cast this
    have h2 : |(n : ℚ)| ≤ (2 : ℚ) ^ (62 : ℤ) := by
      have : ((2 : ℚ) ^ (62 : ℤ)) = ((2 ^ 62 : ℤ) : ℚ) := by norm_num
      rw [this]
      exact_mod_cast hn
    obtain ⟨a, ha, ha1, ha2⟩ := round_abs_bounds _ 0 62 h1 h2 (by norm_num) (by norm_num)
      (by norm_num)
    refine ⟨a, ha, ?_, Or.inr ⟨ha1, ha2⟩⟩
    have := round_two_mul _ a ha (le_trans (by norm_num) h1)
      (lt_of_le_of_lt ha2 (by norm_num))
    rw [← this]
    push_cast
    rfl

/-- Doubling the numerator doubles a quotient, away from underflow and overflow. -/
theorem div_dbl (a b : ℚ) (k1 k2 m : ℤ) (hb1 : 1 ≤ b) (hb2 : b ≤ (2 : ℚ) ^ m)
    (ha : a = 0 ∨ ((2 : ℚ) ^ k1 ≤ |a| ∧ |a| ≤ (2 : ℚ) ^ k2))
    (hk1 : -1022 ≤ k1 - m) (hk2 : -1022 ≤ k2) (hk3 : k2 ≤ 1022) :
    ∃ c, div (fin a) (fin b) = fin c ∧ div (fin (2 * a)) (fin b) = fin (2 * c) ∧
      (c = 0 ∨ ((2 : ℚ) ^ (k1 - m) ≤ |c| ∧ |c| ≤ (2 : ℚ) ^ k2)) := by
  have hb0 : (0 : ℚ) < b := by linarith
  rw [div_fin _ _ hb0.ne', div_fin _ _ hb0.ne']
  rcases ha with ha | ⟨ha1, ha2⟩
  · refine ⟨0, ?_, ?_, Or.inl rfl⟩
    · rw [ha, zero_div, round_zero]
    · rw [ha]; simp [round_zero]
  · have habs : |a / b| = |a| / b := by rw [abs_div, abs_of_pos hb0]
    have h1 : (2 : ℚ) ^ (k1 - m) ≤ |a / b| := by
      rw [habs, zpow_sub₀ (by norm_num : (2 : ℚ) ≠ 0)]
      exact div_le_div₀ (le_trans (by positivity) ha1) ha1 hb0 hb2
    have h2 : |a / b| ≤ (2 : ℚ) ^ k2 := by
      rw [habs]
      exact le_trans (div_le_self (abs_nonneg a) hb1) ha2
    obtain ⟨c, hc, hc1, hc2⟩ := round_abs_bounds _ (k1 - m) k2 h1 h2 hk1 hk2 (by omega)
    refine ⟨c, hc, ?_, Or.inr ⟨hc1, hc2⟩⟩
    have h3 : (2 : ℚ) ^ (-1022 : ℤ) ≤ (2 : ℚ) ^ (k1 - m) :=
      zpow_le_zpow_right₀ (by norm_num) hk1
    have h4 : (2 : ℚ) ^ k2 < (2 : ℚ) ^ (1023 : ℕ) := by
      have : (2 : ℚ) ^ (1023 : ℕ) = (2 : ℚ) ^ (1023 : ℤ) := by norm_num
      rw [this]
      exact zpow_lt_zpow_right₀ (by norm_num) (by omega)
    have := round_two_mul _ c hc (le_trans h3 h1) (lt_of_le_of_lt hc2 h4)
    rw [← this, mul_div_assoc]

end F64

/-- Doubling every duration doubles the sorted sample entry by entry. -/
theorem sortDurations_dbl (ts : List Duration) :
    sortDurations (ts.map (fun t => 2 * t)) = (sortDurations ts).map (fun t => 2 * t) := by
  apply sortDurations_unique
  · have hs : (sortDurations ts).Sorted (fun a b => a ≤ b) := List.sorted_insertionSort _ ts
    unfold List.Sorted at hs ⊢
    rw [List.pairwise_map]
    exact hs.imp (fun h => by linarith)
  · exact (List.perm_insertionSort _ ts).map _

theorem sum_dbl (ts : List Duration) : (ts.map (fun t => 2 * t)).sum = 2 * ts.sum := by
  induction ts with
  | nil => simp
  | cons a l ih => simp only [List.map_cons, List.sum_cons, ih]; ring

/-- The conversion `Duration.Seconds` is accurate to three units in `2^53`. -/
theorem Seconds_close (d : ℤ) (h0 : 0 < d) (h1 : d < 2 ^ 63) :
    ∃ x, Duration.Seconds d = F64.fin x ∧
      |x - (d : ℚ) / 1000000000| ≤ (d : ℚ) / 1000000000 * (3 / 9007199254740992) := by
  have hε : (2 : ℚ) ^ (-53 : ℤ) = 1 / 9007199254740992 := by norm_num
  unfold Duration.Seconds
  have hd : Int.tdiv d 1000000000 = d / 1000000000 := Int.tdiv_eq_ediv (by omega) (by norm_num)
  have hmd : Int.tmod d 1000000000 = d % 1000000000 := Int.tmod_eq_emod (by omega) (by norm_num)
  rw [hd, hmd, F64.round_1e9]
  have hs0 : 0 ≤ d / 1000000000 := by omega
  have hs1 : d / 1000000000 < 2 ^ 51 := by omega
  have hn0 : 0 ≤ d % 1000000000 := by omega
  have hn1 : d % 1000000000 < 1000000000 := by omega
  rw [F64.ofInt_exact _ hs0 (by omega), F64.ofInt_exact _ hn0 (by omega)]
  have hsplit : (d : ℚ) / 1000000000 =
      ((d / 1000000000 : ℤ) : ℚ) + ((d % 1000000000 : ℤ) : ℚ) / 1000000000 := by
    have h := Int.ediv_add_emod d 1000000000
    have hq : (d : ℚ) = 1000000000 * ((d / 1000000000 : ℤ) : ℚ) + ((d % 1000000000 : ℤ) : ℚ) := by
      exact_mod_cast h.symm
    rw [hq]; ring
  rw [hsplit]
  have hsq0 : (0 : ℚ) ≤ ((d / 1000000000 : ℤ) : ℚ) := by exact_mod_cast hs0
  have hsq1 : ((d / 1000000000 : ℤ) : ℚ) ≤ 2 ^ 51 - 1 := by
    have : d / 1000000000 ≤ 2 ^ 51 - 1 := by omega
    exact_mod_cast this
  rw [F64.div_fin _ _ (by norm_num)]
  rcases eq_or_lt_of_le hn0 with hz | hp
  · have hs : 1 ≤ d / 1000000000 := by omega
    rw [← hz, Int.cast_zero, zero_div, F64.round_zero]
    show ∃ x, F64.round (((d / 1000000000 : ℤ) : ℚ) + 0) = F64.fin x ∧ _
    rw [add_zero]
    have hx := F64.ofInt_exact (d / 1000000000) hs0 (by omega)
    unfold F64.ofInt at hx
    rw [hx]
    refine ⟨_, rfl, ?_⟩
    rw [sub_self, abs_zero]
    positivity
  · have hnq0 : (1 : ℚ) ≤ ((d % 1000000000 : ℤ) : ℚ) := by
      have : 1 ≤ d % 1000000000 := by omega
      exact_mod_cast this
    have hnq1 : ((d % 1000000000 : ℤ) : ℚ) ≤ 1000000000 := by exact_mod_cast hn1.le
    have hq1 : (2 : ℚ) ^ (-30 : ℤ) ≤ ((d % 1000000000 : ℤ) : ℚ) / 1000000000 := by
      rw [le_div_iff₀ (by norm_num)]
      have : (2 : ℚ) ^ (-30 : ℤ) * 1000000000 ≤ 1 := by norm_num
      linarith
    have hq2 : ((d % 1000000000 : ℤ) : ℚ) / 1000000000 ≤ 1 := by
      rw [div_le_iff₀ (by norm_num)]; linarith
    generalize ((d % 1000000000 : ℤ) : ℚ) / 1000000000 = n at hq1 hq2 ⊢
    generalize ((d / 1000000000 : ℤ) : ℚ) = sec at hsq0 hsq1 ⊢
    have h30 : (2 : ℚ) ^ (-30 : ℤ) = 1 / 1073741824 := by norm_num
    rw [h30] at hq1
    obtain ⟨f, hf, hfc⟩ := F64.round_rel n
      (le_trans (by norm_num) hq1) (le_trans hq2 (by norm_num))
    rw [hε, abs_le] at hfc
    obtain ⟨hfc1, hfc2⟩ := hfc
    rw [hf]
    show ∃ x, F64.round (sec + f) = F64.fin x ∧ _
    have hy1 : (2 : ℚ) ^ (-1022 : ℤ) ≤ sec + f := by
      have h31 : (1 : ℚ) / 2147483648 ≤ sec + f := by linarith
      exact le_trans (by norm_num) h31
    have hy2 : sec + f ≤ (2 : ℚ) ^ (1023 : ℤ) := by
      have h52 : sec + f ≤ (2 : ℚ) ^ (51 : ℕ) + 2 := by linarith
      exact le_trans h52 (by norm_num)
    obtain ⟨x, hx, hxc⟩ := F64.round_rel (sec + f) hy1 hy2
    rw [hε, abs_le] at hxc
    obtain ⟨hxc1, hxc2⟩ := hxc
    refine ⟨x, hx, ?_⟩
    rw [abs_le]
    constructor <;> linarith

/-- The throughput quotient `float64(N) / d.Seconds()` is within a few units
in `2^53` of the exact `N / (d / 10^9)`. -/
theorem throughput_close (N d : ℤ) (hN1 : 1 ≤ N) (hN2 : N ≤ 2 ^ 45) (hd0 : 0 < d)
    (hd1 : d < 2 ^ 63) :
    ∃ T, F64.div (F64.fin N) (Duration.Seconds d) = F64.fin T ∧
      (N : ℚ) / ((d : ℚ) / 1000000000) * (9007199254740991 / 9007199254740995) ≤ T ∧
      T ≤ (N : ℚ) / ((d : ℚ) / 1000000000) * (9007199254740993 / 9007199254740989) := by
  have hε : (2 : ℚ) ^ (-53 : ℤ) = 1 / 9007199254740992 := by norm_num
  obtain ⟨s, hs, hsc⟩ := Seconds_close d hd0 hd1
  obtain ⟨s', hs', hlo, hhi⟩ := Seconds_pos d hd0 (lt_trans hd1 (by norm_num))
  rw [hs] at hs'
  cases hs'
  rw [abs_le] at hsc
  obtain ⟨hsc1, hsc2⟩ := hsc
  have hspos : 0 < s := lt_of_lt_of_le (by positivity) hlo
  have hNq1 : (1 : ℚ) ≤ N := by exact_mod_cast hN1
  have hNq2 : (N : ℚ) ≤ 2 ^ 45 := by exact_mod_cast hN2
  have hNpos : (0 : ℚ) < N := by linarith
  have hx : (0 : ℚ) < (d : ℚ) / 1000000000 := by
    have : (0 : ℚ) < d := by exact_mod_cast hd0
    positivity
  generalize (d : ℚ) / 1000000000 = x at hsc1 hsc2 hx ⊢
  rw [hs, F64.div_fin _ _ hspos.ne']
  have hq1 : (2 : ℚ) ^ (-1022 : ℤ) ≤ (N : ℚ) / s := by
    have h51 : (2 : ℚ) ^ (51 : ℤ) = 2 ^ 51 := by norm_num
    rw [h51] at hhi
    have : (1 : ℚ) / 2 ^ 51 ≤ (N : ℚ) / s := div_le_div₀ hNpos.le hNq1 hspos hhi
    exact le_trans (by norm_num) this
  have hq2 : (N : ℚ) / s ≤ (2 : ℚ) ^ (1023 : ℤ) := by
    have h30 : (2 : ℚ) ^ (-30 : ℤ) = 1 / 2 ^ 30 := by norm_num
    rw [h30] at hlo
    have : (N : ℚ) / s ≤ 2 ^ 45 / (1 / 2 ^ 30) :=
      div_le_div₀ (by positivity) hNq2 (by positivity) hlo
    exact le_trans this (by norm_num)
  obtain ⟨T, hT, hTc⟩ := F64.round_rel _ hq1 hq2
  rw [hε, abs_le] at hTc
  obtain ⟨hTc1, hTc2⟩ := hTc
  refine ⟨T, hT, ?_, ?_⟩
  · have h1 : 0 < x * (9007199254740995 / 9007199254740992) := by positivity
    have h2 : (N : ℚ) / (x * (9007199254740995 / 9007199254740992)) ≤ (N : ℚ) / s :=
      div_le_div_of_nonneg_left hNpos.le hspos (by linarith)
    rw [← div_div] at h2
    generalize (N : ℚ) / x = B at h2 ⊢
    generalize (N : ℚ) / s = Q at h2 hTc1
    rw [div_le_iff₀ (by norm_num)] at h2
    linarith
  · have h1 : 0 < x * (9007199254740989 / 9007199254740992) := by positivity
    have h2 : (N : ℚ) / s ≤ (N : ℚ) / (x * (9007199254740989 / 9007199254740992)) :=
      div_le_div_of_nonneg_left hNpos.le h1 (by linarith)
    rw [← div_div] at h2
    generalize (N : ℚ) / x = B at h2 ⊢
    generalize (N : ℚ) / s = Q at h2 hTc2
    rw [le_div_iff₀ (by norm_num)] at h2
    linarith

/-- Doubling the total time halves the throughput up to rounding. -/
theorem throughput_halves (N d : ℤ) (hN1 : 1 ≤ N) (hN2 : N ≤ 2 ^ 45) (hd0 : 0 < d)
    (hd1 : d < 2 ^ 62) :
    ∃ T T', F64.div (F64.fin N) (Duration.Seconds d) = F64.fin T ∧
      F64.div (F64.fin N) (Duration.Seconds (2 * d)) = F64.fin T' ∧
      0 < T ∧ |2 * T' - T| ≤ T / 2 ^ 49 := by
  obtain ⟨T, hT, h1, h2⟩ := throughput_close N d hN1 hN2 hd0 (by omega)
  obtain ⟨T', hT', h3, h4⟩ := throughput_close N (2 * d) hN1 hN2 (by omega) (by omega)
  have hB : (0 : ℚ) < (N : ℚ) / ((d : ℚ) / 1000000000) := by
    have : (0 : ℚ) < d := by exact_mod_cast hd0
    have : (0 : ℚ) < N := by exact_mod_cast (by omega : (0 : ℤ) < N)
    positivity
  have e : (N : ℚ) / (((2 * d : ℤ) : ℚ) / 1000000000) =
      (N : ℚ) / ((d : ℚ) / 1000000000) / 2 := by
    push_cast
    have : (d : ℚ) ≠ 0 := by exact_mod_cast hd0.ne'
    field_simp
    ring
  rw [e] at h3 h4
  generalize (N : ℚ) / ((d : ℚ) / 1000000000) = B at hB h1 h2 h3 h4
  refine ⟨T, T', hT, hT', by linarith, ?_⟩
  rw [abs_le]
  constructor <;> linarith

/-- C17, as amended: for `N ≥ 1`, a timing sample with positive sum and the
sample with every duration doubled (same snapshots, same `N`; durations below
`2^62` in magnitude and the sum below `2^62`, so that nothing overflows),
`AvgLatency` and `P95Latency` double exactly, `AvgRAM` and `GCPause` are
unchanged, and `Throughput` halves up to rounding: twice the new value differs
from the old one by at most the old one over `2^49`. -/
theorem Run_scaling {σ τ : Type} (rt : Runtime σ) (op : Operation σ) (rt' : Runtime τ)
    (op' : Operation τ) (N : ℤ) (s : σ) (s' : τ) (evs evs' : List Event) (ts : List Duration)
    (mS mE : MemStats) (s1 : σ) (s1' : τ) (hN : 1 ≤ N)
    (hm : measure rt op N s = (evs, .ok (ts, mS, mE) s1))
    (hm' : measure rt' op' N s' = (evs', .ok (ts.map (fun t => 2 * t), mS, mE) s1'))
    (hrange : ∀ t ∈ ts, -2 ^ 62 ≤ t ∧ t < 2 ^ 62) (hsum0 : 0 < ts.sum)
    (hsum1 : ts.sum < 2 ^ 62) :
    ∃ r r' a p T T', Run rt op N s = (evs, .ok r s1) ∧ Run rt' op' N s' = (evs', .ok r' s1') ∧
      r.AvgLatency = F64.fin a ∧ r'.AvgLatency = F64.fin (2 * a) ∧
      r.P95Latency = F64.fin p ∧ r'.P95Latency = F64.fin (2 * p) ∧
      r.Throughput = F64.fin T ∧ r'.Throughput = F64.fin T' ∧
      0 < T ∧ |2 * T' - T| ≤ T / 2 ^ 49 ∧
      r'.AvgRAM = r.AvgRAM ∧ r'.GCPause = r.GCPause := by
  obtain ⟨_, hN2, _, _⟩ := measure_ok rt op N s evs ts mS mE s1 hm
  obtain ⟨t, ht, hrun⟩ := Run_full rt op N s evs ts mS mE s1 hN hm
  obtain ⟨t', ht', hrun'⟩ := Run_full rt' op' N s' evs' _ mS mE s1' hN hm'
  have hN2' : N ≤ 2 ^ 45 := by unfold maxLen at hN2; exact hN2
  -- the selected entry of the doubled sample is the double of the selected entry
  rw [sortDurations_dbl, List.getElem?_map, ht] at ht'
  simp only [Option.map_some', Option.some.injEq] at ht'
  subst ht'
  have htmem : t ∈ ts :=
    (List.perm_insertionSort _ ts).subset (List.getElem?_mem ht)
  have htabs : |t| ≤ 2 ^ 62 := by
    obtain ⟨h1, h2⟩ := hrange t htmem
    rw [abs_le]; constructor <;> linarith
  -- the totals
  have htot : totalTime ts = ts.sum := totalTime_of_range ts (by linarith) (by linarith)
  have htot' : totalTime (ts.map (fun t => 2 * t)) = 2 * ts.sum := by
    rw [totalTime_of_range _ (by rw [sum_dbl]; linarith) (by rw [sum_dbl]; linarith), sum_dbl]
  rw [htot] at hrun
  rw [htot'] at hrun'
  have hNq1 : (1 : ℚ) ≤ (N : ℚ) := by exact_mod_cast hN
  have hNq2 : (N : ℚ) ≤ (2 : ℚ) ^ (45 : ℤ) := by
    have : ((2 : ℚ) ^ (45 : ℤ)) = ((2 ^ 45 : ℤ) : ℚ) := by norm_num
    rw [this]; exact_mod_cast hN2'
  have hsabs : |ts.sum| ≤ 2 ^ 62 := by
    rw [abs_le]; constructor <;> linarith
  obtain ⟨a0, ha0, ha0', hb0⟩ := F64.ofInt_dbl ts.sum hsabs
  obtain ⟨a1, ha1, ha1', hb1⟩ := F64.div_dbl a0 N 0 62 45 hNq1 hNq2 hb0 (by norm_num)
    (by norm_num) (by norm_num)
  obtain ⟨a, ha, ha', _⟩ := F64.div_dbl a1 1000000 (0 - 45) 62 20 (by norm_num) (by norm_num)
    hb1 (by norm_num) (by norm_num) (by norm_num)
  obtain ⟨p0, hp0, hp0', hc0⟩ := F64.ofInt_dbl t htabs
  obtain ⟨p, hp, hp', _⟩ := F64.div_dbl p0 1000000 0 62 20 (by norm_num) (by norm_num)
    hc0 (by norm_num) (by norm_num) (by norm_num)
  obtain ⟨T, T', hT, hT', hTpos, hTc⟩ := throughput_halves N ts.sum hN hN2' hsum0 hsum1
  refine ⟨_, _, a, p, T, T', hrun, hrun', ?_, ?_, ?_, ?_, hT, hT', hTpos, hTc, rfl, rfl⟩
  · show F64.div (F64.div (F64.ofInt ts.sum) (F64.fin N)) (F64.fin 1000000) = _
    rw [ha0, ha1, ha]
  · show F64.div (F64.div (F64.ofInt (2 * ts.sum)) (F64.fin N)) (F64.fin 1000000) = _
    rw [ha0', ha1', ha']
  · show F64.div (F64.ofInt t) (F64.fin 1000000) = _
    rw [hp0, hp]
  · show F64.div (F64.ofInt (2 * t)) (F64.fin 1000000) = _
    rw [hp0', hp']

theorem Run_scaling_witness :
    ∃ r r' a p T T',
      Run tapeRuntime (idleOp "idle") 2 ([⟨0, 0⟩, ⟨0, 0⟩], [1000000, 3000000]) =
        (callEvents "idle" 0 [1000000, 3000000], .ok r ([], [])) ∧
      Run tapeRuntime (idleOp "idle") 2 ([⟨0, 0⟩, ⟨0, 0⟩], [2000000, 6000000]) =
        (callEvents "idle" 0 [2000000, 6000000], .ok r' ([], [])) ∧
      r.AvgLatency = F64.fin a ∧ r'.AvgLatency = F64.fin (2 * a) ∧
      r.P95Latency = F64.fin p ∧ r'.P95Latency = F64.fin (2 * p) ∧
      r.Throughput = F64.fin T ∧ r'.Throughput = F64.fin T' ∧
      0 < T ∧ |2 * T' - T| ≤ T / 2 ^ 49 ∧
      r'.AvgRAM = r.AvgRAM ∧ r'.GCPause = r.GCPause :=
  Run_scaling tapeRuntime (idleOp "idle") tapeRuntime (idleOp "idle") 2
    ([⟨0, 0⟩, ⟨0, 0⟩], [1000000, 3000000]) ([⟨0, 0⟩, ⟨0, 0⟩], [2000000, 6000000])
    (callEvents "idle" 0 [1000000, 3000000]) (callEvents "idle" 0 [2000000, 6000000])
    [1000000, 3000000] ⟨0, 0⟩ ⟨0, 0⟩ ([], []) ([], []) (by decide) (by decide) (by decide)
    (by decide) (by decide) (by decide)

namespace F64

/-- Evaluation of a rounding at a tie: the even neighbour is taken. -/
theorem round_tie (q : ℚ) (e m m' : ℤ) (he : -1022 ≤ e) (h1 : (2 : ℚ) ^ e ≤ q)
    (h2 : q < (2 : ℚ) ^ (e + 1)) (hm : q / (2 : ℚ) ^ (e - 52) = (m : ℚ) + 1 / 2)
    (hm' : m' = if m % 2 = 0 then m else m + 1)
    (hfin : (m' : ℚ) * (2 : ℚ) ^ (e - 52) < (2 : ℚ) ^ (1024 : ℕ)) :
    round q = fin ((m' : ℚ) * (2 : ℚ) ^ (e - 52)) := by
  have hq : 0 < q := lt_of_lt_of_le (by positivity) h1
  have hu := ulp_of_log q e he h1 h2
  rw [round_of_pos q hq, hu, hm, roundHalfEven_half, ← hm', if_neg (not_le.mpr hfin)]

end F64

theorem Seconds_sample_a :
    Duration.Seconds 775012945 = F64.fin (6980696020618621 / 9007199254740992) := by
  unfold Duration.Seconds
  have h1 : Int.tdiv 775012945 1000000000 = 0 := by decide
  have h2 : Int.tmod 775012945 1000000000 = 775012945 := by decide
  have h3 : F64.ofInt 0 = F64.fin 0 := by
    unfold F64.ofInt; rw [Int.cast_zero, F64.round_zero]
  have h4 : F64.ofInt 775012945 = F64.fin 775012945 := by
    have := F64.ofInt_exact 775012945 (by norm_num) (by norm_num)
    simpa using this
  have h5 : F64.round (775012945 / 1000000000) =
      F64.fin (6980696020618621 / 9007199254740992) := by
    rw [F64.round_eval _ (-1) 6980696020618621 (by norm_num) (by norm_num) (by norm_num)
      (by norm_num [abs_lt]) (by norm_num)]
    norm_num
  rw [h1, h2, h3, h4, F64.round_1e9, F64.div_fin _ _ (by norm_num), h5]
  show F64.round (0 + 6980696020618621 / 9007199254740992) = _
  rw [zero_add]
  exact F64.round_round _ _ h5

theorem Seconds_sample_b :
    Duration.Seconds 1550025890 = F64.fin (6980696020618622 / 4503599627370496) := by
  unfold Duration.Seconds
  have h1 : Int.tdiv 1550025890 1000000000 = 1 := by decide
  have h2 : Int.tmod 1550025890 1000000000 = 550025890 := by decide
  have h3 : F64.ofInt 1 = F64.fin 1 := by
    have := F64.ofInt_exact 1 (by norm_num) (by norm_num)
    simpa using this
  have h4 : F64.ofInt 550025890 = F64.fin 550025890 := by
    have := F64.ofInt_exact 550025890 (by norm_num) (by norm_num)
    simpa using this
  have h5 : F64.round (550025890 / 1000000000) =
      F64.fin (4954192786496251 / 9007199254740992) := by
    rw [F64.round_eval _ (-1) 4954192786496251 (by norm_num) (by norm_num) (by norm_num)
      (by norm_num [abs_lt]) (by norm_num)]
    norm_num
  rw [h1, h2, h3, h4, F64.round_1e9, F64.div_fin _ _ (by norm_num), h5]
  show F64.round (1 + 4954192786496251 / 9007199254740992) = _
  -- the sum lies halfway between two binary64 values
  rw [F64.round_tie _ 0 6980696020618621 6980696020618622 (by norm_num) (by norm_num)
    (by norm_num) (by norm_num) (by decide) (by norm_num)]
  norm_num

theorem measure_tape_a :
    measure tapeRuntime (idleOp "idle") 1 ([⟨0, 0⟩, ⟨0, 0⟩], [775012945]) =
      (callEvents "idle" 0 [775012945], .ok ([775012945], ⟨0, 0⟩, ⟨0, 0⟩) ([], [])) := by
  decide

theorem measure_tape_b :
    measure tapeRuntime (idleOp "idle") 1 ([⟨0, 0⟩, ⟨0, 0⟩], [1550025890]) =
      (callEvents "idle" 0 [1550025890], .ok ([1550025890], ⟨0, 0⟩, ⟨0, 0⟩) ([], [])) := by
  decide

/-- C17 fails as stated: one call of 775012945 ns gives a `Throughput` of
`5810999230948970 / 2^52`; with the call doubled to 1550025890 ns the
`Throughput` is `5810999230948969 / 2^53`, one unit in the last place below
the half. -/
theorem Run_scaling_throughput :
    ∃ r r',
      Run tapeRuntime (idleOp "idle") 1 ([⟨0, 0⟩, ⟨0, 0⟩], [775012945]) =
        (callEvents "idle" 0 [775012945], .ok r ([], [])) ∧
      Run tapeRuntime (idleOp "idle") 1 ([⟨0, 0⟩, ⟨0, 0⟩], [1550025890]) =
        (callEvents "idle" 0 [1550025890], .ok r' ([], [])) ∧
      r.Throughput = F64.fin (5810999230948970 / 4503599627370496) ∧
      r'.Throughput = F64.fin (5810999230948969 / 9007199254740992) ∧
      r'.Throughput ≠ F64.fin (5810999230948970 / 4503599627370496 / 2) := by
  obtain ⟨t, _, hrun⟩ := Run_full _ _ _ _ _ _ _ _ _ (by decide) measure_tape_a
  obtain ⟨t', _, hrun'⟩ := Run_full _ _ _ _ _ _ _ _ _ (by decide) measure_tape_b
  have htot : totalTime [775012945] = 775012945 := by
    rw [totalTime_of_range _ (by norm_num) (by norm_num)]; norm_num
  have htot' : totalTime [1550025890] = 1550025890 := by
    rw [totalTime_of_range _ (by norm_num) (by norm_num)]; norm_num
  have h1 : F64.div (F64.fin ((1 : ℤ) : ℚ)) (F64.fin (6980696020618621 / 9007199254740992)) =
      F64.fin (5810999230948970 / 4503599627370496) := by
    rw [F64.div_fin _ _ (by norm_num),
      F64.round_eval _ 0 5810999230948970 (by norm_num) (by norm_num) (by norm_num)
        (by norm_num [abs_lt]) (by norm_num)]
    norm_num
  have h2 : F64.div (F64.fin ((1 : ℤ) : ℚ)) (F64.fin (6980696020618622 / 4503599627370496)) =
      F64.fin (5810999230948969 / 9007199254740992) := by
    rw [F64.div_fin _ _ (by norm_num),
      F64.round_eval _ (-1) 5810999230948969 (by norm_num) (by norm_num) (by norm_num)
        (by norm_num [abs_lt]) (by norm_num)]
    norm_num
  rw [htot, Seconds_sample_a, h1] at hrun
  rw [htot', Seconds_sample_b, h2] at hrun'
  refine ⟨_, _, hrun, hrun', rfl, rfl, ?_⟩
  simp only [ne_eq, F64.fin.injEq]
  norm_num

/-! ## What the result depends on -/

/-- C18, as amended: two runs with the same `N ≥ 1`, equal timing samples and
equal snapshot pairs return Results with the same five numeric fields,
whatever the operations and the outside worlds; the field `Operation` is the
name of the operation measured, so the Results are equal when the names are. -/
theorem Run_pure {σ τ : Type} (rt : Runtime σ) (op : Operation σ) (rt' : Runtime τ)
    (op' : Operation τ) (N : ℤ) (s : σ) (s' : τ) (evs evs' : List Event) (ts : List Duration)
    (mS mE : MemStats) (s1 : σ) (s1' : τ) (hN : 1 ≤ N)
    (hm : measure rt op N s = (evs, .ok (ts, mS, mE) s1))
    (hm' : measure rt' op' N s' = (evs', .ok (ts, mS, mE) s1')) :
    ∃ r r', Run rt op N s = (evs, .ok r s1) ∧ Run rt' op' N s' = (evs', .ok r' s1') ∧
      r.AvgLatency = r'.AvgLatency ∧ r.P95Latency = r'.P95Latency ∧
      r.Throughput = r'.Throughput ∧ r.AvgRAM = r'.AvgRAM ∧ r.GCPause = r'.GCPause ∧
      r.Operation = op.Name ∧ r'.Operation = op'.Name ∧ (op.Name = op'.Name → r = r') := by
  obtain ⟨t, ht, hrun⟩ := Run_full rt op N s evs ts mS mE s1 hN hm
  obtain ⟨t', ht', hrun'⟩ := Run_full rt' op' N s' evs' ts mS mE s1' hN hm'
  rw [ht] at ht'
  cases ht'
  refine ⟨_, _, hrun, hrun', rfl, rfl, rfl, rfl, rfl, rfl, rfl, ?_⟩
  intro h
  rw [h]

theorem Run_pure_witness :
    ∃ r r',
      Run clockRuntime steadyOp 5 0 =
        (callEvents "steady" 0 [1000000, 1000000, 1000000, 1000000, 1000000],
          .ok r 5000000) ∧
      Run tapeRuntime (idleOp "idle") 5
          ([⟨0, 0⟩, ⟨5000000, 0⟩], [1000000, 1000000, 1000000, 1000000, 1000000]) =
        (callEvents "idle" 0 [1000000, 1000000, 1000000, 1000000, 1000000],
          .ok r' ([], [])) ∧
      r.AvgLatency = r'.AvgLatency ∧ r.P95Latency = r'.P95Latency ∧
      r.Throughput = r'.Throughput ∧ r.AvgRAM = r'.AvgRAM ∧ r.GCPause = r'.GCPause ∧
      r.Operation = steadyOp.Name ∧ r'.Operation = (idleOp "idle").Name ∧
      (steadyOp.Name = (idleOp "idle").Name → r = r') :=
  Run_pure clockRuntime steadyOp tapeRuntime (idleOp "idle") 5 0
    ([⟨0, 0⟩, ⟨5000000, 0⟩], [1000000, 1000000, 1000000, 1000000, 1000000])
    (callEvents "steady" 0 [1000000, 1000000, 1000000, 1000000, 1000000])
    (callEvents "idle" 0 [1000000, 1000000, 1000000, 1000000, 1000000])
    [1000000, 1000000, 1000000, 1000000, 1000000] ⟨0, 0⟩ ⟨5000000, 0⟩ 5000000 ([], [])
    (by decide) (by decide) (by decide)

theorem measure_tape_named (name : String) :
    measure tapeRuntime (idleOp name) 1 ([⟨0, 0⟩, ⟨0, 0⟩], [1000000]) =
      (callEvents name 0 [1000000], .ok ([1000000], ⟨0, 0⟩, ⟨0, 0⟩) ([], [])) := by
  rfl

/-- C18 fails as stated: two runs on the same recording (one call of one
millisecond, equal snapshots) that measure operations of different names
return different Results. -/
theorem Run_pure_names :
    ∃ r r',
      Run tapeRuntime (idleOp "first") 1 ([⟨0, 0⟩, ⟨0, 0⟩], [1000000]) =
        (callEvents "first" 0 [1000000], .ok r ([], [])) ∧
      Run tapeRuntime (idleOp "second") 1 ([⟨0, 0⟩, ⟨0, 0⟩], [1000000]) =
        (callEvents "second" 0 [1000000], .ok r' ([], [])) ∧
      r ≠ r' := by
  obtain ⟨t, _, hrun⟩ := Run_full _ _ _ _ _ _ _ _ _ (by decide) (measure_tape_named "first")
  obtain ⟨t', _, hrun'⟩ := Run_full _ _ _ _ _ _ _ _ _ (by decide) (measure_tape_named "second")
  refine ⟨_, _, hrun, hrun', ?_⟩
  intro h
  have hname : ("first" : String) = "second" := congrArg Result.Operation h
  exact absurd hname (by decide)

/-! ## Decimal rendering -/

theorem digitChar_spec (k : ℕ) (hk : k < 10) :
    (Nat.digitChar k).isDigit = true ∧ (Nat.digitChar k).toNat - 48 = k := by
  interval_cases k <;> exact ⟨by decide, by decide⟩

theorem readDecimal_snoc (ds : List Char) (c : Char) :
    readDecimal (ds ++ [c]) = 10 * readDecimal ds + (c.toNat - 48) := by
  unfold readDecimal
  rw [List.foldl_append]
  rfl

/-- With enough fuel `Nat.toDigitsCore` puts a non-empty run of digits that
reads back as `n` in front of the accumulator. -/
theorem toDigitsCore_reads (fuel : ℕ) :
    ∀ (n : ℕ) (acc : List Char), n < fuel →
      ∃ ds, Nat.toDigitsCore 10 fuel n acc = ds ++ acc ∧ ds ≠ [] ∧
        (∀ c ∈ ds, c.isDigit = true) ∧ readDecimal ds = n := by
  induction fuel with
  | zero => intro n acc h; omega
  | succ f ih =>
    intro n acc hn
    have hd := digitChar_spec (n % 10) (Nat.mod_lt n (by norm_num))
    unfold Nat.toDigitsCore
    by_cases h0 : n / 10 = 0
    · have hlt : n < 10 := by omega
      refine ⟨[Nat.digitChar (n % 10)], by simp [h0], by simp, ?_, ?_⟩
      · intro c hc
        rw [List.mem_singleton] at hc
        rw [hc]; exact hd.1
      · have := readDecimal_snoc [] (Nat.digitChar (n % 10))
        rw [List.nil_append] at this
        rw [this, hd.2]
        show 10 * 0 + n % 10 = n
        omega
    · obtain ⟨ds, h1, _, h3, h4⟩ := ih (n / 10) (Nat.digitChar (n % 10) :: acc) (by omega)
      refine ⟨ds ++ [Nat.digitChar (n % 10)], by simp [h0, h1], by simp, ?_, ?_⟩
      · intro c hc
        rcases List.mem_append.mp hc with hc | hc
        · exact h3 c hc
        · rw [List.mem_singleton] at hc
          rw [hc]; exact hd.1
      · rw [readDecimal_snoc, h4, hd.2]
        omega

/-- The decimal rendering of a natural number: a non-empty run of digits that
reads back as the number. -/
theorem toString_nat_reads (n : ℕ) :
    (toString n).data ≠ [] ∧ (∀ c ∈ (toString n).data, c.isDigit = true) ∧
      readDecimal (toString n).data = n := by
  obtain ⟨ds, h1, h2, h3, h4⟩ := toDigitsCore_reads (n + 1) n [] (Nat.lt_succ_self n)
  have : (toString n).data = ds := by
    show (Nat.repr n).data = ds
    unfold Nat.repr Nat.toDigits
    rw [h1, List.append_nil]
    rfl
  rw [this]
  exact ⟨h2, h3, h4⟩

theorem toString_nat_injective (a b : ℕ) (h : toString a = toString b) : a = b := by
  have ha := (toString_nat_reads a).2.2
  have hb := (toString_nat_reads b).2.2
  rw [h] at ha
  rw [← ha, hb]

theorem string_append_cancel (p a b : String) (h : p ++ a = p ++ b) : a = b := by
  have := congrArg String.data h
  rw [String.data_append, String.data_append] at this
  exact String.ext (List.append_cancel_left this)

theorem formatInt_injective (i j : ℤ) (h : formatInt i = formatInt j) : i = j := by
  have hminus : ∀ a b : ℕ, "-" ++ toString a ≠ toString b := by
    intro a b hab
    obtain ⟨h1, h2, _⟩ := toString_nat_reads b
    rw [← hab, String.data_append] at h2
    have := h2 '-' (by simp)
    revert this
    decide
  unfold formatInt at h
  split_ifs at h with hi hj hj
  · have := toString_nat_injective _ _ (string_append_cancel _ _ _ h)
    omega
  · exact absurd h (hminus _ _)
  · exact absurd h.symm (hminus _ _)
  · have := toString_nat_injective _ _ h
    omega

/-! ## Keys derived from the iteration index -/

/-- C20: for iteration indices `i ≠ j` the product name built for `i` differs
from the one built for `j`, and in each of the raw-SQL, GORM and ent programs
`CreateProduct.Execute(i)` inserts under exactly the name
`DeleteProductByName.Execute(i)` deletes, the text `Product_` followed by the
decimal digits of `i`. -/
theorem product_keys {σ : Type} (db : Handle σ) (s : σ) (i j : ℤ) (h : i ≠ j) :
    sprintfProduct i ≠ sprintfProduct j ∧
      sprintfProduct i = "Product_" ++ formatInt i ∧
      (SQL.CreateProduct db).Execute i s =
        db (.Exec "INSERT INTO products (name, description, price, stock) VALUES ($1, $2, $3, $4)"
          [.text (sprintfProduct i), .text "Test product", .float price9999, .int 100]) s ∧
      (SQL.DeleteProductByName db).Execute i s =
        db (.Exec "DELETE FROM products WHERE name = $1" [.text (sprintfProduct i)]) s ∧
      (∃ p : Product, p.Name = sprintfProduct i ∧
        (GORM.CreateProduct db).Execute i s = db (.GormCreate p) s) ∧
      (∃ model : Product, (GORM.DeleteProductByName db).Execute i s =
        db (.GormWhereDelete "name = ?" [.text (sprintfProduct i)] model) s) ∧
      (Ent.CreateProduct db).Execute i s =
        db (.EntProductCreate (sprintfProduct i) "Test product" price9999 100) s ∧
      (Ent.DeleteProductByName db).Execute i s =
        db (.EntProductDeleteWhereName (sprintfProduct i)) s := by
  refine ⟨?_, rfl, rfl, rfl, ⟨_, rfl, rfl⟩, ⟨_, rfl⟩, rfl, rfl⟩
  intro hn
  exact h (formatInt_injective i j (string_append_cancel _ _ _ hn))

theorem product_keys_witness :
    sprintfProduct 0 ≠ sprintfProduct 1 ∧
      sprintfProduct 0 = "Product_" ++ formatInt 0 ∧
      (SQL.CreateProduct recorder).Execute 0 [] =
        recorder (.Exec
          "INSERT INTO products (name, description, price, stock) VALUES ($1, $2, $3, $4)"
          [.text (sprintfProduct 0), .text "Test product", .float price9999, .int 100]) [] ∧
      (SQL.DeleteProductByName recorder).Execute 0 [] =
        recorder (.Exec "DELETE FROM products WHERE name = $1" [.text (sprintfProduct 0)]) [] ∧
      (∃ p : Product, p.Name = sprintfProduct 0 ∧
        (GORM.CreateProduct recorder).Execute 0 [] = recorder (.GormCreate p) []) ∧
      (∃ model : Product, (GORM.DeleteProductByName recorder).Execute 0 [] =
        recorder (.GormWhereDelete "name = ?" [.text (sprintfProduct 0)] model) []) ∧
      (Ent.CreateProduct recorder).Execute 0 [] =
        recorder (.EntProductCreate (sprintfProduct 0) "Test product" price9999 100) [] ∧
      (Ent.DeleteProductByName recorder).Execute 0 [] =
        recorder (.EntProductDeleteWhereName (sprintfProduct 0)) [] :=
  product_keys recorder [] 0 1 (by decide)

theorem sprintfProduct_seven : sprintfProduct 7 = "Product_7" := by decide

/-! ## The single-entity query -/

theorem tableEnv_found (rows : List Customer) (ID : ℤ) :
    tableEnv.All ((tableEnv.Query.Where [tableEnv.ID ID]).Limit 2) rows =
      (((rows.filter (fun c => decide (c.ID = ID))).take 2, none), rows) := by
  simp [tableEnv, CustomerQuery.Where, CustomerQuery.Limit]

/-- C19: `Only` runs the query with its limit set to 2; it passes an error of
that query through, returns the entity and no error when exactly one entity is
found, a `NotFoundError` when none is and a `NotSingularError` when more than
one is, with no entity in all three error cases. So `GetCustomerByID.Execute`
fails exactly when the query errs or finds no or more than one customer; on a
table of rows that is when the number of rows with the configured ID is not
one. -/
theorem Only_cases {σ : Type} (env : CustomerEnv σ) (cq : CustomerQuery) (s : σ)
    (nodes : List Customer) (err : Option EntError) (s1 : σ)
    (h : env.All (cq.Limit 2) s = ((nodes, err), s1)) :
    ((cq.Limit 2).ctx.Limit = some 2 ∧ (cq.Limit 2).predicates = cq.predicates) ∧
      (∀ e, err = some e → CustomerQuery.Only env cq s = ((none, some e), s1)) ∧
      (err = none → ∀ node, nodes = [node] →
        CustomerQuery.Only env cq s = ((some node, none), s1)) ∧
      (err = none → nodes = [] →
        CustomerQuery.Only env cq s = ((none, some (.NotFoundError env.Label)), s1)) ∧
      (err = none → 2 ≤ nodes.length →
        CustomerQuery.Only env cq s = ((none, some (.NotSingularError env.Label)), s1)) ∧
      (∀ ID iteration : ℤ, cq = env.Query.Where [env.ID ID] →
        (GetCustomerByID.Execute env ID iteration s =
            ((CustomerQuery.Only env cq s).1.2, s1)) ∧
          ((GetCustomerByID.Execute env ID iteration s).1 ≠ none ↔
            (err ≠ none ∨ nodes = [] ∨ 2 ≤ nodes.length))) ∧
      (∀ (rows : List Customer) (ID iteration : ℤ),
        ((GetCustomerByID.Execute tableEnv ID iteration rows).1 ≠ none ↔
          (rows.filter (fun c => decide (c.ID = ID))).length ≠ 1)) := by
  have hE : ∀ e, err = some e → CustomerQuery.Only env cq s = ((none, some e), s1) := by
    intro e he
    simp only [CustomerQuery.Only, h, he]
  have h1 : err = none → ∀ node, nodes = [node] →
      CustomerQuery.Only env cq s = ((some node, none), s1) := by
    intro he node hn
    simp only [CustomerQuery.Only, h, he, hn]
  have h0 : err = none → nodes = [] →
      CustomerQuery.Only env cq s = ((none, some (.NotFoundError env.Label)), s1) := by
    intro he hn
    simp only [CustomerQuery.Only, h, he, hn]
  have h2 : err = none → 2 ≤ nodes.length →
      CustomerQuery.Only env cq s = ((none, some (.NotSingularError env.Label)), s1) := by
    intro he hn
    match nodes, hn with
    | a :: b :: rest, _ => simp only [CustomerQuery.Only, h, he]
  have hcases : ∀ l : List Customer, l = [] ∨ (∃ a, l = [a]) ∨ 2 ≤ l.length := by
    intro l
    match l with
    | [] => exact Or.inl rfl
    | [a] => exact Or.inr (Or.inl ⟨a, rfl⟩)
    | a :: b :: rest => exact Or.inr (Or.inr (by simp))
  refine ⟨⟨rfl, rfl⟩, hE, h1, h0, h2, ?_, ?_⟩
  · intro ID iteration hcq
    have hs1 : (CustomerQuery.Only env cq s).2 = s1 := by
      cases err with
      | some e => rw [hE e rfl]
      | none =>
        rcases hcases nodes with hn | ⟨a, hn⟩ | hn
        · rw [h0 rfl hn]
        · rw [h1 rfl a hn]
        · rw [h2 rfl hn]
    have hex : GetCustomerByID.Execute env ID iteration s =
        ((CustomerQuery.Only env cq s).1.2, s1) := by
      unfold GetCustomerByID.Execute
      simp only [← hcq, hs1]
    refine ⟨hex, ?_⟩
    rw [hex]
    cases err with
    | some e => rw [hE e rfl]; simp
    | none =>
      rcases hcases nodes with hn | ⟨a, hn⟩ | hn
      · rw [h0 rfl hn]; simp [hn]
      · rw [h1 rfl a hn]; simp [hn]
      · rw [h2 rfl hn]; simp [hn]
  · intro rows ID iteration
    have hf := tableEnv_found rows ID
    unfold GetCustomerByID.Execute CustomerQuery.Only
    rw [hf]
    generalize rows.filter (fun c => decide (c.ID = ID)) = found
    match found with
    | [] => simp
    | [a] => simp
    | a :: b :: rest => simp

theorem Only_cases_witness :
    (((tableEnv.Query.Where [tableEnv.ID 1]).Limit 2).ctx.Limit = some 2 ∧
        ((tableEnv.Query.Where [tableEnv.ID 1]).Limit 2).predicates =
          (tableEnv.Query.Where [tableEnv.ID 1]).predicates) ∧
      (∀ e, (none : Option EntError) = some e →
        CustomerQuery.Only tableEnv (tableEnv.Query.Where [tableEnv.ID 1])
            [⟨1, "Ann", "ann@example.com", 0⟩, ⟨2, "Bob", "bob@example.com", 0⟩] =
          ((none, some e),
            [⟨1, "Ann", "ann@example.com", 0⟩, ⟨2, "Bob", "bob@example.com", 0⟩])) ∧
      ((none : Option EntError) = none → ∀ node,
        [(⟨1, "Ann", "ann@example.com", 0⟩ : Customer)] = [node] →
        CustomerQuery.Only tableEnv (tableEnv.Query.Where [tableEnv.ID 1])
            [⟨1, "Ann", "ann@example.com", 0⟩, ⟨2, "Bob", "bob@example.com", 0⟩] =
          ((some node, none),
            [⟨1, "Ann", "ann@example.com", 0⟩, ⟨2, "Bob", "bob@example.com", 0⟩])) ∧
      ((none : Option EntError) = none →
        [(⟨1, "Ann", "ann@example.com", 0⟩ : Customer)] = [] →
        CustomerQuery.Only tableEnv (tableEnv.Query.Where [tableEnv.ID 1])
            [⟨1, "Ann", "ann@example.com", 0⟩, ⟨2, "Bob", "bob@example.com", 0⟩] =
          ((none, some (.NotFoundError tableEnv.Label)),
            [⟨1, "Ann", "ann@example.com", 0⟩, ⟨2, "Bob", "bob@example.com", 0⟩])) ∧
      ((none : Option EntError) = none →
        2 ≤ [(⟨1, "Ann", "ann@example.com", 0⟩ : Customer)].length →
        CustomerQuery.Only tableEnv (tableEnv.Query.Where [tableEnv.ID 1])
            [⟨1, "Ann", "ann@example.com", 0⟩, ⟨2, "Bob", "bob@example.com", 0⟩] =
          ((none, some (.NotSingularError tableEnv.Label)),
            [⟨1, "Ann", "ann@example.com", 0⟩, ⟨2, "Bob", "bob@example.com", 0⟩])) ∧
      (∀ ID iteration : ℤ,
        tableEnv.Query.Where [tableEnv.ID 1] = tableEnv.Query.Where [tableEnv.ID ID] →
        (GetCustomerByID.Execute tableEnv ID iteration
              [⟨1, "Ann", "ann@example.com", 0⟩, ⟨2, "Bob", "bob@example.com", 0⟩] =
            ((CustomerQuery.Only tableEnv (tableEnv.Query.Where [tableEnv.ID 1])
                [⟨1, "Ann", "ann@example.com", 0⟩, ⟨2, "Bob", "bob@example.com", 0⟩]).1.2,
              [⟨1, "Ann", "ann@example.com", 0⟩, ⟨2, "Bob", "bob@example.com", 0⟩])) ∧
          ((GetCustomerByID.Execute tableEnv ID iteration
              [⟨1, "Ann", "ann@example.com", 0⟩, ⟨2, "Bob", "bob@example.com", 0⟩]).1 ≠ none ↔
            ((none : Option EntError) ≠ none ∨
              [(⟨1, "Ann", "ann@example.com", 0⟩ : Customer)] = [] ∨
              2 ≤ [(⟨1, "Ann", "ann@example.com", 0⟩ : Customer)].length))) ∧
      (∀ (rows : List Customer) (ID iteration : ℤ),
        ((GetCustomerByID.Execute tableEnv ID iteration rows).1 ≠ none ↔
          (rows.filter (fun c => decide (c.ID = ID))).length ≠ 1)) :=
  Only_cases tableEnv (tableEnv.Query.Where [tableEnv.ID 1])
    [⟨1, "Ann", "ann@example.com", 0⟩, ⟨2, "Bob", "bob@example.com", 0⟩]
    [⟨1, "Ann", "ann@example.com", 0⟩] none
    [⟨1, "Ann", "ann@example.com", 0⟩, ⟨2, "Bob", "bob@example.com", 0⟩] (by rfl)

/-- On a table where no row, or two rows, carry the configured ID,
`GetCustomerByID.Execute` returns the two errors of `Only`. -/
theorem GetCustomerByID_examples :
    (GetCustomerByID.Execute tableEnv 3 0
        [⟨1, "Ann", "ann@example.com", 0⟩, ⟨2, "Bob", "bob@example.com", 0⟩]).1 =
      some (.NotFoundError "customer") ∧
    (GetCustomerByID.Execute tableEnv 1 0
        [⟨1, "Ann", "ann@example.com", 0⟩, ⟨1, "Bob", "bob@example.com", 0⟩,
          ⟨1, "Cid", "cid@example.com", 0⟩]).1 =
      some (.NotSingularError "customer") ∧
    (GetCustomerByID.Execute tableEnv 2 0
        [⟨1, "Ann", "ann@example.com", 0⟩, ⟨2, "Bob", "bob@example.com", 0⟩]).1 = none := by
  refine ⟨by rfl, by rfl, by rfl⟩

/-! ## The layout of a row -/

theorem takeWhile_run (p : Char → Bool) (x : Char) (hx : p x = false) (fp : List Char) :
    ∀ ip : List Char, (∀ c ∈ ip, p c = true) →
      (ip ++ x :: fp).takeWhile p = ip ∧ (ip ++ x :: fp).dropWhile p = x :: fp := by
  intro ip
  induction ip with
  | nil => intro _; simp [List.takeWhile, List.dropWhile, hx]
  | cons a l ih =>
    intro h
    have ha : p a = true := h a (List.mem_cons_self _ _)
    obtain ⟨h1, h2⟩ := ih (fun c hc => h c (List.mem_cons_of_mem _ hc))
    simp [List.takeWhile, List.dropWhile, ha, h1, h2]

/-- A run of digits, a point and four digits, with or without a minus sign in
front, has the shape of a fixed-point numeral with four decimals. -/
theorem isFixed4_of_parts (ip fp : List Char) (hip : ip ≠ [])
    (hipd : ∀ c ∈ ip, c.isDigit = true) (hfl : fp.length = 4)
    (hfd : ∀ c ∈ fp, c.isDigit = true) :
    isFixed4 (String.mk (ip ++ '.' :: fp)) = true ∧
      isFixed4 (String.mk ('-' :: (ip ++ '.' :: fp))) = true := by
  obtain ⟨h1, h2⟩ := takeWhile_run Char.isDigit '.' (by decide) fp ip hipd
  have hne : ip.isEmpty = false := by
    cases ip with
    | nil => exact absurd rfl hip
    | cons a l => rfl
  have hall : fp.all Char.isDigit = true := List.all_eq_true.mpr hfd
  constructor
  · have hhead : (ip ++ '.' :: fp).head? ≠ some '-' := by
      cases ip with
      | nil => exact absurd rfl hip
      | cons a l =>
        intro h
        simp only [List.cons_append, List.head?_cons, Option.some.injEq] at h
        have := hipd a (List.mem_cons_self _ _)
        rw [h] at this
        revert this
        decide
    unfold isFixed4
    simp only [hhead, if_false, h1, h2, hne, List.head?_cons, List.tail_cons, hfl, hall]
    decide
  · unfold isFixed4
    simp only [List.head?_cons, if_true, List.tail_cons, h1, h2, hne, hfl, hall]
    decide

theorem zeroPad_four (m : ℕ) (hm : m < 10000) :
    (zeroPad 4 m).data.length = 4 ∧ ∀ c ∈ (zeroPad 4 m).data, c.isDigit = true := by
  obtain ⟨_, hd, _⟩ := toString_nat_reads m
  have hlen : (toString m).length ≤ 4 := Nat.repr_length m 4 (by norm_num) (by norm_num; exact hm)
  have hdata : (zeroPad 4 m).data =
      List.replicate (4 - (toString m).length) '0' ++ (toString m).data := by
    unfold zeroPad
    rw [String.data_append]
  rw [hdata]
  constructor
  · rw [List.length_append, List.length_replicate]
    have : (toString m).data.length = (toString m).length := rfl
    omega
  · intro c hc
    rcases List.mem_append.mp hc with hc | hc
    · rw [List.eq_of_mem_replicate hc]
      decide
    · exact hd c hc

/-- The verb `%.4f` renders every finite value as a fixed-point numeral with
exactly four decimals. -/
theorem fmt4_fixed (q : ℚ) : isFixed4 (fmt4 (F64.fin q)) = true := by
  have hn0 := toString_nat_reads ((roundHalfEven (|q| * 10000)).toNat / 10000)
  have hz := zeroPad_four ((roundHalfEven (|q| * 10000)).toNat % 10000)
    (Nat.mod_lt _ (by norm_num))
  obtain ⟨p1, p2⟩ := isFixed4_of_parts _ _ hn0.1 hn0.2.1 hz.1 hz.2
  unfold fmt4
  simp only
  by_cases hq : q < 0
  · rw [if_pos hq]
    have e : "-" ++ toString ((roundHalfEven (|q| * 10000)).toNat / 10000) ++ "." ++
        zeroPad 4 ((roundHalfEven (|q| * 10000)).toNat % 10000) =
        String.mk ('-' :: ((toString ((roundHalfEven (|q| * 10000)).toNat / 10000)).data ++
          '.' :: (zeroPad 4 ((roundHalfEven (|q| * 10000)).toNat % 10000)).data)) := by
      apply String.ext
      simp [String.data_append]
    rw [e]; exact p2
  · rw [if_neg hq]
    have e : "" ++ toString ((roundHalfEven (|q| * 10000)).toNat / 10000) ++ "." ++
        zeroPad 4 ((roundHalfEven (|q| * 10000)).toNat % 10000) =
        String.mk ((toString ((roundHalfEven (|q| * 10000)).toNat / 10000)).data ++
          '.' :: (zeroPad 4 ((roundHalfEven (|q| * 10000)).toNat % 10000)).data) := by
      apply String.ext
      simp [String.data_append]
    rw [e]; exact p1

theorem padRight_spec (w : ℕ) (s : String) :
    (padRight w s).data = s.data ++ List.replicate (w - s.length) ' ' ∧
      (padRight w s).length = max w s.length := by
  unfold padRight
  constructor
  · rw [String.data_append]
  · rw [String.length_append]
    show s.length + (List.replicate (w - s.length) ' ').length = _
    rw [List.length_replicate]
    omega

/-- C11, as amended: the row printed for a Result is the operation name padded
on the right with spaces to at least 60 characters, then the five numeric
fields in the order average latency, p95 latency, throughput, average RAM, GC
pause, each padded on the right to at least 20 characters, the six columns
joined by single spaces and the row ended by a newline; a finite field is
rendered in fixed-point notation with exactly four decimals, an infinite or
NaN field as `+Inf`, `-Inf` or `NaN`; the header is built with the same widths. -/
theorem formatRow_layout (r : Result) :
    formatRow r =
        String.intercalate " "
          [padRight 60 r.Operation, padRight 20 (fmt4 r.AvgLatency),
            padRight 20 (fmt4 r.P95Latency), padRight 20 (fmt4 r.Throughput),
            padRight 20 (fmt4 r.AvgRAM), padRight 20 (fmt4 r.GCPause)] ++ "\n" ∧
      (∀ f : F64, (∃ q, f = F64.fin q ∧ isFixed4 (fmt4 f) = true) ∨
        (f = F64.pinf ∧ fmt4 f = "+Inf") ∨ (f = F64.ninf ∧ fmt4 f = "-Inf") ∨
        (f = F64.nan ∧ fmt4 f = "NaN")) ∧
      (∀ (w : ℕ) (s : String),
        (padRight w s).data = s.data ++ List.replicate (w - s.length) ' ' ∧
          (padRight w s).length = max w s.length) ∧
      headerLine =
        String.intercalate " "
          [padRight 60 "Operation", padRight 20 "Avg Latency (ms)",
            padRight 20 "P95 Latency (ms)", padRight 20 "Throughput (ops/s)",
            padRight 20 "Avg RAM (MB)", padRight 20 "GC Pause (ms)"] ++ "\n" := by
  refine ⟨rfl, ?_, padRight_spec, rfl⟩
  intro f
  cases f with
  | fin q => exact Or.inl ⟨q, rfl, fmt4_fixed q⟩
  | pinf => exact Or.inr (Or.inl ⟨rfl, rfl⟩)
  | ninf => exact Or.inr (Or.inr (Or.inl ⟨rfl, rfl⟩))
  | nan => exact Or.inr (Or.inr (Or.inr ⟨rfl, rfl⟩))

theorem fmt4_zero : fmt4 (F64.fin 0) = "0.0000" := by
  have h : roundHalfEven (|(0 : ℚ)| * 10000) = 0 := by
    have := roundHalfEven_intCast 0
    simpa using this
  unfold fmt4
  simp only [h]
  decide

theorem measure_instant :
    measure replayRuntime quietOp 1 [0] =
      (callEvents "quiet" 0 [0], .ok ([0], ⟨0, 0⟩, ⟨0, 0⟩) []) := by decide

/-- C11 fails as stated: a run whose single call takes no measurable time
returns a Result with `Throughput = +Inf`, and its row shows `+Inf` in the
throughput column, which is not a numeral with four decimals. -/
theorem formatRow_inf :
    ∃ r, Run replayRuntime quietOp 1 [0] = (callEvents "quiet" 0 [0], .ok r []) ∧
      r.Throughput = F64.pinf ∧ isFixed4 (fmt4 r.Throughput) = false ∧
      formatRow r =
        padRight 60 "quiet" ++ " " ++ padRight 20 "0.0000" ++ " " ++ padRight 20 "0.0000" ++
          " " ++ padRight 20 "+Inf" ++ " " ++ padRight 20 "0.0000" ++ " " ++
          padRight 20 "0.0000" ++ "\n" := by
  obtain ⟨t, ht, hrun⟩ := Run_full _ _ _ _ _ _ _ _ _ (by decide) measure_instant
  have htot : totalTime [0] = 0 := by decide
  have ht0 : t = 0 := by
    have hmem := List.getElem?_mem ht
    have hperm : (sortDurations [0]).Perm _ := List.perm_insertionSort _ _
    have := hperm.subset hmem
    simpa using this
  have h0 : F64.ofInt 0 = F64.fin 0 := by
    unfold F64.ofInt; rw [Int.cast_zero, F64.round_zero]
  have hw : wrapU64 (((0 : ℕ) : ℤ) - ((0 : ℕ) : ℤ)) = 0 := by decide
  have hd1 : F64.div (F64.fin 0) (F64.fin ((1 : ℤ) : ℚ)) = F64.fin 0 := by
    rw [F64.div_fin _ _ (by norm_num), zero_div, F64.round_zero]
  have hd2 : F64.div (F64.fin 0) (F64.fin 1000000) = F64.fin 0 := by
    rw [F64.div_fin _ _ (by norm_num), zero_div, F64.round_zero]
  have hd3 : F64.div (F64.fin 0) (F64.fin 1048576) = F64.fin 0 := by
    rw [F64.div_fin _ _ (by norm_num), zero_div, F64.round_zero]
  have hthr : F64.div (F64.fin ((1 : ℤ) : ℚ)) (F64.fin 0) = F64.pinf := by
    simp [F64.div]
  simp only [hw] at hrun
  rw [htot, ht0, h0, hd1, hd2, hd3, Seconds_zero, hthr] at hrun
  refine ⟨_, hrun, rfl, by decide, ?_⟩
  simp only [formatRow, fmt4_zero]
  rfl

/-! ## The index stays inside the sample -/

/-- For every positive `int64` count the index computed in `float64` lies
between 0 and `N - 1`. -/
theorem p95Index_bounds (N : ℤ) (h1 : 1 ≤ N) (h2 : N < 2 ^ 63) :
    0 ≤ p95Index N ∧ p95Index N ≤ N - 1 := by
  have hε : (2 : ℚ) ^ (-53 : ℤ) = 1 / 9007199254740992 := by norm_num
  have hN1 : (1 : ℚ) ≤ N := by exact_mod_cast h1
  have hN2 : (N : ℚ) ≤ 2 ^ 63 := by exact_mod_cast h2.le
  -- the conversion of `N`
  obtain ⟨a, ha, hac⟩ := F64.round_rel (N : ℚ) (le_trans (by norm_num) hN1)
    (le_trans hN2 (by norm_num))
  rw [hε, abs_le] at hac
  obtain ⟨hac1, hac2⟩ := hac
  -- the product with the constant
  have hp1 : (1 : ℚ) / 2 ≤ 4278419646001971 / 4503599627370496 * a := by linarith
  have hp2 : 4278419646001971 / 4503599627370496 * a ≤ 2 ^ 64 := by linarith
  obtain ⟨r, hr, hrc⟩ := F64.round_rel (4278419646001971 / 4503599627370496 * a)
    (le_trans (by norm_num) hp1) (le_trans hp2 (by norm_num))
  rw [hε, abs_le] at hrc
  obtain ⟨hrc1, hrc2⟩ := hrc
  have hr0 : 0 < r := by linarith
  have hrN : r ≤ N := by linarith
  have hK1 : 1 ≤ ⌈r⌉ := Int.one_le_ceil_iff.mpr hr0
  have hK2 : ⌈r⌉ ≤ N := Int.ceil_le.mpr hrN
  have hmul : F64.mul (F64.round (19 / 20)) (F64.ofInt N) = F64.fin r := by
    rw [F64.round_095]
    unfold F64.ofInt
    rw [ha]
    exact hr
  unfold p95Index
  rw [hmul]
  simp only [F64.ceil, F64.toInt]
  have hKq : (0 : ℚ) ≤ ((⌈r⌉ : ℤ) : ℚ) := by exact_mod_cast (by omega : (0 : ℤ) ≤ ⌈r⌉)
  rw [if_pos hKq, Int.floor_intCast, if_pos (by constructor <;> omega),
    wrap64_of_range _ (by omega) (by omega), max_eq_left (by omega)]
  constructor <;> omega

theorem measure_panic_msg {σ : Type} (rt : Runtime σ) (op : Operation σ) (N : ℤ) (s : σ)
    (evs : List Event) (msg : String) (s1 : σ)
    (h : measure rt op N s = (evs, .panic msg s1)) :
    msg = "makeslice: len out of range" ∨ msg = "runtime: out of memory" := by
  unfold measure at h
  split at h
  · simp only [Prod.mk.injEq, Outcome.panic.injEq] at h
    exact Or.inl h.2.1.symm
  · split at h
    · simp only [Prod.mk.injEq, Outcome.panic.injEq] at h
      exact Or.inr h.2.1.symm
    · simp only at h
      split at h
      · simp at h
      · simp at h
      · rename_i msg' s' hl
        exact absurd hl (loop_no_panic rt op _ _ _ _ _ _)

/-- C21: for every `N ≥ 1` (an `int64`) the index `max(ceil(0.95*N) - 1, 0)`
computed by `Run` satisfies `0 ≤ index ≤ N - 1`; when the measurement
completes the sample has `N` entries, the sorted sample has an entry at the
index, and `Run` returns a Result: it never ends in the index-out-of-range
panic. -/
theorem Run_index_in_range {σ : Type} (rt : Runtime σ) (op : Operation σ) (N : ℤ) (s : σ)
    (hN : 1 ≤ N) (hN2 : N < 2 ^ 63) :
    0 ≤ p95Index N ∧ p95Index N ≤ N - 1 ∧
      (∀ evs ts mS mE s1, measure rt op N s = (evs, .ok (ts, mS, mE) s1) →
        ts.length = N.toNat ∧ (sortDurations ts).length = N.toNat ∧
          (∃ t, (sortDurations ts)[(p95Index N).toNat]? = some t) ∧
          ∃ r, Run rt op N s = (evs, .ok r s1)) ∧
      ∀ s1, (Run rt op N s).2 ≠ .panic "index out of range" s1 := by
  obtain ⟨hb1, hb2⟩ := p95Index_bounds N hN hN2
  have key : ∀ evs ts mS mE s1, measure rt op N s = (evs, .ok (ts, mS, mE) s1) →
      ts.length = N.toNat ∧ (sortDurations ts).length = N.toNat ∧
        (∃ t, (sortDurations ts)[(p95Index N).toNat]? = some t) ∧
        ∃ r, Run rt op N s = (evs, .ok r s1) := by
    intro evs ts mS mE s1 hm
    obtain ⟨_, _, hlen, _⟩ := measure_ok rt op N s evs ts mS mE s1 hm
    obtain ⟨r, hr, _⟩ := Run_of_measure rt op N s evs ts mS mE s1 hN hm
    have hslen : (sortDurations ts).length = N.toNat := by
      unfold sortDurations
      rw [List.length_insertionSort, hlen]
    have hlt : (p95Index N).toNat < (sortDurations ts).length := by
      rw [hslen]; omega
    exact ⟨hlen, hslen, ⟨_, List.getElem?_eq_getElem hlt⟩, r, hr⟩
  refine ⟨hb1, hb2, key, ?_⟩
  intro s1 hp
  rcases hm : measure rt op N s with ⟨evs, o⟩
  cases o with
  | ok a s2 =>
    obtain ⟨ts, mS, mE⟩ := a
    obtain ⟨_, _, _, r, hr⟩ := key evs ts mS mE s2 hm
    rw [hr] at hp
    cases hp
  | fatal s2 =>
    unfold Run at hp
    simp only [hm] at hp
    cases hp
  | panic msg s2 =>
    have hmsg := measure_panic_msg rt op N s evs msg s2 hm
    unfold Run at hp
    simp only [hm] at hp
    rcases hmsg with hmsg | hmsg
    · rw [hmsg] at hp
      revert hp
      simp
    · rw [hmsg] at hp
      revert hp
      simp

theorem Run_index_in_range_witness :
    0 ≤ p95Index 20 ∧ p95Index 20 ≤ 20 - 1 ∧
      (∀ evs ts mS mE s1, measure clockRuntime rampOp 20 0 = (evs, .ok (ts, mS, mE) s1) →
        ts.length = (20 : ℤ).toNat ∧ (sortDurations ts).length = (20 : ℤ).toNat ∧
          (∃ t, (sortDurations ts)[(p95Index 20).toNat]? = some t) ∧
          ∃ r, Run clockRuntime rampOp 20 0 = (evs, .ok r s1)) ∧
      ∀ s1, (Run clockRuntime rampOp 20 0).2 ≠ .panic "index out of range" s1 :=
  Run_index_in_range clockRuntime rampOp 20 0 (by decide) (by decide)

/-! ## The order of the calls -/

/-- C22: two runs with the same `N ≥ 1` whose timing samples are permutations
of each other, with the same snapshots, return the same `AvgLatency`,
`P95Latency` and `Throughput` (and the same `AvgRAM` and `GCPause`): the
statistics depend on the sample only as a multiset. -/
theorem Run_perm {σ τ : Type} (rt : Runtime σ) (op : Operation σ) (rt' : Runtime τ)
    (op' : Operation τ) (N : ℤ) (s : σ) (s' : τ) (evs evs' : List Event)
    (ts ts' : List Duration) (mS mE : MemStats) (s1 : σ) (s1' : τ) (hN : 1 ≤ N)
    (hm : measure rt op N s = (evs, .ok (ts, mS, mE) s1))
    (hm' : measure rt' op' N s' = (evs', .ok (ts', mS, mE) s1'))
    (hperm : ts.Perm ts') :
    ∃ r r', Run rt op N s = (evs, .ok r s1) ∧ Run rt' op' N s' = (evs', .ok r' s1') ∧
      totalTime ts = totalTime ts' ∧ sortDurations ts = sortDurations ts' ∧
      r.AvgLatency = r'.AvgLatency ∧ r.P95Latency = r'.P95Latency ∧
      r.Throughput = r'.Throughput ∧ r.AvgRAM = r'.AvgRAM ∧ r.GCPause = r'.GCPause := by
  obtain ⟨t, ht, hrun⟩ := Run_full rt op N s evs ts mS mE s1 hN hm
  obtain ⟨t', ht', hrun'⟩ := Run_full rt' op' N s' evs' ts' mS mE s1' hN hm'
  have htot : totalTime ts = totalTime ts' := by
    rw [totalTime_eq, totalTime_eq, hperm.sum_eq]
  have hsort : sortDurations ts = sortDurations ts' :=
    sortDurations_unique ts (sortDurations ts') (List.sorted_insertionSort _ ts')
      ((List.perm_insertionSort _ ts').trans hperm.symm)
  rw [hsort, ht'] at ht
  cases ht
  rw [htot] at hrun
  exact ⟨_, _, hrun, hrun', htot, hsort, rfl, rfl, rfl, rfl, rfl⟩

theorem Run_perm_witness :
    ∃ r r',
      Run tapeRuntime (idleOp "idle") 3 ([⟨0, 0⟩, ⟨0, 0⟩], [1000000, 3000000, 2000000]) =
        (callEvents "idle" 0 [1000000, 3000000, 2000000], .ok r ([], [])) ∧
      Run tapeRuntime (idleOp "idle") 3 ([⟨0, 0⟩, ⟨0, 0⟩], [3000000, 2000000, 1000000]) =
        (callEvents "idle" 0 [3000000, 2000000, 1000000], .ok r' ([], [])) ∧
      totalTime [1000000, 3000000, 2000000] = totalTime [3000000, 2000000, 1000000] ∧
      sortDurations [1000000, 3000000, 2000000] = sortDurations [3000000, 2000000, 1000000] ∧
      r.AvgLatency = r'.AvgLatency ∧ r.P95Latency = r'.P95Latency ∧
      r.Throughput = r'.Throughput ∧ r.AvgRAM = r'.AvgRAM ∧ r.GCPause = r'.GCPause :=
  Run_perm tapeRuntime (idleOp "idle") tapeRuntime (idleOp "idle") 3
    ([⟨0, 0⟩, ⟨0, 0⟩], [1000000, 3000000, 2000000])
    ([⟨0, 0⟩, ⟨0, 0⟩], [3000000, 2000000, 1000000])
    (callEvents "idle" 0 [1000000, 3000000, 2000000])
    (callEvents "idle" 0 [3000000, 2000000, 1000000])
    [1000000, 3000000, 2000000] [3000000, 2000000, 1000000] ⟨0, 0⟩ ⟨0, 0⟩ ([], []) ([], [])
    (by decide) (by decide) (by decide) (by decide)

/-! ## Throughput against latency -/

/-- The average latency `float64(S) / N / 10^6` is within three roundings of
the exact `S / N / 10^6`. -/
theorem avgLatency_close (N S : ℤ) (hN1 : 1 ≤ N) (hN2 : N ≤ 2 ^ 45) (hS0 : 0 < S)
    (hS1 : S < 2 ^ 63) :
    ∃ A, F64.div (F64.div (F64.ofInt S) (F64.fin N)) (F64.fin 1000000) = F64.fin A ∧
      (S : ℚ) / N / 1000000 * (9007199254740988 / 9007199254740992) ≤ A ∧
      A ≤ (S : ℚ) / N / 1000000 * (9007199254740996 / 9007199254740992) := by
  have hε : (2 : ℚ) ^ (-53 : ℤ) = 1 / 9007199254740992 := by norm_num
  have hNq1 : (1 : ℚ) ≤ N := by exact_mod_cast hN1
  have hNq2 : (N : ℚ) ≤ 2 ^ 45 := by exact_mod_cast hN2
  have hNpos : (0 : ℚ) < N := by linarith
  have hSq1 : (1 : ℚ) ≤ S := by exact_mod_cast (by omega : (1 : ℤ) ≤ S)
  have hSq2 : (S : ℚ) ≤ 2 ^ 63 := by exact_mod_cast hS1.le
  -- first rounding: the conversion of the sum
  obtain ⟨a, ha, hac⟩ := F64.round_rel (S : ℚ) (le_trans (by norm_num) hSq1)
    (le_trans hSq2 (by norm_num))
  rw [hε, abs_le] at hac
  obtain ⟨hac1, hac2⟩ := hac
  have ha1 : (1 : ℚ) / 2 ≤ a := by linarith
  have ha2 : a ≤ 2 ^ 64 := by linarith
  -- second rounding: the division by `N`
  have hb1 : (1 : ℚ) / 2 ^ 46 ≤ a / N := by
    have : (1 : ℚ) / 2 / 2 ^ 45 ≤ a / N := div_le_div₀ (by linarith) ha1 hNpos hNq2
    exact le_trans (by norm_num) this
  have hb2 : a / N ≤ 2 ^ 64 := le_trans (div_le_self (by linarith) hNq1) ha2
  obtain ⟨b, hb, hbc⟩ := F64.round_rel (a / N) (le_trans (by norm_num) hb1)
    (le_trans hb2 (by norm_num))
  rw [hε, abs_le] at hbc
  obtain ⟨hbc1, hbc2⟩ := hbc
  -- third rounding: the division by `10^6`
  have hc1 : (1 : ℚ) / 2 ^ 68 ≤ b / 1000000 := by
    rw [le_div_iff₀ (by norm_num)]
    have : (1 : ℚ) / 2 ^ 68 * 1000000 ≤ 1 / 2 ^ 47 := by norm_num
    linarith
  have hc2 : b / 1000000 ≤ 2 ^ 65 := by
    rw [div_le_iff₀ (by norm_num)]
    linarith
  obtain ⟨c, hc, hcc⟩ := F64.round_rel (b / 1000000) (le_trans (by norm_num) hc1)
    (le_trans hc2 (by norm_num))
  rw [hε, abs_le] at hcc
  obtain ⟨hcc1, hcc2⟩ := hcc
  refine ⟨c, ?_, ?_, ?_⟩
  · unfold F64.ofInt
    rw [ha, F64.div_fin _ _ hNpos.ne', hb, F64.div_fin _ _ (by norm_num), hc]
  all_goals
    have hY1 : (S : ℚ) / N * (9007199254740991 / 9007199254740992) ≤ a / N := by
      rw [div_mul_eq_mul_div]
      exact div_le_div_of_nonneg_right (by linarith) hNpos.le
    have hY2 : a / N ≤ (S : ℚ) / N * (9007199254740993 / 9007199254740992) := by
      rw [div_mul_eq_mul_div]
      exact div_le_div_of_nonneg_right (by linarith) hNpos.le
    have hYpos : (0 : ℚ) < (S : ℚ) / N := div_pos (by linarith) hNpos
    generalize (S : ℚ) / N = Y at hY1 hY2 hYpos ⊢
    generalize a / N = Z at hY1 hY2 hbc1 hbc2
    linarith

/-- C23, as amended: for `N ≥ 1` and a timing sample whose sum is positive and
fits an `int64`, the `Throughput` and `AvgLatency` returned by `Run` are
positive finite numbers whose product is 1000 up to the `float64` roundings:
`|Throughput * AvgLatency - 1000| ≤ 1000 / 2^49`. -/
theorem Run_reciprocal {σ : Type} (rt : Runtime σ) (op : Operation σ) (N : ℤ) (s : σ)
    (evs : List Event) (ts : List Duration) (mS mE : MemStats) (s1 : σ) (hN : 1 ≤ N)
    (hm : measure rt op N s = (evs, .ok (ts, mS, mE) s1))
    (hsum0 : 0 < ts.sum) (hsum1 : ts.sum < 2 ^ 63) :
    ∃ r A T, Run rt op N s = (evs, .ok r s1) ∧ r.AvgLatency = F64.fin A ∧
      r.Throughput = F64.fin T ∧ 0 < A ∧ 0 < T ∧ |T * A - 1000| ≤ 1000 / 2 ^ 49 := by
  obtain ⟨_, hN2, _, _⟩ := measure_ok rt op N s evs ts mS mE s1 hm
  have hN2' : N ≤ 2 ^ 45 := by unfold maxLen at hN2; exact hN2
  obtain ⟨t, _, hrun⟩ := Run_full rt op N s evs ts mS mE s1 hN hm
  have htot : totalTime ts = ts.sum := totalTime_of_range ts (by linarith) hsum1
  rw [htot] at hrun
  obtain ⟨A, hA, hA1, hA2⟩ := avgLatency_close N ts.sum hN hN2' hsum0 hsum1
  obtain ⟨T, hT, hT1, hT2⟩ := throughput_close N ts.sum hN hN2' hsum0 hsum1
  have hSq : (0 : ℚ) < (ts.sum : ℚ) := by exact_mod_cast hsum0
  have hNq : (0 : ℚ) < (N : ℚ) := by exact_mod_cast (by omega : (0 : ℤ) < N)
  have hX : (0 : ℚ) < (ts.sum : ℚ) / N / 1000000 := by positivity
  have hB : (0 : ℚ) < (N : ℚ) / ((ts.sum : ℚ) / 1000000000) := by positivity
  have hgen : ∀ n q : ℚ, 0 < n → 0 < q → n / (q / 1000000000) * (q / n / 1000000) = 1000 := by
    intro n q hn hq
    field_simp
    ring
  have hBX : (N : ℚ) / ((ts.sum : ℚ) / 1000000000) * ((ts.sum : ℚ) / N / 1000000) = 1000 :=
    hgen _ _ hNq hSq
  generalize (ts.sum : ℚ) / N / 1000000 = X at hA1 hA2 hX hBX
  generalize (N : ℚ) / ((ts.sum : ℚ) / 1000000000) = B at hT1 hT2 hB hBX
  have hApos : 0 < A := by
    have : 0 < X * (9007199254740988 / 9007199254740992) := by positivity
    linarith
  have hTpos : 0 < T := by
    have : 0 < B * (9007199254740991 / 9007199254740995) := by positivity
    linarith
  have hup : T * A ≤
      B * (9007199254740993 / 9007199254740989) * (X * (9007199254740996 / 9007199254740992)) :=
    mul_le_mul hT2 hA2 hApos.le (by positivity)
  have hlo : B * (9007199254740991 / 9007199254740995) *
      (X * (9007199254740988 / 9007199254740992)) ≤ T * A :=
    mul_le_mul hT1 hA1 (by positivity) hTpos.le
  have e1 : B * (9007199254740993 / 9007199254740989) *
      (X * (9007199254740996 / 9007199254740992)) =
      B * X * (9007199254740993 / 9007199254740989 * (9007199254740996 / 9007199254740992)) := by
    ring
  have e2 : B * (9007199254740991 / 9007199254740995) *
      (X * (9007199254740988 / 9007199254740992)) =
      B * X * (9007199254740991 / 9007199254740995 * (9007199254740988 / 9007199254740992)) := by
    ring
  rw [e1, hBX] at hup
  rw [e2, hBX] at hlo
  refine ⟨_, A, T, hrun, hA, hT, hApos, hTpos, ?_⟩
  rw [abs_le]
  constructor
  · have : (1000 : ℚ) *
        (9007199254740991 / 9007199254740995 * (9007199254740988 / 9007199254740992)) ≥
        1000 - 1000 / 2 ^ 49 := by norm_num
    linarith
  · have : (1000 : ℚ) *
        (9007199254740993 / 9007199254740989 * (9007199254740996 / 9007199254740992)) ≤
        1000 + 1000 / 2 ^ 49 := by norm_num
    linarith

theorem Run_reciprocal_witness :
    ∃ r A T, Run clockRuntime steadyOp 5 0 =
        (callEvents "steady" 0 [1000000, 1000000, 1000000, 1000000, 1000000],
          .ok r 5000000) ∧
      r.AvgLatency = F64.fin A ∧ r.Throughput = F64.fin T ∧ 0 < A ∧ 0 < T ∧
      |T * A - 1000| ≤ 1000 / 2 ^ 49 :=
  Run_reciprocal clockRuntime steadyOp 5 0 _ [1000000, 1000000, 1000000, 1000000, 1000000]
    ⟨0, 0⟩ ⟨5000000, 0⟩ 5000000 (by decide) (by decide) (by decide) (by decide)

theorem Seconds_sample_c :
    Duration.Seconds 1000004 = F64.fin (4611704465171462 / 4611686018427387904) := by
  unfold Duration.Seconds
  have h1 : Int.tdiv 1000004 1000000000 = 0 := by decide
  have h2 : Int.tmod 1000004 1000000000 = 1000004 := by decide
  have h3 : F64.ofInt 0 = F64.fin 0 := by
    unfold F64.ofInt; rw [Int.cast_zero, F64.round_zero]
  have h4 : F64.ofInt 1000004 = F64.fin 1000004 := by
    have := F64.ofInt_exact 1000004 (by norm_num) (by norm_num)
    simpa using this
  have h5 : F64.round (1000004 / 1000000000) =
      F64.fin (4611704465171462 / 4611686018427387904) := by
    rw [F64.round_eval _ (-10) 4611704465171462 (by norm_num) (by norm_num) (by norm_num)
      (by norm_num [abs_lt]) (by norm_num)]
    norm_num
  rw [h1, h2, h3, h4, F64.round_1e9, F64.div_fin _ _ (by norm_num), h5]
  show F64.round (0 + 4611704465171462 / 4611686018427387904) = _
  rw [zero_add]
  exact F64.round_round _ _ h5

theorem measure_tape_c :
    measure tapeRuntime (idleOp "idle") 1 ([⟨0, 0⟩, ⟨0, 0⟩], [1000004]) =
      (callEvents "idle" 0 [1000004], .ok ([1000004], ⟨0, 0⟩, ⟨0, 0⟩) ([], [])) := by
  decide

/-- C23 fails as stated: one call of 1000004 ns gives `AvgLatency = 1.000004`
and `Throughput = 999.9960000159998` as `float64` values; their product is not
1000, neither exactly nor when multiplied in `float64`
(`999.9999999999998`). -/
theorem Run_reciprocal_rounding :
    ∃ r, Run tapeRuntime (idleOp "idle") 1 ([⟨0, 0⟩, ⟨0, 0⟩], [1000004]) =
        (callEvents "idle" 0 [1000004], .ok r ([], [])) ∧
      r.AvgLatency = F64.fin (4503617641769005 / 4503599627370496) ∧
      r.Throughput = F64.fin (8796057837976647 / 8796093022208) ∧
      (8796057837976647 / 8796093022208 : ℚ) * (4503617641769005 / 4503599627370496) ≠ 1000 ∧
      F64.mul r.Throughput r.AvgLatency = F64.fin (8796093022207998 / 8796093022208) ∧
      F64.mul r.Throughput r.AvgLatency ≠ F64.fin 1000 := by
  obtain ⟨t, _, hrun⟩ := Run_full _ _ _ _ _ _ _ _ _ (by decide) measure_tape_c
  have htot : totalTime [1000004] = 1000004 := by
    rw [totalTime_of_range _ (by norm_num) (by norm_num)]; norm_num
  have h1 : F64.ofInt 1000004 = F64.fin 1000004 := by
    have := F64.ofInt_exact 1000004 (by norm_num) (by norm_num)
    simpa using this
  have h2 : F64.div (F64.fin 1000004) (F64.fin ((1 : ℤ) : ℚ)) = F64.fin 1000004 := by
    rw [F64.div_fin _ _ (by norm_num)]
    have := F64.ofInt_exact 1000004 (by norm_num) (by norm_num)
    unfold F64.ofInt at this
    simpa using this
  have h3 : F64.div (F64.fin 1000004) (F64.fin 1000000) =
      F64.fin (4503617641769005 / 4503599627370496) := by
    rw [F64.div_fin _ _ (by norm_num),
      F64.round_eval _ 0 4503617641769005 (by norm_num) (by norm_num) (by norm_num)
        (by norm_num [abs_lt]) (by norm_num)]
    norm_num
  have h4 : F64.div (F64.fin ((1 : ℤ) : ℚ)) (F64.fin (4611704465171462 / 4611686018427387904)) =
      F64.fin (8796057837976647 / 8796093022208) := by
    rw [F64.div_fin _ _ (by norm_num),
      F64.round_eval _ 9 8796057837976647 (by norm_num) (by norm_num) (by norm_num)
        (by norm_num [abs_lt]) (by norm_num)]
    norm_num
  have h5 : F64.mul (F64.fin (8796057837976647 / 8796093022208))
      (F64.fin (4503617641769005 / 4503599627370496)) =
      F64.fin (8796093022207998 / 8796093022208) := by
    show F64.round (8796057837976647 / 8796093022208 * (4503617641769005 / 4503599627370496)) = _
    rw [F64.round_eval _ 9 8796093022207998 (by norm_num) (by norm_num) (by norm_num)
        (by norm_num [abs_lt]) (by norm_num)]
    norm_num
  rw [htot, h1, h2, h3, Seconds_sample_c, h4] at hrun
  refine ⟨_, hrun, rfl, rfl, by norm_num, h5, ?_⟩
  show F64.mul (F64.fin (8796057837976647 / 8796093022208))
      (F64.fin (4503617641769005 / 4503599627370496)) ≠ _
  rw [h5]
  simp only [ne_eq, F64.fin.injEq]
  norm_num

end Bench
